import Mathlib

/-!
# KD-tree (PA3/kdtree.hpp): shallow embedding and verified properties

The C++ class `KDTree<std::tuple<KeyTypes...>, ValueType>` is embedded as follows.

* A key is a tuple of `K` coordinates.  Coordinates are integers here and a key is the list of
  its coordinates; `K` (the C++ `KeySize`) is an explicit parameter of every operation, and a
  template parameter `DIM` becomes an ordinary argument.
* A `Node*` that owns a subtree is the inductive type `Node V`; `Node.nil` is `nullptr`.
  In-place updates of a node become the construction of the updated subtree.
* A `Node*` that merely refers to a node inside a tree (the result of `find`, `findMin`,
  an iterator) is the position of that node: the list of child links followed from the root.
  Every node is created with `parent` equal to the node whose child slot receives it
  (`insert`, `vectorConstruct`, `copyFrom`), and no operation re-links a node, so
  `node->parent` is the position with its last link removed.
* `treeSize` is threaded through the recursive functions that update it; `size_t` and the
  `int` indices of `vectorConstruct` are unbounded numbers (`left + right` stays inside `int`
  for vectors of fewer than 2^30 elements).
* A pointer to a node that has been deleted is represented explicitly (`Root.freed`);
  public operations return `none` when they would dereference it.
* The standard algorithms are not part of the repository: `std::stable_sort` and
  `std::unique` have one possible result, which `stableSort` and `stdUnique` compute;
  `std::nth_element` is a parameter `nth`, constrained where needed by its contract
  `NthElementSpec`, with `nthBySort` as a reference implementation.
-/

namespace KDTree

/-- A key: the coordinates of a `std::tuple`, in order. -/
abbrev Key := List Int

/-- The coordinate `std::get<dim>(key)`. -/
def coord (dim : Nat) (key : Key) : Int := key.getD dim 0

/-- Tuple comparison `a < b`: lexicographic, first differing coordinate decides. -/
def keyLess : Key → Key → Bool
  | [], [] => false
  | [], _ :: _ => true
  | _ :: _, [] => false
  | a :: as, b :: bs => if a < b then true else if b < a then false else keyLess as bs

/-- The two comparison functors the tree is instantiated with. -/
inductive Compare where
  | less
  | greater
  deriving DecidableEq, Repr

/-- Applying `std::less<>` or `std::greater<>` to two coordinates. -/
def Compare.onCoord : Compare → Int → Int → Bool
  | .less, a, b => decide (a < b)
  | .greater, a, b => decide (a > b)

/-- Applying `std::less<>` or `std::greater<>` to two whole keys (`a > b` is `b < a`). -/
def Compare.onKey : Compare → Key → Key → Bool
  | .less, a, b => keyLess a b
  | .greater, a, b => keyLess b a

/-- A child link. -/
inductive Dir where
  | L
  | R
  deriving DecidableEq, Repr

/-- The position of a node: child links from the root (or from the subtree at hand). -/
abbrev Path := List Dir

/-- An owning `Node*`: `nil` is `nullptr`, `node` holds `data` and both children. -/
inductive Node (V : Type) where
  | nil
  | node (key : Key) (value : V) (left right : Node V)
  deriving DecidableEq, Repr

/-- A non-owning, non-null `Node*` together with the data it points at. -/
structure NodeRef (V : Type) where
  path : Path
  key : Key
  value : V
  deriving DecidableEq, Repr

/-- A pointer into a child subtree, seen from the parent. -/
def NodeRef.under {V : Type} (d : Dir) (r : NodeRef V) : NodeRef V :=
  { r with path := d :: r.path }

/-- Source `DIM_NEXT = (DIM + 1) % KeySize`. -/
def dimNext (K dim : Nat) : Nat := (dim + 1) % K

/-- Source `Node *find<DIM>(const Key &key, Node *node)`. -/
def find {V : Type} (K : Nat) : Nat → Key → Node V → Option (NodeRef V)
  | _, _, .nil => none
  | dim, key, .node k v l r =>
    if key = k then some ⟨[], k, v⟩
    else if coord dim k ≤ coord dim key then
      (find K (dimNext K dim) key r).map (NodeRef.under .R)
    else (find K (dimNext K dim) key l).map (NodeRef.under .L)

/-- Source `bool insert<DIM>(key, value, Node *&node, Node *parent)`; the result is the returned
flag, the new content of the slot `node`, and the new `treeSize`. -/
def insert {V : Type} (K : Nat) : Nat → Key → V → Node V → Nat → Bool × Node V × Nat
  | _, key, value, .nil, sz => (true, .node key value .nil .nil, sz + 1)
  | dim, key, value, .node k v l r, sz =>
    if key = k then (false, .node k value l r, sz)
    else if coord dim k ≤ coord dim key then
      let res := insert K (dimNext K dim) key value r sz
      (res.1, .node k v l res.2.1, res.2.2)
    else
      let res := insert K (dimNext K dim) key value l sz
      (res.1, .node k v res.2.1 r, res.2.2)

/-- The subtree reached from `n` along `p` (`nil` when the walk leaves the tree). -/
def subtreeAt {V : Type} : Node V → Path → Node V
  | n, [] => n
  | .nil, _ :: _ => .nil
  | .node _ _ l _, .L :: p => subtreeAt l p
  | .node _ _ _ r, .R :: p => subtreeAt r p

/-- The `(key, value)` stored in the node at position `p`. -/
def dataAt {V : Type} (n : Node V) (p : Path) : Option (Key × V) :=
  match subtreeAt n p with
  | .nil => none
  | .node k v _ _ => some (k, v)

/-- Source `bool compareKey<DIM, Compare>(a, b, compare)`. -/
def compareKey (dim : Nat) (cmp : Compare) (a b : Key) : Bool :=
  if coord dim a ≠ coord dim b then cmp.onCoord (coord dim a) (coord dim b)
  else cmp.onKey a b

/-- Source `Node *compareNode<DIM, Compare>(Node *a, Node *b, compare)`. -/
def compareNode {V : Type} (dim : Nat) (cmp : Compare) :
    Option (NodeRef V) → Option (NodeRef V) → Option (NodeRef V)
  | none, b => b
  | some a, none => some a
  | some a, some b => if compareKey dim cmp a.key b.key then some a else some b

/-- Source `Node *findMin<DIM_CMP, DIM>(Node *node)`; `c` is `DIM_CMP`. -/
def findMin {V : Type} (K c : Nat) : Nat → Node V → Option (NodeRef V)
  | _, .nil => none
  | dim, .node k v l r =>
    let min := (findMin K c (dimNext K dim) l).map (NodeRef.under .L)
    let min :=
      if c ≠ dim then
        compareNode c .less min ((findMin K c (dimNext K dim) r).map (NodeRef.under .R))
      else min
    compareNode c .less (some ⟨[], k, v⟩) min

/-- Source `Node *findMax<DIM_CMP, DIM>(Node *node)`; `c` is `DIM_CMP`. -/
def findMax {V : Type} (K c : Nat) : Nat → Node V → Option (NodeRef V)
  | _, .nil => none
  | dim, .node k v l r =>
    let max := (findMax K c (dimNext K dim) r).map (NodeRef.under .R)
    let max :=
      if c ≠ dim then
        compareNode c .greater max ((findMax K c (dimNext K dim) l).map (NodeRef.under .L))
      else max
    compareNode c .greater (some ⟨[], k, v⟩) max

/-- Source `Node *findMinDynamic<DIM>(size_t dim)`.  The first argument bounds the chain of
instantiations `DIM, DIM_NEXT, ...`; `K` links always reach `dim`. -/
def findMinDynamic {V : Type} (K : Nat) (root : Node V) : Nat → Nat → Nat → Option (NodeRef V)
  | 0, _, _ => none
  | fuel + 1, DIM, dim =>
    let dim := if dim ≥ K then dim % K else dim
    if dim = DIM then findMin K DIM 0 root
    else findMinDynamic K root fuel (dimNext K DIM) dim

/-- Source `Node *findMaxDynamic<DIM>(size_t dim)`, as `findMinDynamic`. -/
def findMaxDynamic {V : Type} (K : Nat) (root : Node V) : Nat → Nat → Nat → Option (NodeRef V)
  | 0, _, _ => none
  | fuel + 1, DIM, dim =>
    let dim := if dim ≥ K then dim % K else dim
    if dim = DIM then findMax K DIM 0 root
    else findMaxDynamic K root fuel (dimNext K DIM) dim

/-- Source `Node *erase<DIM>(Node *node, const Key &key)`; the result is the returned pointer (the
node itself after the in-place update, or `nil` when it was deleted) and the new `treeSize`.
`findMin` and `findMax` are only called on a non-null child, where they return a node; the
`none` branches keep the node as it is. `treeSize--` only runs when a node is deleted. -/
def erase {V : Type} (K : Nat) : Nat → Node V → Key → Nat → Node V × Nat
  | _, .nil, _, sz => (.nil, sz)
  | dim, .node k v l r, key, sz =>
    if key = k then
      match l, r with
      | .nil, .nil => (.nil, sz - 1)
      | l, .node rk rv rl rr =>
        match findMin K dim (dimNext K dim) (.node rk rv rl rr) with
        | none => (.node k v l (.node rk rv rl rr), sz)
        | some m =>
          let res := erase K (dimNext K dim) (.node rk rv rl rr) m.key sz
          (.node m.key m.value l res.1, res.2)
      | .node lk lv ll lr, .nil =>
        match findMax K dim (dimNext K dim) (.node lk lv ll lr) with
        | none => (.node k v (.node lk lv ll lr) .nil, sz)
        | some m =>
          let res := erase K (dimNext K dim) (.node lk lv ll lr) m.key sz
          (.node m.key m.value res.1 .nil, res.2)
    else if coord dim key < coord dim k then
      let res := erase K (dimNext K dim) l key sz
      (.node k v res.1 r, res.2)
    else
      let res := erase K (dimNext K dim) r key sz
      (.node k v l res.1, res.2)

/-- In-order list of the `(key, value)` entries of a subtree. -/
def Node.toList {V : Type} : Node V → List (Key × V)
  | .nil => []
  | .node k v l r => l.toList ++ (k, v) :: r.toList

/-- In-order list of the keys of a subtree. -/
def Node.keys {V : Type} (n : Node V) : List Key := n.toList.map Prod.fst

/-- Number of nodes of a subtree. -/
def Node.count {V : Type} : Node V → Nat
  | .nil => 0
  | .node _ _ l r => l.count + 1 + r.count

/-- The partition invariant of a subtree whose root branches on `dim`: at every node the
left subtree is strictly smaller and the right subtree is greater or equal on the node's
branching dimension, which advances cyclically with the depth. -/
def partitionOK {V : Type} (K : Nat) : Nat → Node V → Bool
  | _, .nil => true
  | dim, .node k _ l r =>
    l.keys.all (fun a => decide (coord dim a < coord dim k)) &&
    r.keys.all (fun a => decide (coord dim k ≤ coord dim a)) &&
    partitionOK K (dimNext K dim) l && partitionOK K (dimNext K dim) r

/-- The member `root`: a null or live owning pointer, or the address of a deleted node. -/
inductive Root (V : Type) where
  | live (n : Node V)
  | freed
  deriving DecidableEq, Repr

/-- The members of a `KDTree` object. -/
structure Tree (V : Type) where
  root : Root V
  treeSize : Nat
  deriving DecidableEq, Repr

/-- An `Iterator`: its `node` member (`null` is `end()`). -/
inductive Iter where
  | null
  | ptr (p : Path)
  deriving DecidableEq, Repr

/-- Source `Iterator(this, node)`. -/
def Iter.ofRef {V : Type} : Option (NodeRef V) → Iter
  | none => .null
  | some r => .ptr r.path

/-- Source `KDTree() = default`. -/
def Tree.empty {V : Type} : Tree V := ⟨.live .nil, 0⟩

/-- Source `size()`. -/
def Tree.size {V : Type} (t : Tree V) : Nat := t.treeSize

/-- Source `Iterator find(const Key &key)`. -/
def Tree.find {V : Type} (K : Nat) (t : Tree V) (key : Key) : Option Iter :=
  match t.root with
  | .freed => none
  | .live n => some (Iter.ofRef (KDTree.find K 0 key n))

/-- Source `void insert(const Key &key, const Value &value)`. -/
def Tree.insert {V : Type} (K : Nat) (t : Tree V) (key : Key) (value : V) : Option (Tree V) :=
  match t.root with
  | .freed => none
  | .live n =>
    let res := KDTree.insert K 0 key value n t.treeSize
    some ⟨.live res.2.1, res.2.2⟩

/-- Source `operator*` of an iterator of tree `t`. -/
def Tree.deref {V : Type} (t : Tree V) : Iter → Option (Key × V)
  | .null => none
  | .ptr p =>
    match t.root with
    | .freed => none
    | .live n => dataAt n p

/-- A sequence of `insert` calls, applied in order. -/
def Tree.insertAll {V : Type} (K : Nat) : Tree V → List (Key × V) → Option (Tree V)
  | t, [] => some t
  | t, kv :: rest =>
    match t.insert K kv.1 kv.2 with
    | none => none
    | some t1 => Tree.insertAll K t1 rest

/-- The value passed to the last `insert` of `k` in a sequence of calls: scanning the calls
in order, every call with key `k` replaces the value remembered so far. -/
def lastValue {V : Type} (ops : List (Key × V)) (k : Key) : Option V :=
  ops.foldl (fun acc kv => if kv.1 = k then some kv.2 else acc) none

/-- Source `Iterator findMin(size_t dim)`. -/
def Tree.findMin {V : Type} (K : Nat) (t : Tree V) (dim : Nat) : Option Iter :=
  match t.root with
  | .freed => none
  | .live n => some (Iter.ofRef (findMinDynamic K n K 0 dim))

/-- Source `Iterator findMax(size_t dim)`. -/
def Tree.findMax {V : Type} (K : Nat) (t : Tree V) (dim : Nat) : Option Iter :=
  match t.root with
  | .freed => none
  | .live n => some (Iter.ofRef (findMaxDynamic K n K 0 dim))

/-- Source `bool erase(const Key &key)`.  The pointer returned by `erase<0>` is discarded, so
`root` keeps its old value: the same node, updated in place, or, when that node was
deleted, the address of a deleted node. -/
def Tree.erase {V : Type} (K : Nat) (t : Tree V) (key : Key) : Option (Bool × Tree V) :=
  match t.root with
  | .freed => none
  | .live n =>
    let prevSize := t.treeSize
    let res := KDTree.erase K 0 n key t.treeSize
    let root :=
      match n, res.1 with
      | .node _ _ _ _, .nil => Root.freed
      | _, n1 => Root.live n1
    some (decide (prevSize > res.2), ⟨root, res.2⟩)

/-- The loop `while (node->left) node = node->left`, as the links it follows. -/
def descendLeft {V : Type} : Node V → Path
  | .nil => []
  | .node _ _ .nil _ => []
  | .node _ _ l _ => .L :: descendLeft l

/-- The loop `while (node->right) node = node->right`, as the links it follows. -/
def descendRight {V : Type} : Node V → Path
  | .nil => []
  | .node _ _ _ .nil => []
  | .node _ _ _ r => .R :: descendRight r

/-- The loop `while (node->parent && node->parent->left != node) node = node->parent`
followed by `node = node->parent`, on a position written last link first. -/
def climbUp : Path → Option Path
  | [] => none
  | .L :: up => some up
  | .R :: up => climbUp up

/-- The loop `while (node->parent && node->parent->left == node) node = node->parent`
on a position written last link first; `some up` is the parent of the node where the loop
stops, `none` means it stopped at a node without parent. -/
def climbDown : Path → Option Path
  | [] => none
  | .L :: up => climbDown up
  | .R :: up => some up

/-- Source `Iterator::increment()` in a tree with root `root`; `none` when the iterator does not
point at a node of the tree. -/
def increment {V : Type} (root : Node V) : Iter → Option Iter
  | .null => some .null
  | .ptr p =>
    match subtreeAt root p with
    | .nil => none
    | .node _ _ _ .nil =>
      match climbUp p.reverse with
      | none => some .null
      | some up => some (.ptr up.reverse)
    | .node _ _ _ r => some (.ptr (p ++ .R :: descendLeft r))

/-- Source `Iterator::decrement()` in a tree with root `root`; `none` when a null pointer or a
pointer to no node of the tree is dereferenced. -/
def decrement {V : Type} (root : Node V) : Iter → Option Iter
  | .null =>
    match root with
    | .nil => none
    | root => some (.ptr (descendRight root))
  | .ptr p =>
    match subtreeAt root p with
    | .nil => none
    | .node _ _ .nil _ =>
      match climbDown p.reverse with
      | none => some (.ptr p)
      | some up => some (.ptr up.reverse)
    | .node _ _ l _ => some (.ptr (p ++ .L :: descendRight l))

/-- Source `Iterator begin()`. -/
def Tree.begin {V : Type} (t : Tree V) : Option Iter :=
  match t.root with
  | .freed => none
  | .live .nil => some .null
  | .live n => some (.ptr (descendLeft n))

/-- Source `Iterator end()`. -/
def Tree.endIter {V : Type} (_t : Tree V) : Iter := .null

/-- Source `operator++` of an iterator of tree `t`. -/
def Tree.next {V : Type} (t : Tree V) (it : Iter) : Option Iter :=
  match t.root with
  | .freed => none
  | .live n => increment n it

/-- Source `operator--` of an iterator of tree `t`. -/
def Tree.prev {V : Type} (t : Tree V) (it : Iter) : Option Iter :=
  match t.root with
  | .freed => none
  | .live n => decrement n it

/-- The positions visited by `for (it = start; it != end(); ++it)`, at most `fuel` of them. -/
def forward {V : Type} (root : Node V) : Nat → Iter → List Path
  | 0, _ => []
  | _ + 1, .null => []
  | fuel + 1, .ptr p =>
    p :: (match increment root (.ptr p) with
          | none => []
          | some it => forward root fuel it)

/-- The positions visited by `while (it != first) { --it; visit(it); }`, at most `fuel`
of them. -/
def backward {V : Type} (root : Node V) (first : Iter) : Nat → Iter → List Path
  | 0, _ => []
  | fuel + 1, it =>
    if it = first then []
    else
      match decrement root it with
      | some (.ptr p) => p :: backward root first fuel (.ptr p)
      | _ => []

/-- The positions visited by iterating a tree from `begin()` to `end()`. -/
def Tree.forward {V : Type} (t : Tree V) (fuel : Nat) : Option (List Path) :=
  match t.root, t.begin with
  | .live n, some it => some (KDTree.forward n fuel it)
  | _, _ => none

/-- The positions visited by stepping back from `end()` until `begin()` is reached. -/
def Tree.backward {V : Type} (t : Tree V) (fuel : Nat) : Option (List Path) :=
  match t.root, t.begin with
  | .live n, some it => some (KDTree.backward n it fuel .null)
  | _, _ => none

/-- Source `bool uniqueComp(const Data &a, const Data &b)`. -/
def uniqueComp {V : Type} (a b : Key × V) : Bool := decide (a.1 = b.1)

/-- Source `bool sortComp<DIM>(const Data &a, const Data &b)`. -/
def sortComp {V : Type} (dim : Nat) (a b : Key × V) : Bool := compareKey dim .less a.1 b.1

/-- Insertion of `x` in front of the first element that is not smaller than it. -/
def orderedInsert {α : Type} (cmp : α → α → Bool) (x : α) : List α → List α
  | [] => [x]
  | y :: ys => if cmp y x then y :: orderedInsert cmp x ys else x :: y :: ys

/-- Library `std::stable_sort(first, last, cmp)`: the sorted arrangement in which equivalent
elements keep their order, computed by insertion from the back. -/
def stableSort {α : Type} (cmp : α → α → Bool) (l : List α) : List α :=
  l.foldr (orderedInsert cmp) []

/-- The loop of `std::unique` after `kept` has been stored: an element equivalent to the
element stored last is skipped, any other is stored. -/
def stdUniqueAux {α : Type} (eq : α → α → Bool) (kept : α) : List α → List α
  | [] => []
  | b :: rest =>
    if eq kept b then stdUniqueAux eq kept rest else b :: stdUniqueAux eq b rest

/-- Library `std::unique(first, last, eq)`: the elements in front of the returned iterator. -/
def stdUnique {α : Type} (eq : α → α → Bool) : List α → List α
  | [] => []
  | a :: rest => a :: stdUniqueAux eq a rest

/-- A range algorithm applied to `[first, last)` of a vector: the rest is left alone. -/
def applyRange {α : Type} (first last : Nat) (f : List α → List α) (v : List α) : List α :=
  v.take first ++ f ((v.drop first).take (last - first)) ++ v.drop last

/-- Source `Node *vectorConstruct<DIM>(Node *parent, int left, int right, vector &v)`.
`nth cmp n l` stands for `std::nth_element(first, first + n, last, cmp)` on the range `l`.
The result is the subtree and the vector as the call leaves it; `none` when the recursion
budget `fuel` is used up or `v[mid]` is out of range. -/
def vectorConstruct {V : Type}
    (nth : ((Key × V) → (Key × V) → Bool) → Nat → List (Key × V) → List (Key × V)) (K : Nat) :
    Nat → Nat → Int → Int → List (Key × V) → Option (Node V × List (Key × V))
  | 0, _, _, _, _ => none
  | fuel + 1, dim, left, right, v =>
    if left > right then some (.nil, v)
    else
      let mid := (left + right).tdiv 2
      let v1 := applyRange left.toNat right.toNat (nth (sortComp dim) (mid - left).toNat) v
      match v1[mid.toNat]? with
      | none => none
      | some d =>
        match vectorConstruct nth K fuel (dimNext K dim) left (mid - 1) v1 with
        | none => none
        | some (l, v2) =>
          match vectorConstruct nth K fuel (dimNext K dim) (mid + 1) right v2 with
          | none => none
          | some (r, v3) => some (.node d.1 d.2 l r, v3)

/-- Source `explicit KDTree(std::vector<std::pair<Key, Value>> v)`. -/
def Tree.ofVector {V : Type}
    (nth : ((Key × V) → (Key × V) → Bool) → Nat → List (Key × V) → List (Key × V)) (K : Nat)
    (v : List (Key × V)) : Option (Tree V) :=
  if v.isEmpty then some ⟨.live .nil, 0⟩
  else
    let v1 := stableSort (sortComp 0) v
    let v2 := (stdUnique uniqueComp v1.reverse).reverse
    match vectorConstruct nth K (v2.length + 1) 0 0 ((v2.length : Int) - 1) v2 with
    | none => none
    | some (root, v3) => some ⟨.live root, v3.length⟩

/-- A reference `std::nth_element`: sorting the whole range puts every element, the
`n`-th included, where the sorted range has it. -/
def nthBySort {α : Type} (cmp : α → α → Bool) (_n : Nat) (l : List α) : List α :=
  stableSort cmp l

/-- The entries of a tree, in-order; a tree whose root was deleted has none to enumerate. -/
def Tree.toList {V : Type} (t : Tree V) : List (Key × V) :=
  match t.root with
  | .live n => n.toList
  | .freed => []

/-- The partition invariant of a whole tree: the root branches on dimension 0. -/
def Tree.partitionOK {V : Type} (K : Nat) (t : Tree V) : Bool :=
  match t.root with
  | .live n => KDTree.partitionOK K 0 n
  | .freed => false

/-- The order "by component `d`, ties broken by the full lexicographic key order". -/
def specLess (d : Nat) (a b : Key) : Bool :=
  decide (coord d a < coord d b) || (decide (coord d a = coord d b) && keyLess a b)

/-- A linear scan for the minimum in the order `specLess d`: the best entry so far is
replaced by every entry that is smaller. -/
def linearScanMin {V : Type} (d : Nat) (es : List (Key × V)) : Option (Key × V) :=
  es.foldl (fun best e =>
    match best with
    | none => some e
    | some b => if specLess d e.1 b.1 then some e else some b) none

/-- A linear scan for the maximum in the order `specLess d`: the best entry so far is
replaced by every entry that is greater. -/
def linearScanMax {V : Type} (d : Nat) (es : List (Key × V)) : Option (Key × V) :=
  es.foldl (fun best e =>
    match best with
    | none => some e
    | some b => if specLess d b.1 e.1 then some e else some b) none

/-- The requirement on a comparison object passed to the standard sorting algorithms. -/
structure StrictWeakOrder {α : Type} (cmp : α → α → Bool) : Prop where
  irrefl : ∀ a, cmp a a = false
  trans : ∀ a b c, cmp a b = true → cmp b c = true → cmp a c = true
  neg_trans : ∀ a b c, cmp a c = true → cmp a b = true ∨ cmp b c = true

/-- The contract of `std::nth_element(first, first + n, last, cmp)` on the range `l`: the
range is permuted, and no element at or after position `n` is smaller than one at or before
it, so the element at `n` is the one a sort would put there. -/
structure NthElementSpec {α : Type} (nth : (α → α → Bool) → Nat → List α → List α) : Prop where
  perm : ∀ cmp n l, StrictWeakOrder cmp → n ≤ l.length → (nth cmp n l).Perm l
  partitioned : ∀ cmp n l, StrictWeakOrder cmp → n < l.length →
    ∀ i j x y, i ≤ n → n ≤ j → (nth cmp n l)[i]? = some x → (nth cmp n l)[j]? = some y →
      cmp y x = false

/-- A reference is accurate in `n` when the node at its position holds its data. -/
def NodeRef.accurate {V : Type} (n : Node V) (r : NodeRef V) : Prop :=
  dataAt n r.path = some (r.key, r.value)

/-- The positions of the nodes of a subtree in in-order: left subtree, node, right subtree. -/
def inorderPaths {V : Type} : Node V → List Path
  | .nil => []
  | .node _ _ l r =>
    (inorderPaths l).map (fun q => Dir.L :: q) ++ [] :: (inorderPaths r).map (fun q => Dir.R :: q)

/-- Where `increment` arrives when it leaves the subtree at position `p` upwards. -/
def exitUp (p : Path) : Iter :=
  match climbUp p.reverse with
  | none => .null
  | some up => .ptr up.reverse

/-- The keys read off while iterating a tree from `begin()` to `end()`. -/
def Tree.forwardKeys {V : Type} (t : Tree V) (fuel : Nat) : Option (List Key) :=
  (t.forward fuel).map (fun ps => ps.filterMap (fun p => (t.deref (.ptr p)).map Prod.fst))

/-- The shape of a subtree: which child slots hold a node. -/
inductive Shape where
  | nil
  | node (left right : Shape)
  deriving DecidableEq, Repr

/-- The shape of a subtree, keys and values left out. -/
def Node.shape {V : Type} : Node V → Shape
  | .nil => .nil
  | .node _ _ l r => .node l.shape r.shape

/-- Source `struct Node` with its member `parent` kept: the pointer stored in `parent` is
the position of the node it points at (`none` is `nullptr`). -/
inductive Linked.Node (V : Type) where
  | nil
  | node (parent : Option Path) (key : Key) (value : V) (left right : Linked.Node V)
  deriving DecidableEq, Repr

/-- Forgetting the `parent` members. -/
def Linked.Node.strip {V : Type} : Linked.Node V → KDTree.Node V
  | .nil => .nil
  | .node _ k v l r => .node k v l.strip r.strip

/-- The subtree reached from `n` along `p` (`nil` when the walk leaves the tree). -/
def Linked.subtreeAt {V : Type} : Linked.Node V → Path → Linked.Node V
  | n, [] => n
  | .nil, _ :: _ => .nil
  | .node _ _ _ l _, .L :: p => Linked.subtreeAt l p
  | .node _ _ _ _ r, .R :: p => Linked.subtreeAt r p

/-- The members `parent`, `key` and `value` of the node at position `p`. -/
def Linked.headAt {V : Type} (n : Linked.Node V) (p : Path) : Option (Option Path × Key × V) :=
  match Linked.subtreeAt n p with
  | .nil => none
  | .node par k v _ _ => some (par, k, v)

/-- The position of the parent of the node at position `p` (`none` at the root). -/
def parentOf (p : Path) : Option Path :=
  match p with
  | [] => none
  | _ :: _ => some p.dropLast

/-- Every node below the slot at position `self` stores in `parent` the position of the
node that owns its slot; the node in the slot itself stores `parent`. -/
def Linked.wellLinked {V : Type} : Path → Option Path → Linked.Node V → Bool
  | _, _, .nil => true
  | self, parent, .node par _ _ l r =>
    decide (par = parent) && Linked.wellLinked (self ++ [.L]) (some self) l &&
      Linked.wellLinked (self ++ [.R]) (some self) r

/-- Source `bool insert<DIM>(key, value, Node *&node, Node *parent)` with the `parent`
members kept.  `self` is the position of the slot `node`, which is the value of the pointer
`node` that the recursive calls pass on as `parent`. -/
def Linked.insert {V : Type} (K : Nat) :
    Nat → Key → V → Linked.Node V → Path → Option Path → Nat → Bool × Linked.Node V × Nat
  | _, key, value, .nil, _, parent, sz => (true, .node parent key value .nil .nil, sz + 1)
  | dim, key, value, .node par k v l r, self, _, sz =>
    if key = k then (false, .node par k value l r, sz)
    else if coord dim k ≤ coord dim key then
      let res := Linked.insert K (dimNext K dim) key value r (self ++ [.R]) (some self) sz
      (res.1, .node par k v l res.2.1, res.2.2)
    else
      let res := Linked.insert K (dimNext K dim) key value l (self ++ [.L]) (some self) sz
      (res.1, .node par k v res.2.1 r, res.2.2)

/-- Source `Node* copyFrom(Node *parent, Node *thatRoot)`.  `self` is the position of the
slot that receives the returned pointer, which is the value of the pointer `curr` that the
recursive calls receive as `parent`. -/
def Linked.copyFrom {V : Type} : Option Path → Path → Linked.Node V → Linked.Node V
  | _, _, .nil => .nil
  | parent, self, .node _ k v l r =>
    .node parent k v (Linked.copyFrom (some self) (self ++ [.L]) l)
      (Linked.copyFrom (some self) (self ++ [.R]) r)

/-- The members of a `KDTree` object whose `root` is null or a live node, `parent` members
kept. -/
structure Linked.Tree (V : Type) where
  root : Linked.Node V
  treeSize : Nat
  deriving DecidableEq, Repr

/-- Source `KDTree(const KDTree &that)` for `that` another object: `root` starts as
`nullptr`, so `destruct` has nothing to release. -/
def Linked.Tree.copy {V : Type} (that : Linked.Tree V) : Linked.Tree V :=
  ⟨Linked.copyFrom none [] that.root, that.treeSize⟩

/-- The right-hand side of an assignment: the object itself or another object. -/
inductive Linked.Source (V : Type) where
  | self
  | other (that : Linked.Tree V)

/-- Source `KDTree &operator=(const KDTree &that)`; the nodes released by `destruct` are
not part of the result. -/
def Linked.Tree.assign {V : Type} (this : Linked.Tree V) : Linked.Source V → Linked.Tree V
  | .self => this
  | .other that => ⟨Linked.copyFrom none [] that.root, that.treeSize⟩

/-- The links that `find` and `insert` follow for `key` from a node that branches on `dim`,
down to the node that holds `key` or to the empty slot where the descent ends. -/
def descent {V : Type} (K : Nat) : Nat → Key → Node V → Path
  | _, _, .nil => []
  | dim, key, .node k _ l r =>
    if key = k then []
    else if coord dim k ≤ coord dim key then .R :: descent K (dimNext K dim) key r
    else .L :: descent K (dimNext K dim) key l


/-- The tree `n` with the content of the slot at position `p` replaced by `s`. -/
def graft {V : Type} : Node V → Path → Node V → Node V
  | _, [], s => s
  | .nil, _ :: _, _ => .nil
  | .node k v l r, .L :: p, s => .node k v (graft l p s) r
  | .node k v l r, .R :: p, s => .node k v l (graft r p s)

/-- Source `Node *eraseDynamic<DIM>(Node *node, size_t dim)`: the chain of instantiations
`DIM, DIM_NEXT, ...` until `dim` is reached, then `erase<DIM>(node, node->key())`.  The
first argument bounds the chain; `none` is a chain cut short or a null `node`. -/
def eraseDynamic {V : Type} (K : Nat) : Nat → Nat → Node V → Nat → Nat → Option (Node V × Nat)
  | 0, _, _, _, _ => none
  | fuel + 1, DIM, node, dim, sz =>
    let dim := if dim ≥ K then dim % K else dim
    if dim = DIM then
      match node with
      | .nil => none
      | .node k v l r => some (erase K DIM (.node k v l r) k sz)
    else eraseDynamic K fuel (dimNext K DIM) node dim sz

/-- What `erase(Iterator)` leaves behind: the returned iterator, the members of the tree
(its live nodes), and, when the call deleted a leaf, the slot that still holds the address
of the deleted node, because the pointer returned by `eraseDynamic` is not stored. -/
structure EraseIt (V : Type) where
  it : Iter
  tree : Tree V
  stale : Option Path
  deriving DecidableEq, Repr

/-- Source `Iterator erase(Iterator it)`.  A node with a child is updated in place and the
iterator still points at it; a leaf is deleted and the iterator is moved to its parent
before the call.  The depth of the node is the number of parent links above it. -/
def Tree.eraseIterator {V : Type} (K : Nat) (t : Tree V) : Iter → Option (EraseIt V)
  | .null => some ⟨.null, t, none⟩
  | .ptr p =>
    match t.root with
    | .freed => none
    | .live n =>
      match subtreeAt n p with
      | .nil => none
      | .node k v .nil .nil =>
        let it := match parentOf p with
          | none => Iter.null
          | some q => Iter.ptr q
        match eraseDynamic K K 0 (.node k v .nil .nil) (p.length % K) t.treeSize with
        | none => none
        | some res =>
          some ⟨it, ⟨(match p with
                      | [] => Root.freed
                      | _ :: _ => Root.live (graft n p .nil)), res.2⟩, some p⟩
      | .node k v l r =>
        match eraseDynamic K K 0 (.node k v l r) (p.length % K) t.treeSize with
        | none => none
        | some res => some ⟨Iter.ptr p, ⟨Root.live (graft n p res.1), res.2⟩, none⟩


/-- Specification side of the pruning rule: the search for the minimum on dimension `c`
that scans both subtrees at every node, whatever the node's branching dimension. -/
def unprunedMin {V : Type} (c : Nat) : Node V → Option (NodeRef V)
  | .nil => none
  | .node k v l r =>
    compareNode c .less (some ⟨[], k, v⟩)
      (compareNode c .less ((unprunedMin c l).map (NodeRef.under .L))
        ((unprunedMin c r).map (NodeRef.under .R)))

/-- Applying `++it` `steps` times in a tree with root `root`. -/
def advance {V : Type} (root : Node V) : Nat → Iter → Option Iter
  | 0, it => some it
  | steps + 1, it =>
    match increment root it with
    | none => none
    | some it1 => advance root steps it1

/-- Height of a subtree: the number of nodes on its longest downward walk. -/
def Node.height {V : Type} : Node V → Nat
  | .nil => 0
  | .node _ _ l r => max l.height r.height + 1

/-- At every node the right subtree has as many nodes as the left subtree, or one more. -/
def Node.sizeBalanced {V : Type} : Node V → Bool
  | .nil => true
  | .node _ _ l r =>
    (decide (r.count = l.count) || decide (r.count = l.count + 1)) &&
      l.sizeBalanced && r.sizeBalanced

/-- At every node the heights of the two subtrees differ by at most one. -/
def Node.heightBalanced {V : Type} : Node V → Bool
  | .nil => true
  | .node _ _ l r =>
    decide (l.height ≤ r.height + 1) && decide (r.height ≤ l.height + 1) &&
      l.heightBalanced && r.heightBalanced

/-- Specification side of the median split: the element at index `(left + right) / 2` of
the span `[left, right]` once the span is sorted by component `dim` with ties broken by
the full key order; relative to the start of the span the index is `(size - 1) / 2`. -/
def specMedian {V : Type} (dim : Nat) (span : List (Key × V)) : Option (Key × V) :=
  (stableSort (fun a b => specLess dim a.1 b.1) span)[(span.length - 1) / 2]?

end KDTree

/-!
# Merge sort (PA1/sort.hpp)

A `std::vector<T>` is a list, `Compare comp` is a function to `Bool`, and the `int`
indices are unbounded integers (`(int) vector.size()` is the size for vectors of fewer
than 2^31 elements).  A function that writes the vector returns the vector it leaves.
-/

namespace MergeSort

/-- The three loops at the end of source `merge`, on the unread parts of `left_side` and
`right_side`: while both are non-empty the front of `right_side` is written when
`comp` puts it before the front of `left_side`, else the front of `left_side`; then the
rest of `left_side`, then the rest of `right_side`.  The result is the sequence of
written elements; the first argument bounds their number. -/
def mergeLoop {α : Type} (comp : α → α → Bool) : Nat → List α → List α → List α
  | 0, _, _ => []
  | _ + 1, [], [] => []
  | fuel + 1, l :: ls, [] => l :: mergeLoop comp fuel ls []
  | fuel + 1, [], r :: rs => r :: mergeLoop comp fuel [] rs
  | fuel + 1, l :: ls, r :: rs =>
    if comp r l then r :: mergeLoop comp fuel (l :: ls) rs
    else l :: mergeLoop comp fuel ls (r :: rs)

/-- Source `void merge(std::vector<T> &a, int left, int mid, int right, Compare comp)`.
`left_side` is `a[left..mid]`, `right_side` is `a[mid+1..right]`, and the
`size_l + size_r` written elements go to `a[left..right]`; `none` when a size is negative
or an index leaves the vector. -/
def merge {α : Type} (comp : α → α → Bool) (a : List α) (left mid right : Int) :
    Option (List α) :=
  let size_l := mid - left + 1
  let size_r := right - mid
  if 0 ≤ left ∧ 0 ≤ size_l ∧ 0 ≤ size_r ∧ right < a.length then
    let left_side := (a.drop left.toNat).take size_l.toNat
    let right_side := (a.drop (mid + 1).toNat).take size_r.toNat
    some (a.take left.toNat ++ mergeLoop comp (size_l + size_r).toNat left_side right_side
      ++ a.drop (right + 1).toNat)
  else none

/-- Source `void divide(std::vector<T> &a, int left, int right, Compare comp)`; `none` when
the recursion budget `fuel` is used up or `merge` leaves the vector. -/
def divide {α : Type} (comp : α → α → Bool) : Nat → List α → Int → Int → Option (List α)
  | 0, _, _, _ => none
  | fuel + 1, a, left, right =>
    if left ≥ right then some a
    else
      let mid := left + (right - left).tdiv 2
      match divide comp fuel a left mid with
      | none => none
      | some a1 =>
        match divide comp fuel a1 (mid + 1) right with
        | none => none
        | some a2 => merge comp a2 left mid right

/-- Source `void merge_sort(std::vector<T> &vector, Compare comp)`.  The recursion of
`divide` is at most as deep as the vector is long. -/
def merge_sort {α : Type} (comp : α → α → Bool) (vector : List α) : Option (List α) :=
  if (vector.length : Int) < 2 then some vector
  else divide comp vector.length vector 0 ((vector.length : Int) - 1)

/-- Equivalence under a comparator: neither element goes before the other. -/
def equivalent {α : Type} (comp : α → α → Bool) (a b : α) : Bool :=
  !comp a b && !comp b a

/-- Source `compare_less` of `PA1/test.cpp`, on integers. -/
def compare_less (lhs rhs : Int) : Bool := decide (lhs < rhs)

end MergeSort

/-!
# All-pairs shortest paths (PA4/shortestP2P.hpp)

The member `dist` is a list of rows; the input read from `stdin` is the number of
vertices `V` and the list of edge lines (so `E` is its length).  Weights and sums are
unbounded integers: the properties below are about inputs whose sums stay inside `int`.
`exit(0)` after printing `Invalid graph. Exiting.` is the outcome `Outcome.invalid`.
-/

namespace ShortestP2P

/-- Source `#define INF INT_MAX`. -/
def INF : Int := 2147483647

/-- An input line `A B dist`. -/
structure Edge where
  src : Nat
  dest : Nat
  weight : Int
  deriving DecidableEq, Repr

/-- The member `vector<vector<int>> dist`. -/
abbrev Matrix := List (List Int)

/-- Reading `dist[i][j]`, for indices inside the matrix. -/
def get (dist : Matrix) (i j : Nat) : Int := (dist.getD i []).getD j INF

/-- The assignment `dist[i][j] = w`, for indices inside the matrix. -/
def set (dist : Matrix) (i j : Nat) (w : Int) : Matrix :=
  dist.set i ((dist.getD i []).set j w)

/-- The body of the innermost loop of source `floydWarshall`. -/
def relax (k i : Nat) (dist : Matrix) (j : Nat) : Matrix :=
  if get dist i k ≠ INF ∧ get dist k j ≠ INF ∧ get dist i k + get dist k j < get dist i j then
    set dist i j (get dist i k + get dist k j)
  else dist

/-- The loops over `i` and `j` of source `floydWarshall` for one value of `k`. -/
def round (V k : Nat) (dist : Matrix) : Matrix :=
  (List.range V).foldl (fun d i => (List.range V).foldl (relax k i) d) dist

/-- The test of the loop `for i: if (dist[i][i] < 0)` that follows each round. -/
def negativeDiagonal (V : Nat) (dist : Matrix) : Bool :=
  (List.range V).any (fun i => decide (get dist i i < 0))

/-- How `readGraph` ends: with `Invalid graph. Exiting.` and `exit(0)`, or with the
matrix `dist` that `distance` will read. -/
inductive Outcome where
  | invalid
  | ready (dist : Matrix)
  deriving DecidableEq, Repr

/-- Source `floydWarshall()`, for the values of `k` still to run. -/
def floydWarshallFrom (V : Nat) : List Nat → Matrix → Outcome
  | [], dist => .ready dist
  | k :: ks, dist =>
    if negativeDiagonal V (round V k dist) then .invalid
    else floydWarshallFrom V ks (round V k dist)

/-- Source `void floydWarshall()`. -/
def floydWarshall (V : Nat) (dist : Matrix) : Outcome :=
  floydWarshallFrom V (List.range V) dist

/-- Source `void readGraph()` on the input `V`, `edges`; `none` when an edge line names a
vertex that is not below `V` (a write outside the matrix). -/
def readGraph (V : Nat) (edges : List Edge) : Option Outcome :=
  if edges.all (fun e => decide (e.src < V) && decide (e.dest < V)) then
    let dist0 : Matrix := List.replicate V (List.replicate V INF)
    let dist1 := (List.range V).foldl (fun d i => set d i i 0) dist0
    let dist2 := edges.foldl (fun d e => set d e.src e.dest e.weight) dist1
    some (floydWarshall V dist2)
  else none

/-- What source `distance(A, B)` prints. -/
inductive Printed where
  | inf
  | value (d : Int)
  deriving DecidableEq, Repr

/-- Source `void distance(unsigned int A, unsigned int B)`. -/
def distance (dist : Matrix) (A B : Nat) : Printed :=
  if get dist A B = INF then .inf else .value (get dist A B)

/-- A directed path of the input graph from `a` to `b`, as the list of edge lines it
follows; the empty list is the empty path from a vertex to itself. -/
def isPath (edges : List Edge) : Nat → Nat → List Edge → Bool
  | a, b, [] => decide (a = b)
  | a, b, e :: p => decide (e ∈ edges) && decide (e.src = a) && isPath edges e.dest b p

/-- The total weight of a path. -/
def pathWeight (p : List Edge) : Int := (p.map Edge.weight).sum

end ShortestP2P

namespace KDTree
variable {V : Type}

/-! ## Lookup and insertion -/

theorem find_sound (K : Nat) (key : Key) (n : Node V) :
    ∀ (dim : Nat) (r : NodeRef V), find K dim key n = some r →
      r.key = key ∧ dataAt n r.path = some (r.key, r.value) := by
  induction n with
  | nil => intro dim r h; simp [find] at h
  | node k v l r ihl ihr =>
    intro dim q h
    unfold find at h
    split at h
    · rename_i hk
      cases h
      exact ⟨hk.symm, by simp [dataAt, subtreeAt]⟩
    · split at h
      · cases hr : find K (dimNext K dim) key r with
        | none => simp [hr] at h
        | some q1 =>
          simp only [hr, Option.map_some', Option.some.injEq] at h
          subst h
          obtain ⟨h1, h2⟩ := ihr _ _ hr
          exact ⟨h1, by simpa [NodeRef.under, dataAt, subtreeAt] using h2⟩
      · cases hl : find K (dimNext K dim) key l with
        | none => simp [hl] at h
        | some q1 =>
          simp only [hl, Option.map_some', Option.some.injEq] at h
          subst h
          obtain ⟨h1, h2⟩ := ihl _ _ hl
          exact ⟨h1, by simpa [NodeRef.under, dataAt, subtreeAt] using h2⟩

theorem find_insert_same (K : Nat) (key : Key) (value : V) (n : Node V) :
    ∀ (dim sz : Nat), (find K dim key (insert K dim key value n sz).2.1).map NodeRef.value
      = some value := by
  induction n with
  | nil => intro dim sz; simp [insert, find]
  | node k v l r ihl ihr =>
    intro dim sz
    unfold insert
    by_cases hk : key = k
    · simp [hk, find]
    · by_cases hc : coord dim k ≤ coord dim key
      · have := ihr (dimNext K dim) sz
        simp only [hk, hc, if_false, if_true, find]
        cases hf : find K (dimNext K dim) key (insert K (dimNext K dim) key value r sz).2.1 with
        | none => simp [hf] at this
        | some q => simpa [hf, NodeRef.under] using this
      · have := ihl (dimNext K dim) sz
        simp only [hk, hc, if_false, find]
        cases hf : find K (dimNext K dim) key (insert K (dimNext K dim) key value l sz).2.1 with
        | none => simp [hf] at this
        | some q => simpa [hf, NodeRef.under] using this

theorem find_insert_other (K : Nat) (key key1 : Key) (value : V) (hne : key1 ≠ key)
    (n : Node V) :
    ∀ (dim sz : Nat), find K dim key1 (insert K dim key value n sz).2.1 = find K dim key1 n := by
  induction n with
  | nil => intro dim sz; simp [insert, find, hne]
  | node k v l r ihl ihr =>
    intro dim sz
    unfold insert
    by_cases hk : key = k
    · subst hk
      simp [find, hne]
    · by_cases hc : coord dim k ≤ coord dim key
      · simp only [hk, hc, if_false, if_true, find, ihr]
      · simp only [hk, hc, if_false, find, ihl]

theorem insertAll_live (K : Nat) (ops : List (Key × V)) :
    ∀ (n : Node V) (sz : Nat), ∃ n1 sz1,
      Tree.insertAll K ⟨.live n, sz⟩ ops = some ⟨.live n1, sz1⟩ ∧
      ∀ k, (find K 0 k n1).map NodeRef.value =
        ops.foldl (fun acc kv => if kv.1 = k then some kv.2 else acc)
          ((find K 0 k n).map NodeRef.value) := by
  induction ops with
  | nil => intro n sz; exact ⟨n, sz, rfl, fun k => rfl⟩
  | cons kv rest ih =>
    intro n sz
    obtain ⟨n1, sz1, h1, h2⟩ :=
      ih (insert K 0 kv.1 kv.2 n sz).2.1 (insert K 0 kv.1 kv.2 n sz).2.2
    refine ⟨n1, sz1, ?_, ?_⟩
    · simpa [Tree.insertAll, Tree.insert] using h1
    · intro k
      rw [h2 k, List.foldl_cons]
      by_cases hk : kv.1 = k
      · subst hk
        simp [find_insert_same]
      · have hne : k ≠ kv.1 := fun h => hk h.symm
        simp [hk, find_insert_other K kv.1 k kv.2 hne]

theorem lastValue_isSome (k : Key) (ops : List (Key × V)) :
    ∀ acc : Option V, (acc.isSome ∨ k ∈ ops.map Prod.fst) →
      (ops.foldl (fun acc kv => if kv.1 = k then some kv.2 else acc) acc).isSome := by
  induction ops with
  | nil => intro acc h; simpa using h
  | cons kv rest ih =>
    intro acc h
    rw [List.foldl_cons]
    apply ih
    by_cases hk : kv.1 = k
    · simp [hk]
    · rcases h with h | h
      · left; simpa [hk] using h
      · right
        simp only [List.map_cons, List.mem_cons] at h
        rcases h with h | h
        · exact absurd h.symm hk
        · exact h

/-- C1: after any sequence of `insert` calls on an empty tree, `find(k)` for a key `k` of
the sequence returns an iterator to a node that holds `k` and the value of the last insert
of `k`. -/
theorem find_after_inserts_yields_last_value (K : Nat) (ops : List (Key × V)) (k : Key)
    (hk : k ∈ ops.map Prod.fst) :
    ∃ t p v, Tree.insertAll K Tree.empty ops = some t ∧
      t.find K k = some (Iter.ptr p) ∧
      t.deref (Iter.ptr p) = some (k, v) ∧
      lastValue ops k = some v := by
  obtain ⟨n1, sz1, h1, h2⟩ := insertAll_live K ops (Node.nil : Node V) 0
  have h3 := h2 k
  have h4 := lastValue_isSome k ops ((find K 0 k (Node.nil : Node V)).map NodeRef.value)
    (Or.inr hk)
  rw [← h3] at h4
  cases hf : find K 0 k n1 with
  | none => simp [hf] at h4
  | some r =>
    obtain ⟨hr1, hr2⟩ := find_sound K k n1 0 r hf
    refine ⟨⟨.live n1, sz1⟩, r.path, r.value, h1, ?_, ?_, ?_⟩
    · simp [Tree.find, hf, Iter.ofRef]
    · simpa [Tree.deref, hr1] using hr2
    · have : (find K 0 k (Node.nil : Node V)).map NodeRef.value = none := by simp [find]
      rw [this] at h3
      unfold lastValue
      rw [← h3, hf]
      rfl

/-- C1 on the sequence (1,1)->a, (2,2)->b, (1,1)->c: `find((1,1))` yields c. -/
theorem find_after_inserts_yields_last_value_witness :
    (Tree.insertAll 2 Tree.empty [([1, 1], "a"), ([2, 2], "b"), ([1, 1], "c")]).bind
      (fun t => (t.find 2 [1, 1]).bind t.deref) = some ([1, 1], "c") := by
  obtain ⟨t, p, v, h1, h2, h3, h4⟩ := find_after_inserts_yields_last_value 2
    [([1, 1], "a"), ([2, 2], "b"), ([1, 1], "c")] [1, 1] (by decide)
  have h5 : lastValue [(([1, 1] : Key), "a"), ([2, 2], "b"), ([1, 1], "c")] [1, 1] = some "c" := by
    decide
  rw [h5] at h4
  cases h4
  simp only [h1, Option.some_bind, h2, h3]

/-! ## The key orders -/

theorem keyLess_irrefl (a : Key) : keyLess a a = false := by
  induction a with
  | nil => rfl
  | cons x xs ih => simp [keyLess, ih]

theorem keyLess_trans : ∀ (a b c : Key), keyLess a b = true → keyLess b c = true →
    keyLess a c = true := by
  intro a
  induction a with
  | nil =>
    intro b c h1 h2
    cases b with
    | nil => simp [keyLess] at h1
    | cons y ys =>
      cases c with
      | nil => simp [keyLess] at h2
      | cons z zs => simp [keyLess]
  | cons x xs ih =>
    intro b c h1 h2
    cases b with
    | nil => simp [keyLess] at h1
    | cons y ys =>
      cases c with
      | nil => simp [keyLess] at h2
      | cons z zs =>
        simp only [keyLess] at h1 h2 ⊢
        by_cases hxy : x < y
        · by_cases hyz : y < z
          · have : x < z := lt_trans hxy hyz
            simp [this]
          · by_cases hzy : z < y
            · simp [hyz, hzy] at h2
            · have hyz2 : y = z := le_antisymm (not_lt.mp hzy) (not_lt.mp hyz)
              subst hyz2
              simp [hxy]
        · by_cases hyx : y < x
          · simp [hxy, hyx] at h1
          · have hxy2 : x = y := le_antisymm (not_lt.mp hyx) (not_lt.mp hxy)
            subst hxy2
            simp only [hxy, if_false] at h1
            by_cases hxz : x < z
            · simp [hxz]
            · by_cases hzx : z < x
              · simp [hxz, hzx] at h2
              · simp only [hxz, hzx, if_false] at h2 ⊢
                exact ih ys zs h1 h2

theorem keyLess_total : ∀ (a b : Key), a ≠ b → keyLess a b = true ∨ keyLess b a = true := by
  intro a
  induction a with
  | nil =>
    intro b h
    cases b with
    | nil => exact absurd rfl h
    | cons y ys => simp [keyLess]
  | cons x xs ih =>
    intro b h
    cases b with
    | nil => simp [keyLess]
    | cons y ys =>
      simp only [keyLess]
      by_cases hxy : x < y
      · simp [hxy]
      · by_cases hyx : y < x
        · simp [hyx]
        · have hxy2 : x = y := le_antisymm (not_lt.mp hyx) (not_lt.mp hxy)
          subst hxy2
          simp only [hxy, if_false]
          apply ih
          intro h2
          exact h (by rw [h2])

theorem keyLess_asymm (a b : Key) (h : keyLess a b = true) : keyLess b a = false := by
  by_contra h2
  have h3 : keyLess b a = true := by simpa using h2
  have := keyLess_trans a b a h h3
  rw [keyLess_irrefl] at this
  exact Bool.false_ne_true this

theorem compareKey_less (d : Nat) (a b : Key) : compareKey d .less a b = specLess d a b := by
  unfold compareKey specLess Compare.onCoord Compare.onKey
  by_cases h : coord d a = coord d b
  · simp [h]
  · simp [h]

theorem compareKey_greater (d : Nat) (a b : Key) :
    compareKey d .greater a b = specLess d b a := by
  unfold compareKey specLess Compare.onCoord Compare.onKey
  by_cases h : coord d a = coord d b
  · simp [h]
  · have h2 : ¬ coord d b = coord d a := fun e => h e.symm
    simp [h, h2]

theorem specLess_irrefl (d : Nat) (a : Key) : specLess d a a = false := by
  simp [specLess, keyLess_irrefl]

theorem specLess_trans (d : Nat) (a b c : Key) (h1 : specLess d a b = true)
    (h2 : specLess d b c = true) : specLess d a c = true := by
  simp only [specLess, Bool.or_eq_true, Bool.and_eq_true, decide_eq_true_eq] at h1 h2 ⊢
  rcases h1 with h1 | ⟨h1, h1k⟩
  · rcases h2 with h2 | ⟨h2, _⟩
    · left; omega
    · left; omega
  · rcases h2 with h2 | ⟨h2, h2k⟩
    · left; omega
    · right; exact ⟨by omega, keyLess_trans a b c h1k h2k⟩

theorem specLess_total (d : Nat) (a b : Key) (h : a ≠ b) :
    specLess d a b = true ∨ specLess d b a = true := by
  simp only [specLess, Bool.or_eq_true, Bool.and_eq_true, decide_eq_true_eq]
  rcases lt_trichotomy (coord d a) (coord d b) with h1 | h1 | h1
  · exact Or.inl (Or.inl h1)
  · rcases keyLess_total a b h with h2 | h2
    · exact Or.inl (Or.inr ⟨h1, h2⟩)
    · exact Or.inr (Or.inr ⟨h1.symm, h2⟩)
  · exact Or.inr (Or.inl h1)

theorem specLess_asymm (d : Nat) (a b : Key) (h : specLess d a b = true) :
    specLess d b a = false := by
  by_contra h2
  have h3 : specLess d b a = true := by simpa using h2
  have := specLess_trans d a b a h h3
  rw [specLess_irrefl] at this
  exact Bool.false_ne_true this

theorem specLess_coord_le (d : Nat) (a b : Key) (h : specLess d a b = true) :
    coord d a ≤ coord d b := by
  simp only [specLess, Bool.or_eq_true, Bool.and_eq_true, decide_eq_true_eq] at h
  rcases h with h | ⟨h, _⟩ <;> omega

theorem specLess_of_coord_lt (d : Nat) (a b : Key) (h : coord d a < coord d b) :
    specLess d a b = true := by
  simp [specLess, h]

/-! ## Erasure: two defects -/

/-- C2: the tree built by inserting (5,0), (3,1), (3,2) satisfies the partition invariant;
`erase((5,0))` overwrites the root, which has only a left subtree, with the maximum (3,2)
of that subtree on dimension 0, and leaves (3,1) in the left subtree of (3,2): the
invariant fails, and `find((3,1))` no longer finds the stored key. -/
theorem erase_left_only_breaks_partition :
    Tree.insertAll 2 Tree.empty [([5, 0], "a"), ([3, 1], "b"), ([3, 2], "c")] =
        some ⟨.live (.node [5, 0] "a" (.node [3, 1] "b" .nil (.node [3, 2] "c" .nil .nil)) .nil),
          3⟩ ∧
      Tree.partitionOK 2
        ⟨.live (.node [5, 0] "a" (.node [3, 1] "b" .nil (.node [3, 2] "c" .nil .nil)) .nil), 3⟩
        = true ∧
      Tree.erase 2
        ⟨.live (.node [5, 0] "a" (.node [3, 1] "b" .nil (.node [3, 2] "c" .nil .nil)) .nil), 3⟩
        [5, 0] = some (true, ⟨.live (.node [3, 2] "c" (.node [3, 1] "b" .nil .nil) .nil), 2⟩) ∧
      Tree.partitionOK 2 ⟨.live (.node [3, 2] "c" (.node [3, 1] "b" .nil .nil) .nil), 2⟩
        = false ∧
      Tree.find 2 ⟨.live (.node [3, 2] "c" (.node [3, 1] "b" .nil .nil) .nil), 2⟩ [3, 1]
        = some Iter.null := by
  decide

/-- C3: on the tree that holds the single key (1,1), `erase((1,1))` returns true and
`size()` drops to 0, but the deleted node stays installed as `root`; the following
`find((1,1))` reads that deleted node instead of returning `end()`. -/
theorem erase_single_entry_leaves_deleted_root :
    Tree.insertAll 2 Tree.empty [([1, 1], "a")] = some ⟨.live (.node [1, 1] "a" .nil .nil), 1⟩ ∧
      Tree.erase 2 ⟨.live (.node [1, 1] "a" .nil .nil), 1⟩ [1, 1]
        = some (true, ⟨Root.freed, 0⟩) ∧
      Tree.find 2 (⟨Root.freed, 0⟩ : Tree String) [1, 1] = none := by
  decide

/-! ## Trees built by insertion satisfy the partition invariant -/

theorem Node.keys_node (k : Key) (v : V) (l r : Node V) :
    (Node.node k v l r).keys = l.keys ++ k :: r.keys := by
  simp [Node.keys, Node.toList]

theorem partitionOK_node (K dim : Nat) (k : Key) (v : V) (l r : Node V) :
    partitionOK K dim (.node k v l r) = true ↔
      (∀ a ∈ l.keys, coord dim a < coord dim k) ∧ (∀ a ∈ r.keys, coord dim k ≤ coord dim a) ∧
      partitionOK K (dimNext K dim) l = true ∧ partitionOK K (dimNext K dim) r = true := by
  simp [partitionOK, and_assoc]

theorem dataAt_mem (p : Path) : ∀ (n : Node V) (e : Key × V), dataAt n p = some e →
    e ∈ n.toList := by
  induction p with
  | nil =>
    intro n e h
    cases n with
    | nil => simp [dataAt, subtreeAt] at h
    | node k v l r =>
      simp only [dataAt, subtreeAt, Option.some.injEq] at h
      subst h
      simp [Node.toList]
  | cons d p ih =>
    intro n e h
    cases n with
    | nil => simp [dataAt, subtreeAt] at h
    | node k v l r =>
      cases d with
      | L =>
        have : dataAt l p = some e := by simpa [dataAt, subtreeAt] using h
        have := ih l e this
        simp [Node.toList, this]
      | R =>
        have : dataAt r p = some e := by simpa [dataAt, subtreeAt] using h
        have := ih r e this
        simp [Node.toList, this]

theorem insert_keys (K : Nat) (key : Key) (value : V) (n : Node V) :
    ∀ (dim sz : Nat) (a : Key),
      a ∈ (insert K dim key value n sz).2.1.keys ↔ a = key ∨ a ∈ n.keys := by
  induction n with
  | nil => intro dim sz a; simp [insert, Node.keys, Node.toList]
  | node k v l r ihl ihr =>
    intro dim sz a
    unfold insert
    by_cases hk : key = k
    · subst hk
      simp only [if_true, Node.keys_node, List.mem_append, List.mem_cons]
      tauto
    · by_cases hc : coord dim k ≤ coord dim key
      · simp only [hk, hc, if_false, if_true, Node.keys_node, List.mem_append, List.mem_cons,
          ihr]
        tauto
      · simp only [hk, hc, if_false, Node.keys_node, List.mem_append, List.mem_cons, ihl]
        tauto

theorem insert_partitionOK (K : Nat) (key : Key) (value : V) (n : Node V) :
    ∀ (dim sz : Nat), partitionOK K dim n = true →
      partitionOK K dim (insert K dim key value n sz).2.1 = true := by
  induction n with
  | nil => intro dim sz _; simp [insert, partitionOK, Node.keys, Node.toList]
  | node k v l r ihl ihr =>
    intro dim sz h
    rw [partitionOK_node] at h
    obtain ⟨h1, h2, h3, h4⟩ := h
    unfold insert
    by_cases hk : key = k
    · simp only [hk, if_true]
      rw [partitionOK_node]
      exact ⟨h1, h2, h3, h4⟩
    · by_cases hc : coord dim k ≤ coord dim key
      · simp only [hk, hc, if_false, if_true]
        rw [partitionOK_node]
        refine ⟨h1, ?_, h3, ihr _ _ h4⟩
        intro a ha
        rw [insert_keys] at ha
        rcases ha with ha | ha
        · rw [ha]; exact hc
        · exact h2 a ha
      · simp only [hk, hc, if_false]
        rw [partitionOK_node]
        refine ⟨?_, h2, ihl _ _ h3, h4⟩
        intro a ha
        rw [insert_keys] at ha
        rcases ha with ha | ha
        · rw [ha]; omega
        · exact h1 a ha

theorem insertAll_partitionOK (K : Nat) (ops : List (Key × V)) :
    ∀ (n : Node V) (sz : Nat), partitionOK K 0 n = true →
      ∃ n1 sz1, Tree.insertAll K ⟨.live n, sz⟩ ops = some ⟨.live n1, sz1⟩ ∧
        partitionOK K 0 n1 = true ∧
        ∀ a, a ∈ n1.keys ↔ a ∈ ops.map Prod.fst ∨ a ∈ n.keys := by
  induction ops with
  | nil => intro n sz h; exact ⟨n, sz, rfl, h, by simp⟩
  | cons kv rest ih =>
    intro n sz h
    obtain ⟨n1, sz1, h1, h2, h3⟩ :=
      ih (insert K 0 kv.1 kv.2 n sz).2.1 (insert K 0 kv.1 kv.2 n sz).2.2
        (insert_partitionOK K kv.1 kv.2 n 0 sz h)
    refine ⟨n1, sz1, ?_, h2, ?_⟩
    · simpa [Tree.insertAll, Tree.insert] using h1
    · intro a
      rw [h3 a, insert_keys]
      simp only [List.map_cons, List.mem_cons]
      tauto

/-! ## Minimum and maximum on a dimension -/

@[simp] theorem NodeRef.under_key (d : Dir) (r : NodeRef V) : (r.under d).key = r.key := rfl

@[simp] theorem NodeRef.under_value (d : Dir) (r : NodeRef V) : (r.under d).value = r.value := rfl

@[simp] theorem NodeRef.under_path (d : Dir) (r : NodeRef V) : (r.under d).path = d :: r.path :=
  rfl

theorem compareNode_cases (c : Nat) (cmp : Compare) (x y : Option (NodeRef V)) :
    compareNode c cmp x y = x ∨ compareNode c cmp x y = y := by
  cases x with
  | none => right; rfl
  | some a =>
    cases y with
    | none => left; rfl
    | some b =>
      simp only [compareNode]
      split
      · left; rfl
      · right; rfl

theorem compareNode_isSome_left (c : Nat) (cmp : Compare) (a : NodeRef V)
    (y : Option (NodeRef V)) : ∃ r, compareNode c cmp (some a) y = some r := by
  cases y with
  | none => exact ⟨a, rfl⟩
  | some b =>
    simp only [compareNode]
    split
    · exact ⟨a, rfl⟩
    · exact ⟨b, rfl⟩

theorem compareNode_isSome_right (c : Nat) (cmp : Compare) (x : Option (NodeRef V))
    (b : NodeRef V) : ∃ r, compareNode c cmp x (some b) = some r := by
  cases x with
  | none => exact ⟨b, rfl⟩
  | some a =>
    simp only [compareNode]
    split
    · exact ⟨a, rfl⟩
    · exact ⟨b, rfl⟩

theorem findMin_accurate (K c : Nat) (n : Node V) :
    ∀ (dim : Nat) (r : NodeRef V), findMin K c dim n = some r → r.accurate n := by
  induction n with
  | nil => intro dim r h; simp [findMin] at h
  | node k v l r0 ihl ihr =>
    intro dim r h
    have hl : ∀ q, (findMin K c (dimNext K dim) l).map (NodeRef.under .L) = some q →
        q.accurate (.node k v l r0) := by
      intro q hq
      cases hf : findMin K c (dimNext K dim) l with
      | none => simp [hf] at hq
      | some m =>
        simp only [hf, Option.map_some', Option.some.injEq] at hq
        subst hq
        have := ihl _ _ hf
        simpa [NodeRef.accurate, dataAt, subtreeAt] using this
    have hr : ∀ q, (findMin K c (dimNext K dim) r0).map (NodeRef.under .R) = some q →
        q.accurate (.node k v l r0) := by
      intro q hq
      cases hf : findMin K c (dimNext K dim) r0 with
      | none => simp [hf] at hq
      | some m =>
        simp only [hf, Option.map_some', Option.some.injEq] at hq
        subst hq
        have := ihr _ _ hf
        simpa [NodeRef.accurate, dataAt, subtreeAt] using this
    have hs : (⟨[], k, v⟩ : NodeRef V).accurate (.node k v l r0) := by
      simp [NodeRef.accurate, dataAt, subtreeAt]
    simp only [findMin] at h
    rcases compareNode_cases c .less (some ⟨[], k, v⟩)
      (if c ≠ dim then
        compareNode c .less ((findMin K c (dimNext K dim) l).map (NodeRef.under .L))
          ((findMin K c (dimNext K dim) r0).map (NodeRef.under .R))
       else (findMin K c (dimNext K dim) l).map (NodeRef.under .L)) with h1 | h1
    · rw [h1] at h
      cases h
      exact hs
    · rw [h1] at h
      split at h
      · rcases compareNode_cases c .less
          ((findMin K c (dimNext K dim) l).map (NodeRef.under .L))
          ((findMin K c (dimNext K dim) r0).map (NodeRef.under .R)) with h2 | h2
        · rw [h2] at h; exact hl r h
        · rw [h2] at h; exact hr r h
      · exact hl r h

theorem compareNode_less_le (c : Nat) (x y : Option (NodeRef V)) (r : NodeRef V)
    (h : compareNode c .less x y = some r) :
    (∀ a, x = some a → coord c r.key ≤ coord c a.key) ∧
    (∀ b, y = some b → coord c r.key ≤ coord c b.key) := by
  cases x with
  | none =>
    simp only [compareNode] at h
    subst h
    exact ⟨fun a ha => (by cases ha), fun b hb => (by cases hb; exact le_refl _)⟩
  | some a =>
    cases y with
    | none =>
      simp only [compareNode, Option.some.injEq] at h
      subst h
      exact ⟨fun a ha => (by cases ha; exact le_refl _), fun b hb => (by cases hb)⟩
    | some b =>
      simp only [compareNode, compareKey_less] at h
      by_cases hc : specLess c a.key b.key = true
      · rw [if_pos hc] at h
        cases h
        refine ⟨fun a1 ha => (by cases ha; exact le_refl _), fun b1 hb => ?_⟩
        cases hb
        exact specLess_coord_le c _ _ hc
      · rw [if_neg hc] at h
        cases h
        refine ⟨fun a1 ha => ?_, fun b1 hb => (by cases hb; exact le_refl _)⟩
        cases ha
        by_contra hlt
        exact hc (specLess_of_coord_lt c _ _ (by omega))

theorem findMin_le (K c : Nat) (n : Node V) :
    ∀ (dim : Nat), partitionOK K dim n = true → ∀ a ∈ n.keys,
      ∃ r, findMin K c dim n = some r ∧ coord c r.key ≤ coord c a := by
  induction n with
  | nil => intro dim _ a ha; simp [Node.keys, Node.toList] at ha
  | node k v l r0 ihl ihr =>
    intro dim hp a ha
    rw [partitionOK_node] at hp
    obtain ⟨hp1, hp2, hp3, hp4⟩ := hp
    rw [Node.keys_node] at ha
    simp only [List.mem_append, List.mem_cons] at ha
    simp only [findMin]
    obtain ⟨res, hres⟩ := compareNode_isSome_left c .less (⟨[], k, v⟩ : NodeRef V)
      (if c ≠ dim then
        compareNode c .less ((findMin K c (dimNext K dim) l).map (NodeRef.under .L))
          ((findMin K c (dimNext K dim) r0).map (NodeRef.under .R))
       else (findMin K c (dimNext K dim) l).map (NodeRef.under .L))
    refine ⟨res, hres, ?_⟩
    obtain ⟨hle1, hle2⟩ := compareNode_less_le c _ _ res hres
    have hself : coord c res.key ≤ coord c k := hle1 _ rfl
    have hleft : ∀ a ∈ l.keys, coord c res.key ≤ coord c a := by
      intro a1 ha1
      obtain ⟨m, hm, hma⟩ := ihl _ hp3 a1 ha1
      by_cases hcd : c ≠ dim
      · simp only [hcd, if_true, ne_eq, not_false_eq_true] at hle2
        obtain ⟨m2, hm2⟩ : ∃ m2, compareNode c .less
            ((findMin K c (dimNext K dim) l).map (NodeRef.under .L))
            ((findMin K c (dimNext K dim) r0).map (NodeRef.under .R)) = some m2 := by
          rw [hm]; exact compareNode_isSome_left c .less _ _
        have h1 := hle2 m2 hm2
        have h2 := (compareNode_less_le c _ _ m2 hm2).1 (m.under .L) (by rw [hm]; rfl)
        simp only [NodeRef.under_key] at h2
        omega
      · simp only [hcd, if_false] at hle2
        have h1 := hle2 (m.under .L) (by rw [hm]; rfl)
        simp only [NodeRef.under_key] at h1
        omega
    rcases ha with ha | ha | ha
    · exact hleft a ha
    · rw [ha]; exact hself
    · by_cases hcd : c ≠ dim
      · obtain ⟨m, hm, hma⟩ := ihr _ hp4 a ha
        simp only [hcd, if_true, ne_eq, not_false_eq_true] at hle2
        obtain ⟨m2, hm2⟩ : ∃ m2, compareNode c .less
            ((findMin K c (dimNext K dim) l).map (NodeRef.under .L))
            ((findMin K c (dimNext K dim) r0).map (NodeRef.under .R)) = some m2 := by
          rw [hm]; exact compareNode_isSome_right c .less _ _
        have h1 := hle2 m2 hm2
        have h2 := (compareNode_less_le c _ _ m2 hm2).2 (m.under .R) (by rw [hm]; rfl)
        simp only [NodeRef.under_key] at h2
        omega
      · have hcd2 : c = dim := by
          by_contra h; exact hcd h
        have := hp2 a ha
        rw [hcd2] at hself ⊢
        omega

theorem findMinDynamic_eq (K : Nat) (root : Node V) (d : Nat) (hd : d < K) :
    ∀ (fuel DIM : Nat), DIM ≤ d → d < DIM + fuel →
      findMinDynamic K root fuel DIM d = findMin K d 0 root := by
  intro fuel
  induction fuel with
  | zero => intro DIM h1 h2; omega
  | succ fuel ih =>
    intro DIM h1 h2
    unfold findMinDynamic
    have hge : ¬ d ≥ K := by omega
    simp only [hge, if_false]
    by_cases he : d = DIM
    · simp [he]
    · simp only [he, if_false]
      have hnext : dimNext K DIM = DIM + 1 := by
        unfold dimNext
        exact Nat.mod_eq_of_lt (by omega)
      rw [hnext]
      exact ih (DIM + 1) (by omega) (by omega)

theorem findMaxDynamic_eq (K : Nat) (root : Node V) (d : Nat) (hd : d < K) :
    ∀ (fuel DIM : Nat), DIM ≤ d → d < DIM + fuel →
      findMaxDynamic K root fuel DIM d = findMax K d 0 root := by
  intro fuel
  induction fuel with
  | zero => intro DIM h1 h2; omega
  | succ fuel ih =>
    intro DIM h1 h2
    unfold findMaxDynamic
    have hge : ¬ d ≥ K := by omega
    simp only [hge, if_false]
    by_cases he : d = DIM
    · simp [he]
    · simp only [he, if_false]
      have hnext : dimNext K DIM = DIM + 1 := by
        unfold dimNext
        exact Nat.mod_eq_of_lt (by omega)
      rw [hnext]
      exact ih (DIM + 1) (by omega) (by omega)

/-- C4, as stated, fails: after inserting (3,5) and (3,1), `findMin(0)` returns the entry
with key (3,5), because the search does not enter the right subtree of a node that
branches on dimension 0, while a linear scan ordered by component 0 with ties broken by the
full key order selects (3,1). -/
theorem findMin_tie_break_counterexample :
    Tree.insertAll 2 Tree.empty [([3, 5], "a"), ([3, 1], "b")] =
        some ⟨.live (.node [3, 5] "a" .nil (.node [3, 1] "b" .nil .nil)), 2⟩ ∧
      ((Tree.findMin 2 ⟨.live (.node [3, 5] "a" .nil (.node [3, 1] "b" .nil .nil)), 2⟩ 0).bind
        (Tree.deref ⟨.live (.node [3, 5] "a" .nil (.node [3, 1] "b" .nil .nil)), 2⟩))
        = some ([3, 5], "a") ∧
      linearScanMin 0
        (Tree.toList ⟨.live (.node [3, 5] "a" .nil (.node [3, 1] "b" .nil .nil)), 2⟩)
        = some ([3, 1], "b") := by
  decide

/-- C4, amended: on a non-empty tree built by inserts, `findMin(d)` for `d < K` returns an
iterator to a stored entry whose component `d` is the minimum of component `d` over all
stored keys. -/
theorem findMin_returns_minimal_coordinate (K : Nat) (ops : List (Key × V)) (d : Nat)
    (hops : ops ≠ []) (hd : d < K) :
    ∃ t p e, Tree.insertAll K Tree.empty ops = some t ∧
      t.findMin K d = some (Iter.ptr p) ∧
      t.deref (Iter.ptr p) = some e ∧
      e ∈ t.toList ∧
      ∀ e1 ∈ t.toList, coord d e.1 ≤ coord d e1.1 := by
  obtain ⟨n1, sz1, h1, h2, h3⟩ := insertAll_partitionOK K ops (Node.nil : Node V) 0 rfl
  obtain ⟨kv, rest, hkv⟩ : ∃ kv rest, ops = kv :: rest := by
    cases ops with
    | nil => exact absurd rfl hops
    | cons kv rest => exact ⟨kv, rest, rfl⟩
  have hmem : kv.1 ∈ n1.keys := by
    rw [h3]; left; rw [hkv]; simp
  obtain ⟨r, hr, _⟩ := findMin_le K d n1 0 h2 kv.1 hmem
  have hacc := findMin_accurate K d n1 0 r hr
  have hdyn : findMinDynamic K n1 K 0 d = some r := by
    rw [findMinDynamic_eq K n1 d hd K 0 (by omega) (by omega)]; exact hr
  refine ⟨⟨.live n1, sz1⟩, r.path, (r.key, r.value), h1, ?_, ?_, ?_, ?_⟩
  · simp [Tree.findMin, hdyn, Iter.ofRef]
  · simpa [Tree.deref] using hacc
  · exact dataAt_mem _ _ _ hacc
  · intro e1 he1
    have hk : e1.1 ∈ n1.keys := List.mem_map_of_mem Prod.fst he1
    obtain ⟨r2, hr2, hle⟩ := findMin_le K d n1 0 h2 e1.1 hk
    rw [hr] at hr2
    cases hr2
    exact hle

/-- C4, amended, on the tree built by inserting (3,5) and (3,1) with `d = 0`. -/
theorem findMin_returns_minimal_coordinate_witness :
    ∃ t p e, Tree.insertAll 2 Tree.empty [([3, 5], "a"), ([3, 1], "b")] = some t ∧
      t.findMin 2 0 = some (Iter.ptr p) ∧
      t.deref (Iter.ptr p) = some e ∧
      e ∈ t.toList ∧
      ∀ e1 ∈ t.toList, coord 0 e.1 ≤ coord 0 e1.1 :=
  findMin_returns_minimal_coordinate 2 [([3, 5], "a"), ([3, 1], "b")] 0 (by decide) (by decide)

theorem specLess_neg_trans (d : Nat) (a b c : Key) (h : specLess d a c = true) :
    specLess d a b = true ∨ specLess d b c = true := by
  by_cases hab : a = b
  · right; rw [← hab]; exact h
  · rcases specLess_total d a b hab with h1 | h1
    · exact Or.inl h1
    · exact Or.inr (specLess_trans d b a c h1 h)

theorem specLess_ge_trans (d : Nat) (a b c : Key) (h1 : specLess d a b = false)
    (h2 : specLess d b c = false) : specLess d a c = false := by
  by_contra h
  have h3 : specLess d a c = true := by simpa using h
  rcases specLess_neg_trans d a b c h3 with h4 | h4
  · rw [h1] at h4; exact Bool.false_ne_true h4
  · rw [h2] at h4; exact Bool.false_ne_true h4

theorem findMax_accurate (K c : Nat) (n : Node V) :
    ∀ (dim : Nat) (r : NodeRef V), findMax K c dim n = some r → r.accurate n := by
  induction n with
  | nil => intro dim r h; simp [findMax] at h
  | node k v l r0 ihl ihr =>
    intro dim r h
    have hl : ∀ q, (findMax K c (dimNext K dim) l).map (NodeRef.under .L) = some q →
        q.accurate (.node k v l r0) := by
      intro q hq
      cases hf : findMax K c (dimNext K dim) l with
      | none => simp [hf] at hq
      | some m =>
        simp only [hf, Option.map_some', Option.some.injEq] at hq
        subst hq
        have := ihl _ _ hf
        simpa [NodeRef.accurate, dataAt, subtreeAt] using this
    have hr : ∀ q, (findMax K c (dimNext K dim) r0).map (NodeRef.under .R) = some q →
        q.accurate (.node k v l r0) := by
      intro q hq
      cases hf : findMax K c (dimNext K dim) r0 with
      | none => simp [hf] at hq
      | some m =>
        simp only [hf, Option.map_some', Option.some.injEq] at hq
        subst hq
        have := ihr _ _ hf
        simpa [NodeRef.accurate, dataAt, subtreeAt] using this
    have hs : (⟨[], k, v⟩ : NodeRef V).accurate (.node k v l r0) := by
      simp [NodeRef.accurate, dataAt, subtreeAt]
    simp only [findMax] at h
    rcases compareNode_cases c .greater (some ⟨[], k, v⟩)
      (if c ≠ dim then
        compareNode c .greater ((findMax K c (dimNext K dim) r0).map (NodeRef.under .R))
          ((findMax K c (dimNext K dim) l).map (NodeRef.under .L))
       else (findMax K c (dimNext K dim) r0).map (NodeRef.under .R)) with h1 | h1
    · rw [h1] at h
      cases h
      exact hs
    · rw [h1] at h
      split at h
      · rcases compareNode_cases c .greater
          ((findMax K c (dimNext K dim) r0).map (NodeRef.under .R))
          ((findMax K c (dimNext K dim) l).map (NodeRef.under .L)) with h2 | h2
        · rw [h2] at h; exact hr r h
        · rw [h2] at h; exact hl r h
      · exact hr r h

theorem compareNode_greater_ge (c : Nat) (x y : Option (NodeRef V)) (r : NodeRef V)
    (h : compareNode c .greater x y = some r) :
    (∀ a, x = some a → specLess c r.key a.key = false) ∧
    (∀ b, y = some b → specLess c r.key b.key = false) := by
  cases x with
  | none =>
    simp only [compareNode] at h
    subst h
    exact ⟨fun a ha => (by cases ha), fun b hb => (by cases hb; exact specLess_irrefl c _)⟩
  | some a =>
    cases y with
    | none =>
      simp only [compareNode, Option.some.injEq] at h
      subst h
      exact ⟨fun a ha => (by cases ha; exact specLess_irrefl c _), fun b hb => (by cases hb)⟩
    | some b =>
      simp only [compareNode, compareKey_greater] at h
      by_cases hc : specLess c b.key a.key = true
      · rw [if_pos hc] at h
        cases h
        refine ⟨fun a1 ha => (by cases ha; exact specLess_irrefl c _), fun b1 hb => ?_⟩
        cases hb
        exact specLess_asymm c _ _ hc
      · rw [if_neg hc] at h
        cases h
        refine ⟨fun a1 ha => ?_, fun b1 hb => (by cases hb; exact specLess_irrefl c _)⟩
        cases ha
        simpa using hc

theorem findMax_ge (K c : Nat) (n : Node V) :
    ∀ (dim : Nat), partitionOK K dim n = true → ∀ a ∈ n.keys,
      ∃ r, findMax K c dim n = some r ∧ specLess c r.key a = false := by
  induction n with
  | nil => intro dim _ a ha; simp [Node.keys, Node.toList] at ha
  | node k v l r0 ihl ihr =>
    intro dim hp a ha
    rw [partitionOK_node] at hp
    obtain ⟨hp1, hp2, hp3, hp4⟩ := hp
    rw [Node.keys_node] at ha
    simp only [List.mem_append, List.mem_cons] at ha
    simp only [findMax]
    obtain ⟨res, hres⟩ := compareNode_isSome_left c .greater (⟨[], k, v⟩ : NodeRef V)
      (if c ≠ dim then
        compareNode c .greater ((findMax K c (dimNext K dim) r0).map (NodeRef.under .R))
          ((findMax K c (dimNext K dim) l).map (NodeRef.under .L))
       else (findMax K c (dimNext K dim) r0).map (NodeRef.under .R))
    refine ⟨res, hres, ?_⟩
    obtain ⟨hge1, hge2⟩ := compareNode_greater_ge c _ _ res hres
    have hself : specLess c res.key k = false := hge1 _ rfl
    have hright : ∀ a ∈ r0.keys, specLess c res.key a = false := by
      intro a1 ha1
      obtain ⟨m, hm, hma⟩ := ihr _ hp4 a1 ha1
      by_cases hcd : c ≠ dim
      · simp only [hcd, if_true, ne_eq, not_false_eq_true] at hge2
        obtain ⟨m2, hm2⟩ : ∃ m2, compareNode c .greater
            ((findMax K c (dimNext K dim) r0).map (NodeRef.under .R))
            ((findMax K c (dimNext K dim) l).map (NodeRef.under .L)) = some m2 := by
          rw [hm]; exact compareNode_isSome_left c .greater _ _
        have h1 := hge2 m2 hm2
        have h2 := (compareNode_greater_ge c _ _ m2 hm2).1 (m.under .R) (by rw [hm]; rfl)
        simp only [NodeRef.under_key] at h2
        exact specLess_ge_trans c _ _ _ h1 (specLess_ge_trans c _ _ _ h2 hma)
      · simp only [hcd, if_false] at hge2
        have h1 := hge2 (m.under .R) (by rw [hm]; rfl)
        simp only [NodeRef.under_key] at h1
        exact specLess_ge_trans c _ _ _ h1 hma
    rcases ha with ha | ha | ha
    · by_cases hcd : c ≠ dim
      · obtain ⟨m, hm, hma⟩ := ihl _ hp3 a ha
        simp only [hcd, if_true, ne_eq, not_false_eq_true] at hge2
        obtain ⟨m2, hm2⟩ : ∃ m2, compareNode c .greater
            ((findMax K c (dimNext K dim) r0).map (NodeRef.under .R))
            ((findMax K c (dimNext K dim) l).map (NodeRef.under .L)) = some m2 := by
          rw [hm]; exact compareNode_isSome_right c .greater _ _
        have h1 := hge2 m2 hm2
        have h2 := (compareNode_greater_ge c _ _ m2 hm2).2 (m.under .L) (by rw [hm]; rfl)
        simp only [NodeRef.under_key] at h2
        exact specLess_ge_trans c _ _ _ h1 (specLess_ge_trans c _ _ _ h2 hma)
      · have hcd2 : c = dim := by
          by_contra h; exact hcd h
        have hlt := hp1 a ha
        rw [← hcd2] at hlt
        have h1 : specLess c a k = true := specLess_of_coord_lt c a k hlt
        exact specLess_ge_trans c _ _ _ hself (specLess_asymm c _ _ h1)
    · rw [ha]; exact hself
    · exact hright a ha

theorem linearScanMax_foldl (d : Nat) (es : List (Key × V)) :
    ∀ b : Key × V, ∃ m,
      es.foldl (fun best e =>
        match best with
        | none => some e
        | some b => if specLess d b.1 e.1 then some e else some b) (some b) = some m ∧
      (m = b ∨ m ∈ es) ∧ specLess d m.1 b.1 = false ∧
      ∀ e ∈ es, specLess d m.1 e.1 = false := by
  induction es with
  | nil =>
    intro b
    exact ⟨b, rfl, Or.inl rfl, specLess_irrefl d _, fun e he => by cases he⟩
  | cons e es ih =>
    intro b
    rw [List.foldl_cons]
    by_cases hc : specLess d b.1 e.1 = true
    · simp only [hc, if_true]
      obtain ⟨m, h1, h2, h3, h4⟩ := ih e
      refine ⟨m, h1, ?_, ?_, ?_⟩
      · rcases h2 with h2 | h2
        · right; rw [h2]; exact List.mem_cons_self _ _
        · right; exact List.mem_cons_of_mem _ h2
      · exact specLess_ge_trans d _ _ _ h3 (specLess_asymm d _ _ hc)
      · intro e1 he1
        rcases List.mem_cons.mp he1 with he1 | he1
        · rw [he1]; exact h3
        · exact h4 e1 he1
    · have hc2 : specLess d b.1 e.1 = false := by simpa using hc
      simp only [hc2, Bool.false_eq_true, if_false]
      obtain ⟨m, h1, h2, h3, h4⟩ := ih b
      refine ⟨m, h1, ?_, h3, ?_⟩
      · rcases h2 with h2 | h2
        · left; exact h2
        · right; exact List.mem_cons_of_mem _ h2
      · intro e1 he1
        rcases List.mem_cons.mp he1 with he1 | he1
        · rw [he1]; exact specLess_ge_trans d _ _ _ h3 hc2
        · exact h4 e1 he1

theorem linearScanMax_spec (d : Nat) (es : List (Key × V)) (hne : es ≠ []) :
    ∃ m, linearScanMax d es = some m ∧ m ∈ es ∧ ∀ e ∈ es, specLess d m.1 e.1 = false := by
  cases es with
  | nil => exact absurd rfl hne
  | cons b es =>
    obtain ⟨m, h1, h2, h3, h4⟩ := linearScanMax_foldl d es b
    refine ⟨m, ?_, ?_, ?_⟩
    · unfold linearScanMax
      rw [List.foldl_cons]
      exact h1
    · rcases h2 with h2 | h2
      · rw [h2]; exact List.mem_cons_self _ _
      · exact List.mem_cons_of_mem _ h2
    · intro e he
      rcases List.mem_cons.mp he with he | he
      · rw [he]; exact h3
      · exact h4 e he

/-- C5: on a non-empty tree that satisfies the partition invariant, `findMax(d)` for
`d < K` returns an iterator to a stored entry whose key is the key a linear scan selects as
the maximum in the order "component `d`, ties broken by the full key order"; when the
stored keys are pairwise distinct it is the very entry the scan selects. -/
theorem findMax_agrees_with_linear_scan (K d : Nat) (t : Tree V)
    (hinv : t.partitionOK K = true) (hne : t.toList ≠ []) (hd : d < K) :
    ∃ p e, t.findMax K d = some (Iter.ptr p) ∧
      t.deref (Iter.ptr p) = some e ∧
      e ∈ t.toList ∧
      (linearScanMax d t.toList).map Prod.fst = some e.1 ∧
      ((t.toList.map Prod.fst).Nodup → linearScanMax d t.toList = some e) := by
  obtain ⟨root, sz⟩ := t
  cases root with
  | freed => simp [Tree.partitionOK] at hinv
  | live n =>
    simp only [Tree.partitionOK] at hinv
    simp only [Tree.toList] at hne ⊢
    obtain ⟨m, hm1, hm2, hm3⟩ := linearScanMax_spec d n.toList hne
    have hmk : m.1 ∈ n.keys := List.mem_map_of_mem Prod.fst hm2
    obtain ⟨r, hr, hrm⟩ := findMax_ge K d n 0 hinv m.1 hmk
    have hacc := findMax_accurate K d n 0 r hr
    have hmem : (r.key, r.value) ∈ n.toList := dataAt_mem _ _ _ hacc
    have hdyn : findMaxDynamic K n K 0 d = some r := by
      rw [findMaxDynamic_eq K n d hd K 0 (by omega) (by omega)]; exact hr
    have hkey : m.1 = r.key := by
      by_contra hneq
      rcases specLess_total d m.1 r.key hneq with h | h
      · have := hm3 (r.key, r.value) hmem
        rw [this] at h
        exact Bool.false_ne_true h
      · rw [hrm] at h
        exact Bool.false_ne_true h
    refine ⟨r.path, (r.key, r.value), ?_, ?_, hmem, ?_, ?_⟩
    · simp [Tree.findMax, hdyn, Iter.ofRef]
    · simpa [Tree.deref] using hacc
    · rw [hm1]; simp [hkey]
    · intro hnd
      rw [hm1]
      have := List.inj_on_of_nodup_map hnd hm2 hmem hkey
      rw [this]

/-- C5 on the tree bulk-built from (3,1), (1,2), (2,0): `findMax(1)` returns the entry
with key (1,2), the entry the linear scan selects. -/
theorem findMax_agrees_with_linear_scan_witness :
    Tree.ofVector nthBySort 2 [([3, 1], "x"), ([1, 2], "y"), ([2, 0], "z")] =
        some ⟨.live (.node [2, 0] "z" (.node [1, 2] "y" .nil .nil) (.node [3, 1] "x" .nil .nil)),
          3⟩ ∧
      (Tree.findMax 2
          ⟨.live (.node [2, 0] "z" (.node [1, 2] "y" .nil .nil) (.node [3, 1] "x" .nil .nil)), 3⟩
          1).bind
        (Tree.deref
          ⟨.live (.node [2, 0] "z" (.node [1, 2] "y" .nil .nil) (.node [3, 1] "x" .nil .nil)), 3⟩)
        = some ([1, 2], "y") ∧
      linearScanMax 1 (Tree.toList
          ⟨.live (.node [2, 0] "z" (.node [1, 2] "y" .nil .nil) (.node [3, 1] "x" .nil .nil)), 3⟩)
        = some ([1, 2], "y") := by
  refine ⟨by decide, ?_, by decide⟩
  obtain ⟨p, e, h1, h2, _, _, h5⟩ := findMax_agrees_with_linear_scan 2 1
    ⟨.live (.node [2, 0] "z" (.node [1, 2] "y" .nil .nil) (.node [3, 1] "x" .nil .nil)), 3⟩
    (by decide) (by decide) (by decide)
  have h6 := h5 (by decide)
  have h7 : linearScanMax 1 (Tree.toList
      ⟨.live (.node [2, 0] "z" (.node [1, 2] "y" .nil .nil) (.node [3, 1] "x" .nil .nil)), 3⟩)
      = some ([1, 2], "y") := by decide
  rw [h7] at h6
  cases h6
  simp only [h1, Option.some_bind, h2]

/-! ## Sorting, deduplication and selection used by bulk construction -/

theorem sortComp_strictWeak (dim : Nat) : StrictWeakOrder (sortComp dim : Key × V → Key × V → Bool) where
  irrefl := by
    intro a
    simp [sortComp, compareKey_less, specLess_irrefl]
  trans := by
    intro a b c h1 h2
    simp only [sortComp, compareKey_less] at h1 h2 ⊢
    exact specLess_trans dim _ _ _ h1 h2
  neg_trans := by
    intro a b c h
    simp only [sortComp, compareKey_less] at h ⊢
    exact specLess_neg_trans dim _ _ _ h

theorem orderedInsert_perm {α : Type} (cmp : α → α → Bool) (x : α) (ys : List α) :
    (orderedInsert cmp x ys).Perm (x :: ys) := by
  induction ys with
  | nil => exact List.Perm.refl _
  | cons y ys ih =>
    simp only [orderedInsert]
    split
    · exact (List.Perm.cons y ih).trans (List.Perm.swap x y ys)
    · exact List.Perm.refl _

theorem stableSort_perm {α : Type} (cmp : α → α → Bool) (l : List α) :
    (stableSort cmp l).Perm l := by
  induction l with
  | nil => exact List.Perm.refl _
  | cons x xs ih =>
    have : stableSort cmp (x :: xs) = orderedInsert cmp x (stableSort cmp xs) := rfl
    rw [this]
    exact (orderedInsert_perm cmp x _).trans (List.Perm.cons x ih)

theorem orderedInsert_sorted {α : Type} (cmp : α → α → Bool) (hc : StrictWeakOrder cmp) (x : α)
    (ys : List α) (h : ys.Pairwise (fun a b => cmp b a = false)) :
    (orderedInsert cmp x ys).Pairwise (fun a b => cmp b a = false) := by
  induction ys with
  | nil => simp [orderedInsert]
  | cons y ys ih =>
    rw [List.pairwise_cons] at h
    simp only [orderedInsert]
    by_cases hyx : cmp y x = true
    · rw [if_pos hyx]
      rw [List.pairwise_cons]
      refine ⟨?_, ih h.2⟩
      intro z hz
      rcases List.mem_cons.mp ((orderedInsert_perm cmp x ys).mem_iff.mp hz) with hz | hz
      · rw [hz]
        by_contra hxy
        have hxy2 : cmp x y = true := by simpa using hxy
        have := hc.trans _ _ _ hyx hxy2
        rw [hc.irrefl] at this
        exact Bool.false_ne_true this
      · exact h.1 z hz
    · rw [if_neg hyx]
      have hyx2 : cmp y x = false := by simpa using hyx
      rw [List.pairwise_cons]
      refine ⟨?_, List.pairwise_cons.mpr h⟩
      intro z hz
      rcases List.mem_cons.mp hz with hz | hz
      · rw [hz]; exact hyx2
      · by_contra hzx
        have hzx2 : cmp z x = true := by simpa using hzx
        rcases hc.neg_trans z y x hzx2 with h1 | h1
        · rw [h.1 z hz] at h1; exact Bool.false_ne_true h1
        · rw [hyx2] at h1; exact Bool.false_ne_true h1

theorem stableSort_sorted {α : Type} (cmp : α → α → Bool) (hc : StrictWeakOrder cmp)
    (l : List α) : (stableSort cmp l).Pairwise (fun a b => cmp b a = false) := by
  induction l with
  | nil => simp [stableSort]
  | cons x xs ih =>
    have : stableSort cmp (x :: xs) = orderedInsert cmp x (stableSort cmp xs) := rfl
    rw [this]
    exact orderedInsert_sorted cmp hc x _ ih

theorem nthBySort_spec {α : Type} :
    NthElementSpec (nthBySort : (α → α → Bool) → Nat → List α → List α) where
  perm := by
    intro cmp n l _ _
    exact stableSort_perm cmp l
  partitioned := by
    intro cmp n l hc _ i j x y hi hj hx hy
    have hs := stableSort_sorted cmp hc l
    unfold nthBySort at hx hy
    rcases Nat.lt_or_ge i j with hij | hij
    · rw [List.pairwise_iff_getElem] at hs
      obtain ⟨hi1, hi2⟩ := List.getElem?_eq_some_iff.mp hx
      obtain ⟨hj1, hj2⟩ := List.getElem?_eq_some_iff.mp hy
      have := hs i j hi1 hj1 hij
      rw [hi2, hj2] at this
      exact this
    · have hij2 : i = j := by omega
      subst hij2
      rw [hx] at hy
      cases hy
      exact hc.irrefl x

theorem applyRange_mid {α : Type} (A S0 B : List α) (z : α) (f : List α → List α) :
    applyRange A.length (A.length + S0.length) f (A ++ (S0 ++ [z]) ++ B)
      = A ++ (f S0 ++ [z]) ++ B := by
  unfold applyRange
  have h1 : (A ++ (S0 ++ [z]) ++ B).take A.length = A := by simp
  have h2 : ((A ++ (S0 ++ [z]) ++ B).drop A.length).take (A.length + S0.length - A.length)
      = S0 := by
    simp
  have h3 : (A ++ (S0 ++ [z]) ++ B).drop (A.length + S0.length) = [z] ++ B := by
    have : A ++ (S0 ++ [z]) ++ B = (A ++ S0) ++ ([z] ++ B) := by simp
    rw [this]
    have hl : A.length + S0.length = (A ++ S0).length := by simp
    rw [hl, List.drop_left]
  rw [h1, h2, h3]
  simp

theorem vectorConstruct_succ
    (nth : ((Key × V) → (Key × V) → Bool) → Nat → List (Key × V) → List (Key × V))
    (K fuel dim : Nat) (left right : Int) (v : List (Key × V)) :
    vectorConstruct nth K (fuel + 1) dim left right v =
      if left > right then some (.nil, v)
      else
        match (applyRange left.toNat right.toNat
            (nth (sortComp dim) (((left + right).tdiv 2) - left).toNat) v)[((left + right).tdiv 2).toNat]? with
        | none => none
        | some d =>
          match vectorConstruct nth K fuel (dimNext K dim) left (((left + right).tdiv 2) - 1)
              (applyRange left.toNat right.toNat
                (nth (sortComp dim) (((left + right).tdiv 2) - left).toNat) v) with
          | none => none
          | some (l, v2) =>
            match vectorConstruct nth K fuel (dimNext K dim) (((left + right).tdiv 2) + 1)
                right v2 with
            | none => none
            | some (r, v3) => some (.node d.1 d.2 l r, v3) := by
  rfl

theorem vectorConstruct_span
    (nth : ((Key × V) → (Key × V) → Bool) → Nat → List (Key × V) → List (Key × V))
    (hperm : ∀ cmp n l, StrictWeakOrder cmp → n ≤ l.length → (nth cmp n l).Perm l)
    (K : Nat) :
    ∀ (fuel : Nat) (S A B : List (Key × V)) (dim : Nat), S.length < fuel →
      ∃ t S1, vectorConstruct nth K fuel dim (A.length : Int)
          ((A.length : Int) + (S.length : Int) - 1) (A ++ S ++ B) = some (t, A ++ S1 ++ B) ∧
        S1.Perm S ∧ t.toList.Perm S := by
  intro fuel
  induction fuel with
  | zero => intro S A B dim h; omega
  | succ fuel ih =>
    intro S A B dim hlen
    rw [vectorConstruct_succ]
    rcases List.eq_nil_or_concat S with hS | ⟨S0, z, hS⟩
    · subst hS
      refine ⟨.nil, [], ?_, List.Perm.refl _, by simp [Node.toList]⟩
      have : (A.length : Int) > (A.length : Int) + (([] : List (Key × V)).length : Int) - 1 := by
        simp
      rw [if_pos this]
    · rw [List.concat_eq_append] at hS
      subst hS
      have hlen2 : S0.length + 1 < fuel + 1 := by simpa using hlen
      have hgt : ¬ ((A.length : Int) > (A.length : Int) + ((S0 ++ [z]).length : Int) - 1) := by
        simp only [List.length_append, List.length_singleton]; push_cast; omega
      rw [if_neg hgt]
      have hmid : ((A.length : Int) + ((A.length : Int) + ((S0 ++ [z]).length : Int) - 1)).tdiv 2
          = ((A.length + S0.length / 2 : Nat) : Int) := by
        have hnn : (0 : Int) ≤ (A.length : Int) + ((A.length : Int) + ((S0 ++ [z]).length : Int) - 1) := by
          simp only [List.length_append, List.length_singleton]; push_cast; omega
        rw [Int.tdiv_eq_ediv hnn (by omega)]
        simp only [List.length_append, List.length_singleton]
        push_cast
        omega
      rw [hmid]
      have hl : ((A.length : Int)).toNat = A.length := by simp
      have hr : ((A.length : Int) + ((S0 ++ [z]).length : Int) - 1).toNat
          = A.length + S0.length := by
        simp only [List.length_append, List.length_singleton]; push_cast; omega
      have hm : (((A.length + S0.length / 2 : Nat) : Int) - (A.length : Int)).toNat
          = S0.length / 2 := by
        push_cast; omega
      have hmt : (((A.length + S0.length / 2 : Nat) : Int)).toNat = A.length + S0.length / 2 :=
        Int.toNat_ofNat _
      rw [hl, hr, hm, hmt, applyRange_mid]
      have hN : (nth (sortComp dim) (S0.length / 2) S0).Perm S0 :=
        hperm _ _ _ (sortComp_strictWeak dim) (Nat.div_le_self _ _)
      generalize nth (sortComp dim) (S0.length / 2) S0 = N at hN ⊢
      have hNlen : N.length = S0.length := hN.length_eq
      -- split the permuted span around the element at the midpoint
      have hmlt : S0.length / 2 < (N ++ [z]).length := by
        simp only [List.length_append, List.length_singleton, hNlen]; omega
      obtain ⟨d, hd⟩ : ∃ d, (N ++ [z])[S0.length / 2]? = some d :=
        ⟨_, List.getElem?_eq_getElem hmlt⟩
      have hsplit : N ++ [z] = (N ++ [z]).take (S0.length / 2) ++
          d :: (N ++ [z]).drop (S0.length / 2 + 1) := by
        have h1 := List.getElem?_eq_some_iff.mp hd
        obtain ⟨h1a, h1b⟩ := h1
        rw [← h1b]
        simp
      generalize hLp : (N ++ [z]).take (S0.length / 2) = Lp at hsplit
      generalize hRp : (N ++ [z]).drop (S0.length / 2 + 1) = Rp at hsplit
      have hLplen : Lp.length = S0.length / 2 := by
        rw [← hLp, List.length_take]; omega
      have hRplen : Rp.length = S0.length - S0.length / 2 := by
        rw [← hRp, List.length_drop]
        simp only [List.length_append, List.length_singleton, hNlen]; omega
      have hget : (A ++ (N ++ [z]) ++ B)[A.length + S0.length / 2]? = some d := by
        rw [List.append_assoc, List.getElem?_append_right (by omega)]
        simp only [Nat.add_sub_cancel_left]
        rw [List.getElem?_append_left hmlt]
        exact hd
      rw [hget]
      simp only []
      -- left sub-span
      have hv1 : A ++ (N ++ [z]) ++ B = A ++ Lp ++ (d :: Rp ++ B) := by
        rw [hsplit]; simp
      have hleft : (((A.length + S0.length / 2 : Nat) : Int) - 1)
          = (A.length : Int) + (Lp.length : Int) - 1 := by
        rw [hLplen]; push_cast; ring
      rw [hv1, hleft]
      obtain ⟨l, Lp1, hl1, hl2, hl3⟩ := ih Lp A (d :: Rp ++ B) (dimNext K dim) (by omega)
      rw [hl1]
      simp only []
      -- right sub-span
      have hv2 : A ++ Lp1 ++ (d :: Rp ++ B) = (A ++ Lp1 ++ [d]) ++ Rp ++ B := by simp
      have hLp1len : Lp1.length = S0.length / 2 := by rw [hl2.length_eq, hLplen]
      have hright1 : (((A.length + S0.length / 2 : Nat) : Int) + 1)
          = ((A ++ Lp1 ++ [d]).length : Int) := by
        simp only [List.length_append, List.length_singleton, hLp1len]; push_cast; ring
      have hright2 : (A.length : Int) + ((S0 ++ [z]).length : Int) - 1
          = ((A ++ Lp1 ++ [d]).length : Int) + (Rp.length : Int) - 1 := by
        simp only [List.length_append, List.length_singleton, hLp1len, hRplen]
        push_cast
        omega
      rw [hv2, hright1, hright2]
      obtain ⟨r, Rp1, hr1, hr2, hr3⟩ := ih Rp (A ++ Lp1 ++ [d]) B (dimNext K dim) (by omega)
      rw [hr1]
      simp only []
      refine ⟨.node d.1 d.2 l r, Lp1 ++ d :: Rp1, ?_, ?_, ?_⟩
      · simp
      · have h1 : (Lp1 ++ d :: Rp1).Perm (Lp ++ d :: Rp) :=
          List.Perm.append hl2 (List.Perm.cons d hr2)
        have h2 : (Lp ++ d :: Rp).Perm (S0 ++ [z]) := by
          rw [← hsplit]
          exact List.Perm.append_right [z] hN
        exact h1.trans h2
      · have h1 : (Node.node d.1 d.2 l r).toList.Perm (Lp ++ d :: Rp) := by
          simp only [Node.toList]
          exact List.Perm.append hl3 (List.Perm.cons d hr3)
        have h2 : (Lp ++ d :: Rp).Perm (S0 ++ [z]) := by
          rw [← hsplit]
          exact List.Perm.append_right [z] hN
        exact h1.trans h2

theorem sortComp_false_of_key_eq (dim : Nat) (a b : Key × V) (h : a.1 = b.1) :
    sortComp dim a b = false := by
  simp [sortComp, compareKey_less, h, specLess_irrefl]

theorem orderedInsert_filter_key (dim : Nat) (k : Key) (x : Key × V) (ys : List (Key × V)) :
    (orderedInsert (sortComp dim) x ys).filter (fun e => decide (e.1 = k))
      = (x :: ys).filter (fun e => decide (e.1 = k)) := by
  induction ys with
  | nil => rfl
  | cons y ys ih =>
    simp only [orderedInsert]
    by_cases hyx : sortComp dim y x = true
    · rw [if_pos hyx]
      have hne : y.1 ≠ x.1 := by
        intro h
        rw [sortComp_false_of_key_eq dim y x h] at hyx
        exact Bool.false_ne_true hyx
      by_cases hy : y.1 = k
      · have hx : ¬ x.1 = k := fun h => hne (hy.trans h.symm)
        rw [List.filter_cons, if_pos (by simpa using hy), ih]
        simp [List.filter_cons, hx, hy]
      · rw [List.filter_cons, if_neg (by simpa using hy), ih]
        simp [List.filter_cons, hy]
    · rw [if_neg hyx]

theorem stableSort_filter_key (dim : Nat) (k : Key) (l : List (Key × V)) :
    (stableSort (sortComp dim) l).filter (fun e => decide (e.1 = k))
      = l.filter (fun e => decide (e.1 = k)) := by
  induction l with
  | nil => rfl
  | cons x xs ih =>
    have : stableSort (sortComp dim) (x :: xs)
        = orderedInsert (sortComp dim) x (stableSort (sortComp dim) xs) := rfl
    rw [this, orderedInsert_filter_key, List.filter_cons, List.filter_cons, ih]

theorem lastValue_foldl_filter (k : Key) (l : List (Key × V)) :
    ∀ acc : Option V,
      l.foldl (fun acc kv => if kv.1 = k then some kv.2 else acc) acc =
        (l.filter (fun e => decide (e.1 = k))).foldl
          (fun acc kv => if kv.1 = k then some kv.2 else acc) acc := by
  induction l with
  | nil => intro acc; rfl
  | cons x xs ih =>
    intro acc
    by_cases hx : x.1 = k
    · rw [List.filter_cons, if_pos (by simpa using hx), List.foldl_cons, List.foldl_cons, ih]
    · rw [List.filter_cons, if_neg (by simpa using hx), List.foldl_cons, if_neg hx, ih]

theorem lastValue_stableSort (dim : Nat) (k : Key) (l : List (Key × V)) :
    lastValue (stableSort (sortComp dim) l) k = lastValue l k := by
  unfold lastValue
  rw [lastValue_foldl_filter k (stableSort (sortComp dim) l), stableSort_filter_key,
    ← lastValue_foldl_filter]

theorem lastValue_reverse (k : Key) (w : List (Key × V)) :
    lastValue w.reverse k = (w.find? (fun e => decide (e.1 = k))).map Prod.snd := by
  induction w with
  | nil => rfl
  | cons x w ih =>
    unfold lastValue at ih ⊢
    rw [List.reverse_cons, List.foldl_append, List.foldl_cons, List.foldl_nil, ih]
    by_cases hx : x.1 = k
    · simp [List.find?_cons, hx]
    · simp [List.find?_cons, hx]

theorem lastValue_mem_keys (k : Key) (v : V) (l : List (Key × V)) (h : lastValue l k = some v) :
    k ∈ l.map Prod.fst := by
  have h2 : lastValue l.reverse.reverse k = some v := by rw [List.reverse_reverse]; exact h
  rw [lastValue_reverse] at h2
  cases hf : l.reverse.find? (fun e => decide (e.1 = k)) with
  | none => simp [hf] at h2
  | some e =>
    have h3 := List.find?_some hf
    have h4 := List.mem_of_find?_eq_some hf
    have h5 : e ∈ l := List.mem_reverse.mp h4
    have h6 : e.1 = k := by simpa using h3
    rw [← h6]
    exact List.mem_map_of_mem Prod.fst h5

theorem stdUniqueAux_subset (rest : List (Key × V)) :
    ∀ a e, e ∈ stdUniqueAux uniqueComp a rest → e ∈ rest := by
  induction rest with
  | nil => intro a e h; simp [stdUniqueAux] at h
  | cons b rest ih =>
    intro a e h
    simp only [stdUniqueAux] at h
    split at h
    · exact List.mem_cons_of_mem _ (ih a e h)
    · rcases List.mem_cons.mp h with h | h
      · rw [h]; exact List.mem_cons_self _ _
      · exact List.mem_cons_of_mem _ (ih b e h)

/-- In a list sorted downwards, a key that differs from the head differs from every key
after an element that differs from the head. -/
theorem key_ne_of_desc (d : Nat) (a b e : Key × V) (hab : sortComp d a b = false)
    (hbe : sortComp d b e = false) (hne : b.1 ≠ a.1) : e.1 ≠ a.1 := by
  simp only [sortComp, compareKey_less] at hab hbe
  intro h
  rw [← h] at hab
  rcases specLess_total d b.1 e.1 (by rw [h]; exact hne) with h1 | h1
  · rw [hbe] at h1; exact Bool.false_ne_true h1
  · rw [hab] at h1; exact Bool.false_ne_true h1

theorem stdUniqueAux_mem (d : Nat) (rest : List (Key × V)) :
    ∀ a : Key × V, (a :: rest).Pairwise (fun x y => sortComp d x y = false) →
      ∀ e, e ∈ stdUniqueAux uniqueComp a rest ↔
        (e.1 ≠ a.1 ∧ rest.find? (fun x => decide (x.1 = e.1)) = some e) := by
  induction rest with
  | nil => intro a _ e; simp [stdUniqueAux]
  | cons b rest ih =>
    intro a hp e
    have hp2 := List.pairwise_cons.mp hp
    have hab : sortComp d a b = false := hp2.1 b (List.mem_cons_self _ _)
    have hpb : (b :: rest).Pairwise (fun x y => sortComp d x y = false) := hp2.2
    have hpa : (a :: rest).Pairwise (fun x y => sortComp d x y = false) :=
      List.pairwise_cons.mpr
        ⟨fun x hx => hp2.1 x (List.mem_cons_of_mem _ hx), (List.pairwise_cons.mp hpb).2⟩
    simp only [stdUniqueAux, uniqueComp]
    by_cases hk : a.1 = b.1
    · rw [if_pos (by simpa using hk)]
      have := ih a hpa e
      simp only [uniqueComp] at this
      rw [this]
      constructor
      · rintro ⟨h1, h2⟩
        refine ⟨h1, ?_⟩
        rw [List.find?_cons]
        have : ¬ b.1 = e.1 := fun h => h1 (h.symm.trans hk.symm)
        simp [this, h2]
      · rintro ⟨h1, h2⟩
        refine ⟨h1, ?_⟩
        rw [List.find?_cons] at h2
        have : ¬ b.1 = e.1 := fun h => h1 (h.symm.trans hk.symm)
        simpa [this] using h2
    · rw [if_neg (by simpa using hk)]
      have := ih b hpb e
      simp only [uniqueComp] at this
      rw [List.mem_cons, this, List.find?_cons]
      constructor
      · rintro (h | ⟨h1, h2⟩)
        · subst h
          exact ⟨fun h => hk h.symm, by simp⟩
        · have hmem : e ∈ rest := List.mem_of_find?_eq_some h2
          have hbe : sortComp d b e = false := (List.pairwise_cons.mp hpb).1 e hmem
          refine ⟨key_ne_of_desc d a b e hab hbe (fun h => hk h.symm), ?_⟩
          have : ¬ b.1 = e.1 := fun h => h1 h.symm
          simp [this, h2]
      · rintro ⟨h1, h2⟩
        by_cases hbe : b.1 = e.1
        · left
          simp only [hbe, decide_True] at h2
          exact (Option.some.inj h2).symm
        · right
          refine ⟨fun h => hbe h.symm, ?_⟩
          simpa [hbe] using h2

theorem stdUnique_mem (d : Nat) (w : List (Key × V))
    (hp : w.Pairwise (fun x y => sortComp d x y = false)) (e : Key × V) :
    e ∈ stdUnique uniqueComp w ↔ w.find? (fun x => decide (x.1 = e.1)) = some e := by
  cases w with
  | nil => simp [stdUnique]
  | cons a rest =>
    simp only [stdUnique, List.mem_cons]
    rw [stdUniqueAux_mem d rest a hp e, List.find?_cons]
    by_cases hae : a.1 = e.1
    · simp only [hae, decide_True, Option.some.injEq]
      constructor
      · rintro (h | ⟨h1, _⟩)
        · exact h.symm
        · exact absurd rfl h1
      · intro h; left; exact h.symm
    · have hae2 : e ≠ a := fun h => hae (by rw [h])
      have hae3 : e.1 ≠ a.1 := fun h => hae h.symm
      simp [hae, hae2, hae3]

theorem stdUniqueAux_keys_nodup (d : Nat) (rest : List (Key × V)) :
    ∀ a : Key × V, (a :: rest).Pairwise (fun x y => sortComp d x y = false) →
      (a :: stdUniqueAux uniqueComp a rest).Pairwise (fun x y => x.1 ≠ y.1) := by
  induction rest with
  | nil => intro a _; simp [stdUniqueAux]
  | cons b rest ih =>
    intro a hp
    have hp2 := List.pairwise_cons.mp hp
    have hab : sortComp d a b = false := hp2.1 b (List.mem_cons_self _ _)
    have hpb : (b :: rest).Pairwise (fun x y => sortComp d x y = false) := hp2.2
    have hpa : (a :: rest).Pairwise (fun x y => sortComp d x y = false) :=
      List.pairwise_cons.mpr
        ⟨fun x hx => hp2.1 x (List.mem_cons_of_mem _ hx), (List.pairwise_cons.mp hpb).2⟩
    simp only [stdUniqueAux, uniqueComp]
    by_cases hk : a.1 = b.1
    · rw [if_pos (by simpa using hk)]
      exact ih a hpa
    · rw [if_neg (by simpa using hk)]
      refine List.pairwise_cons.mpr ⟨?_, ih b hpb⟩
      intro e he
      rcases List.mem_cons.mp he with he | he
      · rw [he]; exact hk
      · have hmem : e ∈ rest := stdUniqueAux_subset rest b e he
        have hbe : sortComp d b e = false := (List.pairwise_cons.mp hpb).1 e hmem
        exact fun h => key_ne_of_desc d a b e hab hbe (fun h2 => hk h2.symm) h.symm

theorem stdUnique_keys_nodup (d : Nat) (w : List (Key × V))
    (hp : w.Pairwise (fun x y => sortComp d x y = false)) :
    ((stdUnique uniqueComp w).map Prod.fst).Nodup := by
  cases w with
  | nil => simp [stdUnique]
  | cons a rest =>
    simp only [stdUnique]
    rw [List.Nodup, List.pairwise_map]
    exact stdUniqueAux_keys_nodup d rest a hp

/-- The vector after `stable_sort`, `unique` over the reversed range and `erase`: one
entry per key, carrying the value of the key's last occurrence. -/
theorem dedup_vector_spec (batch : List (Key × V)) :
    (((stdUnique uniqueComp (stableSort (sortComp 0) batch).reverse).reverse).map
        Prod.fst).Nodup ∧
      ∀ k v, (k, v) ∈ (stdUnique uniqueComp (stableSort (sortComp 0) batch).reverse).reverse ↔
        lastValue batch k = some v := by
  have hs := stableSort_sorted (sortComp 0) (sortComp_strictWeak 0) batch
  have hd : (stableSort (sortComp 0) batch).reverse.Pairwise
      (fun x y => sortComp 0 x y = false) := List.pairwise_reverse.mpr hs
  constructor
  · rw [List.map_reverse, List.nodup_reverse]
    exact stdUnique_keys_nodup 0 _ hd
  · intro k v
    rw [List.mem_reverse, stdUnique_mem 0 _ hd (k, v), ← lastValue_stableSort 0 k batch]
    have h := lastValue_reverse k (stableSort (sortComp 0) batch).reverse
    rw [List.reverse_reverse] at h
    rw [h]
    constructor
    · intro hf
      simp only at hf
      rw [hf]
      rfl
    · intro hf
      cases hfind : (stableSort (sortComp 0) batch).reverse.find? (fun e => decide (e.1 = k)) with
      | none => rw [hfind] at hf; simp at hf
      | some e =>
        rw [hfind] at hf
        have h1 := List.find?_some hfind
        have h2 : e.1 = k := by simpa using h1
        have h3 : e.2 = v := by simpa using hf
        rw [← h2, ← h3]

/-- C7: for every batch, and every `std::nth_element` that permutes its range, the bulk
constructor returns a tree whose entries carry pairwise distinct keys, are exactly the pairs
(key, value of the key's last occurrence in the batch), and whose `size()` is the number of
distinct keys of the batch and the number of its nodes; the empty batch gives the empty
tree. -/
theorem bulk_constructor_keeps_last_occurrence
    (nth : ((Key × V) → (Key × V) → Bool) → Nat → List (Key × V) → List (Key × V))
    (hperm : ∀ cmp n l, StrictWeakOrder cmp → n ≤ l.length → (nth cmp n l).Perm l)
    (K : Nat) (batch : List (Key × V)) :
    ∃ t root, Tree.ofVector nth K batch = some t ∧ t.root = .live root ∧
      (t.toList.map Prod.fst).Nodup ∧
      (∀ k v, (k, v) ∈ t.toList ↔ lastValue batch k = some v) ∧
      t.size = (batch.map Prod.fst).dedup.length ∧
      t.size = root.count ∧
      (batch = [] → t = Tree.empty) := by
  cases hb : batch with
  | nil =>
    refine ⟨Tree.empty, .nil, by simp [Tree.ofVector, Tree.empty], rfl, ?_, ?_, ?_, ?_, ?_⟩
    · simp [Tree.toList, Tree.empty, Node.toList]
    · intro k v
      simp [Tree.toList, Tree.empty, Node.toList, lastValue]
    · simp [Tree.size, Tree.empty]
    · simp [Tree.size, Tree.empty, Node.count]
    · intro _; rfl
  | cons b0 rest0 =>
    rw [← hb]
    have hne : batch ≠ [] := by rw [hb]; exact List.cons_ne_nil _ _
    obtain ⟨hnd, hmem⟩ := dedup_vector_spec batch
    generalize hv2 : (stdUnique uniqueComp (stableSort (sortComp 0) batch).reverse).reverse = v2
      at hnd hmem
    have hspan := vectorConstruct_span nth hperm K (v2.length + 1) v2 [] [] 0 (by omega)
    obtain ⟨root, S1, hvc, hS1, hroot⟩ := hspan
    simp only [List.length_nil, Nat.cast_zero, zero_add, List.nil_append, List.append_nil]
      at hvc
    have hof : Tree.ofVector nth K batch = some ⟨.live root, S1.length⟩ := by
      unfold Tree.ofVector
      have : batch.isEmpty = false := by
        cases batch with
        | nil => exact absurd rfl hne
        | cons _ _ => rfl
      rw [this]
      simp only [Bool.false_eq_true, if_false]
      rw [hv2, hvc]
    have hkeys : (root.toList.map Prod.fst).Perm (v2.map Prod.fst) := hroot.map _
    have hkmem : ∀ k, k ∈ root.toList.map Prod.fst ↔ k ∈ batch.map Prod.fst := by
      intro k
      constructor
      · intro h
        obtain ⟨e, he, hek⟩ := List.mem_map.mp h
        have he2 : (e.1, e.2) ∈ v2 := hroot.mem_iff.mp he
        have := (hmem e.1 e.2).mp he2
        rw [← hek]
        exact lastValue_mem_keys _ _ _ this
      · intro h
        have hsome := lastValue_isSome k batch none (Or.inr h)
        cases hl : lastValue batch k with
        | none =>
          unfold lastValue at hl
          rw [hl] at hsome
          simp at hsome
        | some v =>
          have := (hmem k v).mpr hl
          have h2 : (k, v) ∈ root.toList := hroot.mem_iff.mpr this
          exact List.mem_map.mpr ⟨(k, v), h2, rfl⟩
    have hnd2 : (root.toList.map Prod.fst).Nodup := hkeys.nodup_iff.mpr hnd
    have hcount : ∀ n : Node V, n.toList.length = n.count := by
      intro n
      induction n with
      | nil => rfl
      | node k v l r ihl ihr => simp [Node.toList, Node.count, ihl, ihr]; omega
    refine ⟨⟨.live root, S1.length⟩, root, hof, rfl, hnd2, ?_, ?_, ?_, ?_⟩
    · intro k v
      simp only [Tree.toList]
      rw [hroot.mem_iff]
      exact hmem k v
    · have hp : (root.toList.map Prod.fst).Perm (batch.map Prod.fst).dedup := by
        rw [List.perm_ext_iff_of_nodup hnd2 (List.nodup_dedup _)]
        intro k
        rw [hkmem k, List.mem_dedup]
      have := hp.length_eq
      simp only [List.length_map] at this
      simp only [Tree.size]
      rw [hS1.length_eq, ← hroot.length_eq]
      exact this
    · simp only [Tree.size]
      rw [hS1.length_eq, ← hroot.length_eq]
      exact hcount root
    · intro h; exact absurd h hne

/-- C7 on the batch (1,1)->a, (2,2)->b, (1,1)->c with the reference `nth_element`: the tree
holds (1,1)->c and (2,2)->b and has size 2. -/
theorem bulk_constructor_keeps_last_occurrence_witness :
    Tree.ofVector nthBySort 2 [([1, 1], "a"), ([2, 2], "b"), ([1, 1], "c")] =
        some ⟨.live (.node [1, 1] "c" .nil (.node [2, 2] "b" .nil .nil)), 2⟩ ∧
      ∃ t root, Tree.ofVector nthBySort 2 [([1, 1], "a"), ([2, 2], "b"), ([1, 1], "c")] = some t ∧
        t.root = .live root ∧
        (t.toList.map Prod.fst).Nodup ∧
        (∀ k v, (k, v) ∈ t.toList ↔
          lastValue [([1, 1], "a"), ([2, 2], "b"), ([1, 1], "c")] k = some v) ∧
        t.size = ([([1, 1], "a"), ([2, 2], "b"), ([1, 1], "c")].map Prod.fst).dedup.length ∧
        t.size = root.count ∧
        ([(([1, 1] : Key), "a"), ([2, 2], "b"), ([1, 1], "c")] = [] → t = Tree.empty) :=
  ⟨by decide, bulk_constructor_keeps_last_occurrence nthBySort nthBySort_spec.perm 2
    [([1, 1], "a"), ([2, 2], "b"), ([1, 1], "c")]⟩

/-! ## Bulk construction: two defects -/

theorem nth_nil {α : Type} (nth : (α → α → Bool) → Nat → List α → List α)
    (h : NthElementSpec nth) (cmp : α → α → Bool) (hc : StrictWeakOrder cmp) :
    nth cmp 0 [] = [] :=
  List.Perm.eq_nil (h.perm cmp 0 [] hc (Nat.le_refl _))

theorem nth_single {α : Type} (nth : (α → α → Bool) → Nat → List α → List α)
    (h : NthElementSpec nth) (cmp : α → α → Bool) (hc : StrictWeakOrder cmp) (a : α) :
    nth cmp 0 [a] = [a] :=
  List.perm_singleton.mp (h.perm cmp 0 [a] hc (Nat.zero_le _))

theorem nth_pair_sorted {α : Type} (nth : (α → α → Bool) → Nat → List α → List α)
    (h : NthElementSpec nth) (cmp : α → α → Bool) (hc : StrictWeakOrder cmp) (a b : α)
    (hab : cmp a b = true) : nth cmp 1 [a, b] = [a, b] := by
  have hp := h.perm cmp 1 [a, b] hc (by simp)
  have hq := h.partitioned cmp 1 [a, b] hc (by simp)
  generalize nth cmp 1 [a, b] = N at hp hq
  have hlen : N.length = 2 := hp.length_eq
  match N, hlen with
  | [x, y], _ =>
    have hx : x ∈ [a, b] := hp.mem_iff.mp (by simp)
    have hy : y ∈ [a, b] := hp.mem_iff.mp (by simp)
    have hne : a ≠ b := by
      intro e; rw [e, hc.irrefl] at hab; exact Bool.false_ne_true hab
    have hnd : [x, y].Nodup := hp.nodup_iff.mpr (by simp [hne])
    have hxy : x ≠ y := by
      intro e; simp [e] at hnd
    have hcmp : cmp y x = false := hq 0 1 x y (by omega) (by omega) rfl rfl
    simp only [List.mem_cons, List.mem_singleton, List.not_mem_nil, or_false] at hx hy
    rcases hx with hx | hx <;> rcases hy with hy | hy
    · exact absurd (hx.trans hy.symm) hxy
    · rw [hx, hy]
    · rw [hx, hy, hab] at hcmp; exact absurd hcmp (by simp)
    · exact absurd (hx.trans hy.symm) hxy

theorem vectorConstruct_empty
    (nth : ((Key × V) → (Key × V) → Bool) → Nat → List (Key × V) → List (Key × V))
    (K fuel dim : Nat) (left right : Int) (v : List (Key × V)) (h : left > right) :
    vectorConstruct nth K (fuel + 1) dim left right v = some (.nil, v) := by
  rw [vectorConstruct_succ, if_pos h]

/-- A span of one element becomes a leaf, whatever `nth_element` is used. -/
theorem vectorConstruct_leaf
    (nth : ((Key × V) → (Key × V) → Bool) → Nat → List (Key × V) → List (Key × V))
    (h : NthElementSpec nth) (K fuel dim : Nat) (A B : List (Key × V)) (d : Key × V) :
    vectorConstruct nth K (fuel + 2) dim (A.length : Int) (A.length : Int) (A ++ d :: B)
      = some (.node d.1 d.2 .nil .nil, A ++ d :: B) := by
  rw [vectorConstruct_succ, if_neg (by omega)]
  have hmid : ((A.length : Int) + (A.length : Int)).tdiv 2 = (A.length : Int) := by
    rw [Int.tdiv_eq_ediv (by omega) (by omega)]; omega
  rw [hmid]
  have hap : applyRange (A.length : Int).toNat (A.length : Int).toNat
      (nth (sortComp dim) ((A.length : Int) - (A.length : Int)).toNat) (A ++ d :: B)
      = A ++ d :: B := by
    simp only [Int.toNat_ofNat, sub_self, Int.toNat_zero]
    unfold applyRange
    simp [nth_nil nth h (sortComp dim) (sortComp_strictWeak dim)]
  rw [hap]
  have hget : (A ++ d :: B)[(A.length : Int).toNat]? = some d := by
    rw [Int.toNat_ofNat, List.getElem?_append_right (Nat.le_refl _)]
    simp
  rw [hget]
  simp only []
  rw [vectorConstruct_empty nth K fuel _ _ _ _ (by omega)]
  simp only []
  rw [vectorConstruct_empty nth K fuel _ _ _ _ (by omega)]

theorem bulk_three_ties
    (nth : ((Key × String) → (Key × String) → Bool) → Nat → List (Key × String) →
      List (Key × String))
    (h : NthElementSpec nth) :
    Tree.ofVector nth 2 [([1, 1], "x"), ([1, 2], "y"), ([1, 3], "z")] =
      some ⟨.live (.node [1, 2] "y" (.node [1, 1] "x" .nil .nil) (.node [1, 3] "z" .nil .nil)),
        3⟩ := by
  unfold Tree.ofVector
  have hv2 : (stdUnique uniqueComp (stableSort (sortComp 0)
      [(([1, 1] : Key), "x"), ([1, 2], "y"), ([1, 3], "z")]).reverse).reverse
      = [([1, 1], "x"), ([1, 2], "y"), ([1, 3], "z")] := by decide
  simp only [List.isEmpty_cons, Bool.false_eq_true, if_false, hv2]
  have hspan : vectorConstruct nth 2 4 0 0 2
      [(([1, 1] : Key), "x"), ([1, 2], "y"), ([1, 3], "z")]
      = some (.node [1, 2] "y" (.node [1, 1] "x" .nil .nil) (.node [1, 3] "z" .nil .nil),
          [([1, 1], "x"), ([1, 2], "y"), ([1, 3], "z")]) := by
    rw [vectorConstruct_succ, if_neg (by decide)]
    have hmid : ((0 : Int) + 2).tdiv 2 = 1 := by decide
    rw [hmid]
    have hap : applyRange (0 : Int).toNat (2 : Int).toNat
        (nth (sortComp 0) ((1 : Int) - 0).toNat)
        [(([1, 1] : Key), "x"), ([1, 2], "y"), ([1, 3], "z")]
        = [([1, 1], "x"), ([1, 2], "y"), ([1, 3], "z")] := by
      have h1 : applyRange (0 : Int).toNat (2 : Int).toNat
          (nth (sortComp 0) ((1 : Int) - 0).toNat)
          [(([1, 1] : Key), "x"), ([1, 2], "y"), ([1, 3], "z")]
          = nth (sortComp 0) 1 [([1, 1], "x"), ([1, 2], "y")] ++ [([1, 3], "z")] := rfl
      rw [h1, nth_pair_sorted nth h (sortComp 0) (sortComp_strictWeak 0) _ _ (by decide)]
      rfl
    rw [hap]
    have hget : [(([1, 1] : Key), "x"), ([1, 2], "y"), ([1, 3], "z")][(1 : Int).toNat]?
        = some ([1, 2], "y") := rfl
    rw [hget]
    simp only []
    have hl := vectorConstruct_leaf nth h 2 1 (dimNext 2 0) [] [([1, 2], "y"), ([1, 3], "z")]
      ([1, 1], "x")
    have hr := vectorConstruct_leaf nth h 2 1 (dimNext 2 0) [([1, 1], "x"), ([1, 2], "y")] []
      ([1, 3], "z")
    simp only [List.length_nil, Nat.cast_zero, List.nil_append] at hl
    simp only [List.length_cons, List.length_nil, List.cons_append, List.nil_append] at hr
    have e1 : ((1 : Int) - 1) = 0 := by decide
    have e2 : ((1 : Int) + 1) = 2 := by decide
    rw [e1, e2, hl]
    simp only []
    have e3 : (((0 + 1 + 1 : Nat) : Int)) = 2 := by decide
    rw [e3] at hr
    rw [hr]
  have e4 : (([(([1, 1] : Key), "x"), ([1, 2], "y"), ([1, 3], "z")].length : Int) - 1) = 2 := by
    decide
  have e5 : [(([1, 1] : Key), "x"), ([1, 2], "y"), ([1, 3], "z")].length + 1 = 4 := by decide
  rw [e4, e5, hspan]
  rfl

theorem nth_triple_sorted {α : Type} (nth : (α → α → Bool) → Nat → List α → List α)
    (h : NthElementSpec nth) (cmp : α → α → Bool) (hc : StrictWeakOrder cmp) (a b c : α)
    (hab : cmp a b = true) (hbc : cmp b c = true) : nth cmp 1 [a, b, c] = [a, b, c] := by
  have hac : cmp a c = true := hc.trans a b c hab hbc
  have hp := h.perm cmp 1 [a, b, c] hc (by simp)
  have hq := h.partitioned cmp 1 [a, b, c] hc (by simp)
  generalize nth cmp 1 [a, b, c] = N at hp hq
  have hlen : N.length = 3 := hp.length_eq
  match N, hlen with
  | [x, y, z], _ =>
    have hx : x ∈ [a, b, c] := hp.mem_iff.mp (by simp)
    have hy : y ∈ [a, b, c] := hp.mem_iff.mp (by simp)
    have hz : z ∈ [a, b, c] := hp.mem_iff.mp (by simp)
    have hne1 : a ≠ b := by
      intro e; rw [e, hc.irrefl] at hab; exact Bool.false_ne_true hab
    have hne2 : b ≠ c := by
      intro e; rw [e, hc.irrefl] at hbc; exact Bool.false_ne_true hbc
    have hne3 : a ≠ c := by
      intro e; rw [e, hc.irrefl] at hac; exact Bool.false_ne_true hac
    have hnd : [x, y, z].Nodup := hp.nodup_iff.mpr (by simp [hne1, hne2, hne3])
    have hxy : cmp y x = false := hq 0 1 x y (by omega) (by omega) rfl rfl
    have hxz : cmp z x = false := hq 0 2 x z (by omega) (by omega) rfl rfl
    have hyz : cmp z y = false := hq 1 2 y z (by omega) (by omega) rfl rfl
    simp only [List.mem_cons, List.mem_singleton, List.not_mem_nil, or_false] at hx hy hz
    simp only [List.nodup_cons, List.mem_cons, List.mem_singleton, List.not_mem_nil,
      or_false, not_or, List.nodup_nil, and_true, not_false_eq_true] at hnd
    obtain ⟨⟨hn1, hn2⟩, hn3⟩ := hnd
    rcases hx with hx | hx | hx <;> rcases hy with hy | hy | hy <;>
      rcases hz with hz | hz | hz <;> subst hx <;> subst hy <;> subst hz <;>
      first
      | rfl
      | exact absurd rfl hn1
      | exact absurd rfl hn2
      | exact absurd rfl hn3
      | (rw [hab] at hxy; exact absurd hxy (by simp))
      | (rw [hbc] at hyz; exact absurd hyz (by simp))
      | (rw [hac] at hxz; exact absurd hxz (by simp))
      | (rw [hac] at hyz; exact absurd hyz (by simp))
      | (rw [hac] at hxy; exact absurd hxy (by simp))

/-- A span of two elements: the first becomes the node, the second, which the call of
`nth_element` leaves out of its range, becomes the right child. -/
theorem vectorConstruct_pair
    (nth : ((Key × V) → (Key × V) → Bool) → Nat → List (Key × V) → List (Key × V))
    (h : NthElementSpec nth) (K fuel dim : Nat) (A B : List (Key × V)) (d1 d2 : Key × V) :
    vectorConstruct nth K (fuel + 3) dim (A.length : Int) ((A.length : Int) + 1)
        (A ++ d1 :: d2 :: B)
      = some (.node d1.1 d1.2 .nil (.node d2.1 d2.2 .nil .nil), A ++ d1 :: d2 :: B) := by
  rw [vectorConstruct_succ, if_neg (by omega)]
  have hmid : ((A.length : Int) + ((A.length : Int) + 1)).tdiv 2 = (A.length : Int) := by
    rw [Int.tdiv_eq_ediv (by omega) (by omega)]; omega
  rw [hmid]
  have hap : applyRange (A.length : Int).toNat ((A.length : Int) + 1).toNat
      (nth (sortComp dim) ((A.length : Int) - (A.length : Int)).toNat) (A ++ d1 :: d2 :: B)
      = A ++ d1 :: d2 :: B := by
    have e1 : ((A.length : Int) + 1).toNat = A.length + 1 := by omega
    simp only [Int.toNat_ofNat, sub_self, Int.toNat_zero, e1]
    have := applyRange_mid A [d1] B d2 (nth (sortComp dim) 0)
    simp only [List.length_singleton, List.singleton_append, List.append_assoc,
      List.cons_append, List.nil_append] at this
    rw [nth_single nth h (sortComp dim) (sortComp_strictWeak dim)] at this
    simpa using this
  rw [hap]
  have hget : (A ++ d1 :: d2 :: B)[(A.length : Int).toNat]? = some d1 := by
    rw [Int.toNat_ofNat, List.getElem?_append_right (Nat.le_refl _)]
    simp
  rw [hget]
  simp only []
  rw [vectorConstruct_empty nth K (fuel + 1) _ _ _ _ (by omega)]
  simp only []
  have hr := vectorConstruct_leaf nth h K fuel (dimNext K dim) (A ++ [d1]) B d2
  simp only [List.length_append, List.length_singleton, List.append_assoc,
    List.singleton_append, Nat.cast_add, Nat.cast_one] at hr
  rw [hr]

theorem bulk_four_distinct
    (nth : ((Key × String) → (Key × String) → Bool) → Nat → List (Key × String) →
      List (Key × String))
    (h : NthElementSpec nth) :
    Tree.ofVector nth 2 [([1, 1], "w"), ([2, 2], "x"), ([3, 4], "y"), ([4, 3], "z")] =
      some ⟨.live (.node [2, 2] "x" (.node [1, 1] "w" .nil .nil)
        (.node [3, 4] "y" .nil (.node [4, 3] "z" .nil .nil))), 4⟩ := by
  unfold Tree.ofVector
  have hv2 : (stdUnique uniqueComp (stableSort (sortComp 0)
      [(([1, 1] : Key), "w"), ([2, 2], "x"), ([3, 4], "y"), ([4, 3], "z")]).reverse).reverse
      = [([1, 1], "w"), ([2, 2], "x"), ([3, 4], "y"), ([4, 3], "z")] := by decide
  simp only [List.isEmpty_cons, Bool.false_eq_true, if_false, hv2]
  have hspan : vectorConstruct nth 2 5 0 0 3
      [(([1, 1] : Key), "w"), ([2, 2], "x"), ([3, 4], "y"), ([4, 3], "z")]
      = some (.node [2, 2] "x" (.node [1, 1] "w" .nil .nil)
          (.node [3, 4] "y" .nil (.node [4, 3] "z" .nil .nil)),
          [([1, 1], "w"), ([2, 2], "x"), ([3, 4], "y"), ([4, 3], "z")]) := by
    rw [vectorConstruct_succ, if_neg (by decide)]
    have hmid : ((0 : Int) + 3).tdiv 2 = 1 := by decide
    rw [hmid]
    have hap : applyRange (0 : Int).toNat (3 : Int).toNat
        (nth (sortComp 0) ((1 : Int) - 0).toNat)
        [(([1, 1] : Key), "w"), ([2, 2], "x"), ([3, 4], "y"), ([4, 3], "z")]
        = [([1, 1], "w"), ([2, 2], "x"), ([3, 4], "y"), ([4, 3], "z")] := by
      have h1 : applyRange (0 : Int).toNat (3 : Int).toNat
          (nth (sortComp 0) ((1 : Int) - 0).toNat)
          [(([1, 1] : Key), "w"), ([2, 2], "x"), ([3, 4], "y"), ([4, 3], "z")]
          = nth (sortComp 0) 1 [([1, 1], "w"), ([2, 2], "x"), ([3, 4], "y")]
              ++ [([4, 3], "z")] := rfl
      rw [h1, nth_triple_sorted nth h (sortComp 0) (sortComp_strictWeak 0) _ _ _
        (by decide) (by decide)]
      rfl
    rw [hap]
    have hget : [(([1, 1] : Key), "w"), ([2, 2], "x"), ([3, 4], "y"), ([4, 3], "z")][(1 : Int).toNat]?
        = some ([2, 2], "x") := rfl
    rw [hget]
    simp only []
    have hl := vectorConstruct_leaf nth h 2 2 (dimNext 2 0) []
      [([2, 2], "x"), ([3, 4], "y"), ([4, 3], "z")] ([1, 1], "w")
    have hr := vectorConstruct_pair nth h 2 1 (dimNext 2 0) [([1, 1], "w"), ([2, 2], "x")] []
      ([3, 4], "y") ([4, 3], "z")
    simp only [List.length_nil, Nat.cast_zero, List.nil_append] at hl
    simp only [List.length_cons, List.length_nil, List.cons_append, List.nil_append] at hr
    have e1 : ((1 : Int) - 1) = 0 := by decide
    have e2 : ((1 : Int) + 1) = 2 := by decide
    rw [e1, e2, hl]
    simp only []
    have e3 : (((0 + 1 + 1 : Nat) : Int)) = 2 := by decide
    have e4 : ((2 : Int) + 1) = 3 := by decide
    rw [e3, e4] at hr
    rw [hr]
  have e5 : (([(([1, 1] : Key), "w"), ([2, 2], "x"), ([3, 4], "y"), ([4, 3], "z")].length : Int)
      - 1) = 3 := by decide
  have e6 : [(([1, 1] : Key), "w"), ([2, 2], "x"), ([3, 4], "y"), ([4, 3], "z")].length + 1
      = 5 := by decide
  rw [e5, e6, hspan]
  rfl

/-- C6: for every `std::nth_element` that meets its contract, the bulk constructor returns
a tree that violates the partition invariant (a) on the batch (1,1), (1,2), (1,3), where
the median (1,2) becomes the root and (1,1), equal to it on dimension 0, is placed in its
left subtree, and (b) on the batch (1,1), (2,2), (3,4), (4,3), which has no two equal
coordinates: the span (3,4), (4,3) is partitioned without its last element, so (4,3)
becomes the right child of (3,4) although it is smaller on dimension 1. -/
theorem bulk_constructor_breaks_partition
    (nth : ((Key × String) → (Key × String) → Bool) → Nat → List (Key × String) →
      List (Key × String))
    (h : NthElementSpec nth) :
    (Tree.ofVector nth 2 [([1, 1], "x"), ([1, 2], "y"), ([1, 3], "z")] =
        some ⟨.live (.node [1, 2] "y" (.node [1, 1] "x" .nil .nil) (.node [1, 3] "z" .nil .nil)), 3⟩ ∧
      Tree.partitionOK 2
        ⟨.live (.node [1, 2] "y" (.node [1, 1] "x" .nil .nil) (.node [1, 3] "z" .nil .nil)), 3⟩ = false) ∧
    (Tree.ofVector nth 2 [([1, 1], "w"), ([2, 2], "x"), ([3, 4], "y"), ([4, 3], "z")] =
        some ⟨.live (.node [2, 2] "x" (.node [1, 1] "w" .nil .nil)
          (.node [3, 4] "y" .nil (.node [4, 3] "z" .nil .nil))), 4⟩ ∧
      Tree.partitionOK 2
        ⟨.live (.node [2, 2] "x" (.node [1, 1] "w" .nil .nil)
          (.node [3, 4] "y" .nil (.node [4, 3] "z" .nil .nil))), 4⟩ = false) := by
  rw [bulk_three_ties nth h, bulk_four_distinct nth h]
  exact ⟨⟨rfl, by decide⟩, ⟨rfl, by decide⟩⟩

/-- C6 with the reference `nth_element` (sorting the range). -/
theorem bulk_constructor_breaks_partition_witness :
    (Tree.ofVector nthBySort 2 [([1, 1], "x"), ([1, 2], "y"), ([1, 3], "z")] =
        some ⟨.live (.node [1, 2] "y" (.node [1, 1] "x" .nil .nil) (.node [1, 3] "z" .nil .nil)), 3⟩ ∧
      Tree.partitionOK 2
        ⟨.live (.node [1, 2] "y" (.node [1, 1] "x" .nil .nil) (.node [1, 3] "z" .nil .nil)), 3⟩ = false) ∧
    (Tree.ofVector nthBySort 2 [([1, 1], "w"), ([2, 2], "x"), ([3, 4], "y"), ([4, 3], "z")] =
        some ⟨.live (.node [2, 2] "x" (.node [1, 1] "w" .nil .nil)
          (.node [3, 4] "y" .nil (.node [4, 3] "z" .nil .nil))), 4⟩ ∧
      Tree.partitionOK 2
        ⟨.live (.node [2, 2] "x" (.node [1, 1] "w" .nil .nil)
          (.node [3, 4] "y" .nil (.node [4, 3] "z" .nil .nil))), 4⟩ = false) :=
  bulk_constructor_breaks_partition nthBySort nthBySort_spec

/-- C8: for every `std::nth_element` that meets its contract, `find` on the bulk-built
tree returns `end()` for a key of the batch: (1,1) in the batch (1,1), (1,2), (1,3), which
lies in the left subtree of the root (1,2) while `find` goes right on equal coordinates,
and (4,3) in the batch (1,1), (2,2), (3,4), (4,3), which lies in the right subtree of (3,4)
while `find` goes left for the smaller coordinate on dimension 1. -/
theorem bulk_constructor_loses_key
    (nth : ((Key × String) → (Key × String) → Bool) → Nat → List (Key × String) →
      List (Key × String))
    (h : NthElementSpec nth) :
    (Tree.ofVector nth 2 [([1, 1], "x"), ([1, 2], "y"), ([1, 3], "z")] =
        some ⟨.live (.node [1, 2] "y" (.node [1, 1] "x" .nil .nil) (.node [1, 3] "z" .nil .nil)), 3⟩ ∧
      Tree.find 2
        ⟨.live (.node [1, 2] "y" (.node [1, 1] "x" .nil .nil) (.node [1, 3] "z" .nil .nil)), 3⟩ [1, 1]
        = some Iter.null) ∧
    (Tree.ofVector nth 2 [([1, 1], "w"), ([2, 2], "x"), ([3, 4], "y"), ([4, 3], "z")] =
        some ⟨.live (.node [2, 2] "x" (.node [1, 1] "w" .nil .nil)
          (.node [3, 4] "y" .nil (.node [4, 3] "z" .nil .nil))), 4⟩ ∧
      Tree.find 2
        ⟨.live (.node [2, 2] "x" (.node [1, 1] "w" .nil .nil)
          (.node [3, 4] "y" .nil (.node [4, 3] "z" .nil .nil))), 4⟩ [4, 3]
        = some Iter.null) := by
  rw [bulk_three_ties nth h, bulk_four_distinct nth h]
  exact ⟨⟨rfl, by decide⟩, ⟨rfl, by decide⟩⟩

/-- C8 with the reference `nth_element` (sorting the range). -/
theorem bulk_constructor_loses_key_witness :
    (Tree.ofVector nthBySort 2 [([1, 1], "x"), ([1, 2], "y"), ([1, 3], "z")] =
        some ⟨.live (.node [1, 2] "y" (.node [1, 1] "x" .nil .nil) (.node [1, 3] "z" .nil .nil)), 3⟩ ∧
      Tree.find 2
        ⟨.live (.node [1, 2] "y" (.node [1, 1] "x" .nil .nil) (.node [1, 3] "z" .nil .nil)), 3⟩ [1, 1]
        = some Iter.null) ∧
    (Tree.ofVector nthBySort 2 [([1, 1], "w"), ([2, 2], "x"), ([3, 4], "y"), ([4, 3], "z")] =
        some ⟨.live (.node [2, 2] "x" (.node [1, 1] "w" .nil .nil)
          (.node [3, 4] "y" .nil (.node [4, 3] "z" .nil .nil))), 4⟩ ∧
      Tree.find 2
        ⟨.live (.node [2, 2] "x" (.node [1, 1] "w" .nil .nil)
          (.node [3, 4] "y" .nil (.node [4, 3] "z" .nil .nil))), 4⟩ [4, 3]
        = some Iter.null) :=
  bulk_constructor_loses_key nthBySort nthBySort_spec

/-! ## Iteration -/

theorem subtreeAt_nil (p : Path) : subtreeAt (Node.nil : Node V) p = .nil := by
  cases p <;> rfl

@[simp] theorem subtreeAt_root (n : Node V) : subtreeAt n [] = n := by
  cases n <;> rfl

@[simp] theorem subtreeAt_L (k : Key) (v : V) (l r : Node V) (p : Path) :
    subtreeAt (.node k v l r) (Dir.L :: p) = subtreeAt l p := rfl

@[simp] theorem subtreeAt_R (k : Key) (v : V) (l r : Node V) (p : Path) :
    subtreeAt (.node k v l r) (Dir.R :: p) = subtreeAt r p := rfl

theorem subtreeAt_append (p : Path) : ∀ (n : Node V) (q : Path),
    subtreeAt n (p ++ q) = subtreeAt (subtreeAt n p) q := by
  induction p with
  | nil => intro n q; simp
  | cons d p ih =>
    intro n q
    cases n with
    | nil => simp [subtreeAt, subtreeAt_nil]
    | node k v l r =>
      cases d with
      | L => simpa [subtreeAt] using ih l q
      | R => simpa [subtreeAt] using ih r q

theorem exitUp_snoc_L (p : Path) : exitUp (p ++ [Dir.L]) = .ptr p := by
  simp [exitUp, climbUp]

theorem exitUp_snoc_R (p : Path) : exitUp (p ++ [Dir.R]) = exitUp p := by
  simp [exitUp, climbUp]

theorem forward_null (root : Node V) (fuel : Nat) : forward root fuel .null = [] := by
  cases fuel <;> rfl

theorem increment_no_right (root : Node V) (p : Path) (k : Key) (v : V) (l : Node V)
    (h : subtreeAt root p = .node k v l .nil) : increment root (.ptr p) = some (exitUp p) := by
  simp only [increment, h, exitUp]
  cases climbUp p.reverse <;> rfl

theorem increment_right (root : Node V) (p : Path) (k : Key) (v : V) (l : Node V)
    (rk : Key) (rv : V) (rl rr : Node V)
    (h : subtreeAt root p = .node k v l (.node rk rv rl rr)) :
    increment root (.ptr p) = some (.ptr (p ++ Dir.R :: descendLeft (.node rk rv rl rr))) := by
  simp only [increment, h]

/-- From the node at `p`: the node itself, then its right subtree, then the exit. -/
theorem forward_from_node (root : Node V) (p : Path) (k : Key) (v : V) (l r : Node V)
    (h : subtreeAt root p = .node k v l r)
    (ihr : r ≠ .nil → ∀ fuel, forward root (r.count + fuel) (.ptr ((p ++ [Dir.R]) ++ descendLeft r))
      = (inorderPaths r).map (fun q => (p ++ [Dir.R]) ++ q) ++ forward root fuel (exitUp (p ++ [Dir.R])))
    (fuel : Nat) :
    forward root (1 + r.count + fuel) (.ptr p) =
      p :: ((inorderPaths r).map (fun q => p ++ Dir.R :: q) ++ forward root fuel (exitUp p)) := by
  have h1 : 1 + r.count + fuel = (r.count + fuel) + 1 := by omega
  rw [h1]
  cases r with
  | nil =>
    simp only [forward, increment_no_right root p k v l h, Node.count, inorderPaths,
      List.map_nil, List.nil_append, Nat.zero_add]
  | node rk rv rl rr =>
    simp only [forward, increment_right root p k v l rk rv rl rr h]
    have := ihr (by simp) fuel
    simp only [List.append_assoc, List.singleton_append] at this
    rw [this, exitUp_snoc_R]

theorem forward_segment (root : Node V) (s : Node V) :
    ∀ (p : Path) (fuel : Nat), subtreeAt root p = s → s ≠ .nil →
      forward root (s.count + fuel) (.ptr (p ++ descendLeft s)) =
        (inorderPaths s).map (fun q => p ++ q) ++ forward root fuel (exitUp p) := by
  induction s with
  | nil => intro p fuel _ h; exact absurd rfl h
  | node k v l r ihl ihr =>
    intro p fuel hp _
    have hr : subtreeAt root (p ++ [Dir.R]) = r := by
      rw [subtreeAt_append, hp]; simp
    have hl : subtreeAt root (p ++ [Dir.L]) = l := by
      rw [subtreeAt_append, hp]; simp
    have hnode := forward_from_node root p k v l r hp
      (fun hne fuel => ihr (p ++ [Dir.R]) fuel hr hne) fuel
    cases l with
    | nil =>
      simp only [descendLeft, List.append_nil, Node.count, Nat.zero_add, inorderPaths,
        List.map_nil, List.nil_append, List.map_cons, List.map_map]
      rw [hnode]
      rfl
    | node lk lv ll lr =>
      have hcount : (Node.node k v (.node lk lv ll lr) r).count + fuel
          = (Node.node lk lv ll lr).count + (1 + r.count + fuel) := by
        simp only [Node.count]; omega
      have hstart : p ++ descendLeft (Node.node k v (.node lk lv ll lr) r)
          = (p ++ [Dir.L]) ++ descendLeft (Node.node lk lv ll lr) := by
        simp [descendLeft]
      rw [hcount, hstart, ihl (p ++ [Dir.L]) _ hl (by simp), exitUp_snoc_L, hnode]
      simp [inorderPaths, List.map_map, Function.comp_def]

theorem forward_from_begin (root : Node V) (hne : root ≠ .nil) (fuel : Nat) :
    forward root (root.count + fuel) (.ptr (descendLeft root)) = inorderPaths root := by
  have := forward_segment root root [] fuel (subtreeAt_root root) hne
  simp only [List.nil_append, List.map_id'] at this
  rw [this]
  simp [exitUp, climbUp, forward_null]

theorem inorderPaths_data (n : Node V) :
    (inorderPaths n).map (dataAt n) = n.toList.map some := by
  induction n with
  | nil => rfl
  | node k v l r ihl ihr =>
    simp only [inorderPaths, Node.toList, List.map_append, List.map_cons, List.map_map]
    have h1 : (dataAt (Node.node k v l r) ∘ fun q => Dir.L :: q) = dataAt l := by
      funext q; simp [dataAt, subtreeAt]
    have h2 : (dataAt (Node.node k v l r) ∘ fun q => Dir.R :: q) = dataAt r := by
      funext q; simp [dataAt, subtreeAt]
    rw [h1, h2, ihl, ihr]
    simp [dataAt, subtreeAt]

theorem inorderPaths_length (n : Node V) : (inorderPaths n).length = n.count := by
  induction n with
  | nil => rfl
  | node k v l r ihl ihr => simp [inorderPaths, Node.count, ihl, ihr]; omega

theorem insert_count (K : Nat) (key : Key) (value : V) (n : Node V) :
    ∀ (dim sz : Nat),
      (insert K dim key value n sz).2.2 + n.count = sz + (insert K dim key value n sz).2.1.count := by
  induction n with
  | nil => intro dim sz; simp [insert, Node.count]
  | node k v l r ihl ihr =>
    intro dim sz
    unfold insert
    by_cases hk : key = k
    · simp [hk, Node.count]
    · by_cases hc : coord dim k ≤ coord dim key
      · simp only [hk, hc, if_false, if_true, Node.count]
        have := ihr (dimNext K dim) sz
        omega
      · simp only [hk, hc, if_false, Node.count]
        have := ihl (dimNext K dim) sz
        omega

theorem insert_keys_nodup (K : Nat) (key : Key) (value : V) (n : Node V) :
    ∀ (dim sz : Nat), partitionOK K dim n = true → n.keys.Nodup →
      (insert K dim key value n sz).2.1.keys.Nodup := by
  induction n with
  | nil => intro dim sz _ _; simp [insert, Node.keys, Node.toList]
  | node k v l r ihl ihr =>
    intro dim sz hp hnd
    rw [partitionOK_node] at hp
    obtain ⟨hp1, hp2, hp3, hp4⟩ := hp
    rw [Node.keys_node, List.nodup_append] at hnd
    obtain ⟨hl, hkr, hdis⟩ := hnd
    rw [List.nodup_cons] at hkr
    unfold insert
    by_cases hk : key = k
    · simp only [hk, if_true]
      rw [Node.keys_node, List.nodup_append]
      exact ⟨hl, List.nodup_cons.mpr hkr, hdis⟩
    · by_cases hc : coord dim k ≤ coord dim key
      · simp only [hk, hc, if_false, if_true]
        rw [Node.keys_node, List.nodup_append]
        refine ⟨hl, List.nodup_cons.mpr ⟨?_, ihr _ _ hp4 hkr.2⟩, ?_⟩
        · intro hmem
          rw [insert_keys] at hmem
          rcases hmem with hmem | hmem
          · exact hk hmem.symm
          · exact hkr.1 hmem
        · intro a ha1 ha2
          rcases List.mem_cons.mp ha2 with ha2 | ha2
          · exact hdis ha1 (by rw [ha2]; exact List.mem_cons_self _ _)
          · rw [insert_keys] at ha2
            rcases ha2 with ha2 | ha2
            · have := hp1 a ha1
              rw [ha2] at this
              omega
            · exact hdis ha1 (List.mem_cons_of_mem _ ha2)
      · simp only [hk, hc, if_false]
        rw [Node.keys_node, List.nodup_append]
        refine ⟨ihl _ _ hp3 hl, List.nodup_cons.mpr hkr, ?_⟩
        intro a ha1 ha2
        rw [insert_keys] at ha1
        rcases ha1 with ha1 | ha1
        · rcases List.mem_cons.mp ha2 with ha2 | ha2
          · exact hk (ha1.symm.trans ha2)
          · have := hp2 a ha2
            rw [ha1] at this
            omega
        · exact hdis ha1 ha2

theorem insertAll_wellformed (K : Nat) (ops : List (Key × V)) :
    ∀ (n : Node V) (sz : Nat), partitionOK K 0 n = true → n.keys.Nodup → sz = n.count →
      ∃ n1, Tree.insertAll K ⟨.live n, sz⟩ ops = some ⟨.live n1, n1.count⟩ ∧
        partitionOK K 0 n1 = true ∧ n1.keys.Nodup ∧
        ∀ a, a ∈ n1.keys ↔ a ∈ ops.map Prod.fst ∨ a ∈ n.keys := by
  induction ops with
  | nil => intro n sz h1 h2 h3; exact ⟨n, by rw [h3]; rfl, h1, h2, by simp⟩
  | cons kv rest ih =>
    intro n sz h1 h2 h3
    have hc := insert_count K kv.1 kv.2 n 0 sz
    obtain ⟨n1, h4, h5, h6, h7⟩ :=
      ih (insert K 0 kv.1 kv.2 n sz).2.1 (insert K 0 kv.1 kv.2 n sz).2.2
        (insert_partitionOK K kv.1 kv.2 n 0 sz h1)
        (insert_keys_nodup K kv.1 kv.2 n 0 sz h1 h2) (by omega)
    refine ⟨n1, ?_, h5, h6, ?_⟩
    · simpa [Tree.insertAll, Tree.insert] using h4
    · intro a
      rw [h7 a, insert_keys]
      simp only [List.map_cons, List.mem_cons]
      tauto

theorem keys_sorted_of_one_dimension (n : Node V) :
    partitionOK 1 0 n = true → (∀ a ∈ n.keys, a.length = 1) → n.keys.Nodup →
      n.keys.Pairwise (fun a b => keyLess a b = true) := by
  have hlt : ∀ a b : Key, a.length = 1 → b.length = 1 → coord 0 a < coord 0 b →
      keyLess a b = true := by
    intro a b ha hb h
    match a, b, ha, hb with
    | [x], [y], _, _ =>
      have : x < y := by simpa [coord] using h
      simp [keyLess, this]
  have hle : ∀ a b : Key, a.length = 1 → b.length = 1 → coord 0 a ≤ coord 0 b → a ≠ b →
      keyLess a b = true := by
    intro a b ha hb h hne
    match a, b, ha, hb with
    | [x], [y], _, _ =>
      have h1 : x ≤ y := by simpa [coord] using h
      have h2 : x ≠ y := fun e => hne (by rw [e])
      have : x < y := lt_of_le_of_ne h1 h2
      simp [keyLess, this]
  induction n with
  | nil => intro _ _ _; simp [Node.keys, Node.toList]
  | node k v l r ihl ihr =>
    intro hp hlen hnd
    rw [partitionOK_node] at hp
    obtain ⟨hp1, hp2, hp3, hp4⟩ := hp
    have hd : dimNext 1 0 = 0 := rfl
    rw [hd] at hp3 hp4
    rw [Node.keys_node] at hlen hnd ⊢
    rw [List.nodup_append] at hnd
    obtain ⟨hl, hkr, hdis⟩ := hnd
    rw [List.nodup_cons] at hkr
    have hlenl : ∀ a ∈ l.keys, a.length = 1 := fun a ha => hlen a (by simp [ha])
    have hlenr : ∀ a ∈ r.keys, a.length = 1 := fun a ha => hlen a (by simp [ha])
    have hlenk : k.length = 1 := hlen k (by simp)
    rw [List.pairwise_append]
    refine ⟨ihl hp3 hlenl hl, List.pairwise_cons.mpr ⟨?_, ihr hp4 hlenr hkr.2⟩, ?_⟩
    · intro b hb
      exact hle k b hlenk (hlenr b hb) (hp2 b hb) (fun e => hkr.1 (by rw [e]; exact hb))
    · intro a ha b hb
      rcases List.mem_cons.mp hb with hb | hb
      · rw [hb]; exact hlt a k (hlenl a ha) hlenk (hp1 a ha)
      · have h1 := hp1 a ha
        have h2 := hp2 b hb
        exact hlt a b (hlenl a ha) (hlenr b hb) (by omega)

theorem Tree.forward_live (n : Node V) (sz fuel : Nat) :
    Tree.forward ⟨.live n, sz⟩ (n.count + fuel) = some (inorderPaths n) := by
  cases n with
  | nil => simp [Tree.forward, Tree.begin, forward_null, inorderPaths]
  | node k v l r =>
    simp only [Tree.forward, Tree.begin]
    rw [forward_from_begin _ (by simp)]

theorem Tree.forwardKeys_live (n : Node V) (sz fuel : Nat) :
    Tree.forwardKeys ⟨.live n, sz⟩ (n.count + fuel) = some n.keys := by
  unfold Tree.forwardKeys
  rw [Tree.forward_live]
  simp only [Option.map_some', Tree.deref, Option.some.injEq]
  have h1 : (fun p => (dataAt n p).map Prod.fst) = (Option.map Prod.fst) ∘ (dataAt n) := rfl
  rw [h1, ← List.filterMap_map, inorderPaths_data, List.filterMap_map]
  have h2 : (Option.map Prod.fst ∘ some : Key × V → Option Key) = some ∘ Prod.fst := rfl
  rw [h2, List.filterMap_eq_map]
  rfl

/-- C9, as stated, fails: after inserting (1,5), (3,1), (2,3) into a 2-D tree, iterating
from `begin()` to `end()` reads the keys (1,5), (3,1), (2,3), and (3,1) is not smaller than
(2,3) in the lexicographic order. -/
theorem forward_iteration_not_lexicographic :
    Tree.insertAll 2 Tree.empty [([1, 5], "a"), ([3, 1], "b"), ([2, 3], "c")] =
        some ⟨.live (.node [1, 5] "a" .nil (.node [3, 1] "b" .nil (.node [2, 3] "c" .nil .nil))),
          3⟩ ∧
      Tree.forwardKeys
        ⟨.live (.node [1, 5] "a" .nil (.node [3, 1] "b" .nil (.node [2, 3] "c" .nil .nil))), 3⟩
        3 = some [[1, 5], [3, 1], [2, 3]] ∧
      ¬ List.Chain' (fun a b => keyLess a b = true) [[1, 5], [3, 1], [2, 3]] := by
  refine ⟨by decide, by decide, ?_⟩
  intro h
  have h1 : keyLess [3, 1] [2, 3] = true := by
    simp only [List.chain'_cons] at h
    exact h.2.1
  exact absurd h1 (by decide)

/-- C9, amended: on a tree built by inserts, iterating from `begin()` to `end()` reads the
keys of the tree in in-order (left subtree, node, right subtree); these are `size()` many,
pairwise distinct, and exactly the keys that were inserted.  When `K = 1` (keys are
1-tuples) they come in strictly increasing order. -/
theorem forward_iteration_visits_each_key_once (K : Nat) (ops : List (Key × V)) (fuel : Nat) :
    ∃ t, Tree.insertAll K Tree.empty ops = some t ∧
      t.forwardKeys (t.size + fuel) = some (t.toList.map Prod.fst) ∧
      (t.toList.map Prod.fst).length = t.size ∧
      (t.toList.map Prod.fst).Nodup ∧
      (∀ k, k ∈ t.toList.map Prod.fst ↔ k ∈ ops.map Prod.fst) ∧
      (K = 1 → (∀ kv ∈ ops, kv.1.length = 1) →
        (t.toList.map Prod.fst).Pairwise (fun a b => keyLess a b = true)) := by
  obtain ⟨n1, h1, h2, h3, h4⟩ := insertAll_wellformed K ops (Node.nil : Node V) 0 rfl
    (by simp [Node.keys, Node.toList]) rfl
  refine ⟨⟨.live n1, n1.count⟩, h1, ?_, ?_, h3, ?_, ?_⟩
  · exact Tree.forwardKeys_live n1 n1.count fuel
  · simp only [Tree.toList, Tree.size, List.length_map]
    rw [← inorderPaths_length n1]
    have := congrArg List.length (inorderPaths_data n1)
    simpa using this.symm
  · intro k
    have := h4 k
    simpa [Node.keys, Node.toList] using this
  · intro hK hlen
    subst hK
    apply keys_sorted_of_one_dimension n1 h2 _ h3
    intro a ha
    rcases (h4 a).mp ha with h | h
    · obtain ⟨kv, hkv, hkva⟩ := List.mem_map.mp h
      rw [← hkva]
      exact hlen kv hkv
    · simp [Node.keys, Node.toList] at h

theorem descendLeft_all_L (n : Node V) : ∀ d ∈ descendLeft n, d = Dir.L := by
  induction n with
  | nil => intro d h; simp [descendLeft] at h
  | node k v l r ihl _ =>
    intro d h
    cases l with
    | nil => simp [descendLeft] at h
    | node lk lv ll lr =>
      simp only [descendLeft, List.mem_cons] at h
      rcases h with h | h
      · exact h
      · exact ihl d h

theorem descendLeft_leftmost (n : Node V) (hne : n ≠ .nil) :
    ∃ k v r, subtreeAt n (descendLeft n) = .node k v .nil r := by
  induction n with
  | nil => exact absurd rfl hne
  | node k v l r ihl _ =>
    cases l with
    | nil => exact ⟨k, v, r, by simp [descendLeft]⟩
    | node lk lv ll lr =>
      obtain ⟨k1, v1, r1, h1⟩ := ihl (by simp)
      exact ⟨k1, v1, r1, by simpa [descendLeft] using h1⟩

theorem climbDown_skip (ls up : Path) (h : ∀ d ∈ ls, d = Dir.L) :
    climbDown (ls ++ Dir.R :: up) = some up := by
  induction ls with
  | nil => rfl
  | cons d ls ih =>
    have hd : d = Dir.L := h d (List.mem_cons_self _ _)
    subst hd
    simp only [List.cons_append, climbDown]
    exact ih (fun d hd => h d (List.mem_cons_of_mem _ hd))

theorem climbUp_some (s : Path) : ∀ up, climbUp s = some up →
    ∃ rs, (∀ d ∈ rs, d = Dir.R) ∧ s = rs ++ Dir.L :: up := by
  induction s with
  | nil => intro up h; simp [climbUp] at h
  | cons d s ih =>
    intro up h
    cases d with
    | L =>
      simp only [climbUp, Option.some.injEq] at h
      subst h
      exact ⟨[], by simp, rfl⟩
    | R =>
      simp only [climbUp] at h
      obtain ⟨rs, h1, h2⟩ := ih up h
      refine ⟨Dir.R :: rs, ?_, by rw [h2]; rfl⟩
      intro d hd
      rcases List.mem_cons.mp hd with hd | hd
      · exact hd
      · exact h1 d hd

theorem climbUp_none (s : Path) : climbUp s = none → ∀ d ∈ s, d = Dir.R := by
  induction s with
  | nil => intro _ d hd; simp at hd
  | cons d s ih =>
    intro h
    cases d with
    | L => simp [climbUp] at h
    | R =>
      simp only [climbUp] at h
      intro d hd
      rcases List.mem_cons.mp hd with hd | hd
      · exact hd
      · exact ih h d hd

theorem descendRight_unique (p : Path) : ∀ (n : Node V), (∀ d ∈ p, d = Dir.R) →
    (∃ k v l, subtreeAt n p = .node k v l .nil) → descendRight n = p := by
  induction p with
  | nil =>
    intro n _ h
    obtain ⟨k, v, l, h⟩ := h
    rw [subtreeAt_root] at h
    subst h
    rfl
  | cons d p ih =>
    intro n hall h
    have hd : d = Dir.R := hall d (List.mem_cons_self _ _)
    subst hd
    obtain ⟨k, v, l, h⟩ := h
    cases n with
    | nil => simp [subtreeAt] at h
    | node nk nv nl nr =>
      rw [subtreeAt_R] at h
      cases nr with
      | nil => rw [subtreeAt_nil] at h; cases h
      | node rk rv rl rr =>
        simp only [descendRight]
        rw [ih (.node rk rv rl rr) (fun d hd => hall d (List.mem_cons_of_mem _ hd)) ⟨k, v, l, h⟩]

theorem decrement_no_left (root : Node V) (p : Path) (k : Key) (v : V) (r : Node V)
    (h : subtreeAt root p = .node k v .nil r) :
    decrement root (.ptr p) =
      match climbDown p.reverse with
      | none => some (.ptr p)
      | some up => some (.ptr up.reverse) := by
  simp only [decrement, h]

theorem decrement_left (root : Node V) (p : Path) (k : Key) (v : V) (r : Node V)
    (lk : Key) (lv : V) (ll lr : Node V)
    (h : subtreeAt root p = .node k v (.node lk lv ll lr) r) :
    decrement root (.ptr p) = some (.ptr (p ++ Dir.L :: descendRight (.node lk lv ll lr))) := by
  simp only [decrement, h]

/-- At every node of the tree `decrement` undoes `increment`. -/
theorem decrement_increment (root : Node V) (p : Path) (k : Key) (v : V) (l r : Node V)
    (h : subtreeAt root p = .node k v l r) (it : Iter)
    (hinc : increment root (.ptr p) = some it) : decrement root it = some (.ptr p) := by
  cases r with
  | node rk rv rl rr =>
    rw [increment_right root p k v l rk rv rl rr h] at hinc
    cases hinc
    obtain ⟨k1, v1, r1, h1⟩ := descendLeft_leftmost (.node rk rv rl rr) (by simp)
    have hsub : subtreeAt root (p ++ Dir.R :: descendLeft (.node rk rv rl rr))
        = .node k1 v1 .nil r1 := by
      rw [subtreeAt_append, h, subtreeAt_R, h1]
    rw [decrement_no_left root _ k1 v1 r1 hsub]
    have hrev : (p ++ Dir.R :: descendLeft (.node rk rv rl rr)).reverse
        = (descendLeft (.node rk rv rl rr)).reverse ++ Dir.R :: p.reverse := by
      simp
    rw [hrev, climbDown_skip _ _ (fun d hd => descendLeft_all_L _ d (List.mem_reverse.mp hd))]
    simp
  | nil =>
    rw [increment_no_right root p k v l h] at hinc
    cases hinc
    unfold exitUp
    cases hc : climbUp p.reverse with
    | none =>
      simp only []
      have hall : ∀ d ∈ p, d = Dir.R := fun d hd =>
        climbUp_none _ hc d (List.mem_reverse.mpr hd)
      have hroot : root ≠ .nil := by
        intro e
        rw [e, subtreeAt_nil] at h
        cases h
      have hdr := descendRight_unique p root hall ⟨k, v, l, h⟩
      cases root with
      | nil => exact absurd rfl hroot
      | node a b c d =>
        simp only [decrement]
        rw [hdr]
    | some up =>
      simp only []
      obtain ⟨rs, hrs, hp⟩ := climbUp_some _ _ hc
      have hp2 : p = up.reverse ++ Dir.L :: rs.reverse := by
        have := congrArg List.reverse hp
        simpa using this
      have hsub : subtreeAt (subtreeAt root up.reverse) (Dir.L :: rs.reverse)
          = .node k v l .nil := by
        rw [← subtreeAt_append, ← hp2]; exact h
      cases hq : subtreeAt root up.reverse with
      | nil => rw [hq] at hsub; simp [subtreeAt] at hsub
      | node qk qv ql qr =>
        rw [hq, subtreeAt_L] at hsub
        cases ql with
        | nil => rw [subtreeAt_nil] at hsub; cases hsub
        | node lk lv ll lr =>
          rw [decrement_left root _ qk qv qr lk lv ll lr hq]
          rw [descendRight_unique rs.reverse (.node lk lv ll lr)
            (fun d hd => hrs d (List.mem_reverse.mp hd)) ⟨k, v, l, hsub⟩]
          rw [hp2]

theorem increment_some_valid (root : Node V) (p : Path) (it : Iter)
    (h : increment root (.ptr p) = some it) : ∃ k v l r, subtreeAt root p = .node k v l r := by
  cases hs : subtreeAt root p with
  | nil => simp [increment, hs] at h
  | node k v l r => exact ⟨k, v, l, r, rfl⟩

theorem forward_chain (root : Node V) : ∀ (fuel : Nat) (it : Iter),
    List.Chain' (fun a b => increment root (.ptr a) = some (.ptr b)) (forward root fuel it) := by
  intro fuel
  induction fuel with
  | zero => intro it; simp [forward]
  | succ fuel ih =>
    intro it
    cases it with
    | null => simp [forward]
    | ptr p =>
      simp only [forward]
      cases hinc : increment root (.ptr p) with
      | none => simp
      | some it1 =>
        simp only []
        rw [List.chain'_cons']
        refine ⟨?_, ih it1⟩
        intro y hy
        cases it1 with
        | null => rw [forward_null] at hy; simp at hy
        | ptr q =>
          cases fuel with
          | zero => simp [forward] at hy
          | succ f =>
            simp only [forward, List.head?_cons, Option.mem_def, Option.some.injEq] at hy
            rw [← hy]
            exact hinc

theorem backward_of_chain (root : Node V) (first : Path) (ps : List Path) :
    ∀ (q : Path) (fuel : Nat), (ps ++ [q]).head? = some first → (ps ++ [q]).Nodup →
      List.Chain' (fun a b => decrement root (.ptr b) = some (.ptr a)) (ps ++ [q]) →
      ps.length ≤ fuel → backward root (.ptr first) fuel (.ptr q) = ps.reverse := by
  induction ps using List.reverseRecOn with
  | nil =>
    intro q fuel hh _ _ _
    simp only [List.nil_append, List.head?_cons, Option.some.injEq] at hh
    subst hh
    cases fuel with
    | zero => rfl
    | succ f => simp [backward]
  | append_singleton ps a ih =>
    intro q fuel hh hnd hch hlen
    have hfirst_mem : first ∈ ps ++ [a] := by
      have : (ps ++ [a]).head? = some first := by
        cases ps with
        | nil => simpa using hh
        | cons x xs => simpa using hh
      exact List.mem_of_mem_head? this
    have hhead : (ps ++ [a]).head? = some first := by
      cases ps with
      | nil => simpa using hh
      | cons x xs => simpa using hh
    rw [List.nodup_append] at hnd
    obtain ⟨hnd1, _, hdis⟩ := hnd
    have hne : q ≠ first := by
      intro e
      exact hdis hfirst_mem (by rw [e]; simp)
    rw [List.chain'_append] at hch
    obtain ⟨hch1, _, hlast⟩ := hch
    have hdec : decrement root (.ptr q) = some (.ptr a) :=
      hlast a (by simp) q (by simp)
    simp only [List.length_append, List.length_singleton] at hlen
    cases fuel with
    | zero => omega
    | succ f =>
      have hne2 : (Iter.ptr q) ≠ Iter.ptr first := fun e => hne (Iter.ptr.inj e)
      simp only [backward, hne2, if_false, hdec]
      rw [ih a f hhead hnd1 hch1 (by omega)]
      simp

theorem inorderPaths_nodup (n : Node V) : (inorderPaths n).Nodup := by
  induction n with
  | nil => simp [inorderPaths]
  | node k v l r ihl ihr =>
    simp only [inorderPaths]
    rw [List.nodup_append]
    refine ⟨?_, ?_, ?_⟩
    · exact ihl.map (fun a b h => by simpa using h)
    · rw [List.nodup_cons]
      refine ⟨by simp, ?_⟩
      exact ihr.map (fun a b h => by simpa using h)
    · intro a h1 h2
      obtain ⟨q, _, hq⟩ := List.mem_map.mp h1
      rcases List.mem_cons.mp h2 with h2 | h2
      · rw [← hq] at h2; cases h2
      · obtain ⟨q2, _, hq2⟩ := List.mem_map.mp h2
        rw [← hq] at hq2
        cases hq2

theorem inorderPaths_head (n : Node V) (hne : n ≠ .nil) :
    (inorderPaths n).head? = some (descendLeft n) := by
  induction n with
  | nil => exact absurd rfl hne
  | node k v l r ihl _ =>
    cases l with
    | nil => simp [inorderPaths, descendLeft]
    | node lk lv ll lr =>
      have := ihl (by simp)
      have e : inorderPaths (Node.node k v (Node.node lk lv ll lr) r)
          = (inorderPaths (Node.node lk lv ll lr)).map (fun q => Dir.L :: q)
            ++ [] :: (inorderPaths r).map (fun q => Dir.R :: q) := rfl
      have e2 : descendLeft (Node.node k v (Node.node lk lv ll lr) r)
          = Dir.L :: descendLeft (Node.node lk lv ll lr) := rfl
      rw [e, e2]
      generalize inorderPaths (Node.node lk lv ll lr) = iol at this
      cases iol with
      | nil => simp at this
      | cons x xs =>
        simp only [List.head?_cons, Option.some.injEq] at this
        simp [this]

theorem inorderPaths_getLast (n : Node V) (hne : n ≠ .nil) :
    (inorderPaths n).getLast? = some (descendRight n) := by
  induction n with
  | nil => exact absurd rfl hne
  | node k v l r _ ihr =>
    cases r with
    | nil => simp [inorderPaths, descendRight]
    | node rk rv rl rr =>
      have := ihr (by simp)
      have e : inorderPaths (Node.node k v l (Node.node rk rv rl rr))
          = (inorderPaths l).map (fun q => Dir.L :: q)
            ++ [] :: (inorderPaths (Node.node rk rv rl rr)).map (fun q => Dir.R :: q) := rfl
      have e2 : descendRight (Node.node k v l (Node.node rk rv rl rr))
          = Dir.R :: descendRight (Node.node rk rv rl rr) := rfl
      rw [e, e2]
      generalize inorderPaths (Node.node rk rv rl rr) = ior at this
      cases ior with
      | nil => simp at this
      | cons x xs =>
        rw [List.getLast?_append_of_ne_nil _ (by simp), List.map_cons, List.getLast?_cons_cons,
          ← List.map_cons, List.getLast?_map, this]
        rfl

theorem increment_defined (root : Node V) (p : Path) (k : Key) (v : V) (l r : Node V)
    (h : subtreeAt root p = .node k v l r) : ∃ it, increment root (.ptr p) = some it := by
  cases r with
  | nil => exact ⟨_, increment_no_right root p k v l h⟩
  | node rk rv rl rr => exact ⟨_, increment_right root p k v l rk rv rl rr h⟩

theorem backward_from_end (root : Node V) (hne : root ≠ .nil) (fuel : Nat)
    (hfuel : root.count ≤ fuel) :
    backward root (.ptr (descendLeft root)) fuel .null = (inorderPaths root).reverse := by
  have hlast := inorderPaths_getLast root hne
  have hhead := inorderPaths_head root hne
  have hnd := inorderPaths_nodup root
  have hlen := inorderPaths_length root
  have hfw := forward_from_begin root hne 0
  have hch := forward_chain root (root.count + 0) (.ptr (descendLeft root))
  rw [hfw] at hch
  have hch2 : List.Chain' (fun a b => decrement root (.ptr b) = some (.ptr a))
      (inorderPaths root) := by
    refine List.Chain'.imp ?_ hch
    intro a b hab
    obtain ⟨k, v, l, r, hs⟩ := increment_some_valid root a _ hab
    exact decrement_increment root a k v l r hs _ hab
  have hdec : decrement root .null = some (.ptr (descendRight root)) := by
    cases root with
    | nil => exact absurd rfl hne
    | node k v l r => rfl
  obtain ⟨init, hinit⟩ : ∃ init, inorderPaths root = init ++ [descendRight root] := by
    rcases List.eq_nil_or_concat (inorderPaths root) with h | ⟨init, b, h⟩
    · rw [h] at hlast; simp at hlast
    · rw [List.concat_eq_append] at h
      rw [h] at hlast
      rw [List.getLast?_append_of_ne_nil _ (by simp), List.getLast?_singleton,
        Option.some.injEq] at hlast
      exact ⟨init, by rw [h, hlast]⟩
  rw [hinit] at hhead hnd hch2 hlen
  simp only [List.length_append, List.length_singleton] at hlen
  cases fuel with
  | zero => omega
  | succ f =>
    have hne2 : (Iter.null : Iter) ≠ Iter.ptr (descendLeft root) := by
      intro e; cases e
    simp only [backward, hne2, if_false, hdec]
    rw [backward_of_chain root (descendLeft root) init (descendRight root) f hhead hnd hch2
      (by omega), hinit]
    simp

/-- C10: on a non-empty tree, stepping back from `end()` until `begin()` is reached
visits the positions that iterating from `begin()` to `end()` visits, which are all the
nodes of the tree, in reverse order; `--end()` is the last position of the forward
sequence; and at every position of a node `++` is defined and `--` leads back from where
`++` leads. -/
theorem backward_iteration_reverses_forward (t : Tree V) (n : Node V)
    (hroot : t.root = .live n) (hne : n ≠ .nil) (fuel : Nat) (hfuel : n.count ≤ fuel) :
    ∃ ps, t.forward fuel = some ps ∧
      ps.map (fun p => t.deref (.ptr p)) = t.toList.map some ∧
      t.backward fuel = some ps.reverse ∧
      t.prev t.endIter = (ps.getLast?).map Iter.ptr ∧
      ∀ p, t.deref (.ptr p) ≠ none →
        ∃ it, t.next (.ptr p) = some it ∧ t.prev it = some (.ptr p) := by
  obtain ⟨root, sz⟩ := t
  simp only at hroot
  subst hroot
  obtain ⟨extra, hextra⟩ : ∃ extra, fuel = n.count + extra := ⟨fuel - n.count, by omega⟩
  refine ⟨inorderPaths n, ?_, ?_, ?_, ?_, ?_⟩
  · rw [hextra]; exact Tree.forward_live n sz extra
  · simp only [Tree.deref, Tree.toList]
    exact inorderPaths_data n
  · cases n with
    | nil => exact absurd rfl hne
    | node k v l r =>
      simp only [Tree.backward, Tree.begin]
      rw [backward_from_end _ (by simp) fuel hfuel]
  · simp only [Tree.prev, Tree.endIter]
    rw [inorderPaths_getLast n hne]
    cases n with
    | nil => exact absurd rfl hne
    | node k v l r => rfl
  · intro p hp
    simp only [Tree.deref, dataAt] at hp
    cases hs : subtreeAt n p with
    | nil => rw [hs] at hp; exact absurd rfl hp
    | node k v l r =>
      obtain ⟨it, hit⟩ := increment_defined n p k v l r hs
      exact ⟨it, by simpa [Tree.next] using hit,
        by simpa [Tree.prev] using decrement_increment n p k v l r hs it hit⟩

/-- C10 on the tree built by inserting (5,0), (3,1), (3,2), (7,1). -/
theorem backward_iteration_reverses_forward_witness :
    Tree.forward
        ⟨.live (.node [5, 0] "a" (.node [3, 1] "b" .nil (.node [3, 2] "c" .nil .nil))
          (.node [7, 1] "d" .nil .nil)), 4⟩ 4
        = some [[Dir.L], [Dir.L, Dir.R], [], [Dir.R]] ∧
      Tree.backward
        ⟨.live (.node [5, 0] "a" (.node [3, 1] "b" .nil (.node [3, 2] "c" .nil .nil))
          (.node [7, 1] "d" .nil .nil)), 4⟩ 4
        = some [[Dir.R], [], [Dir.L, Dir.R], [Dir.L]] ∧
      ∃ ps, Tree.forward
          ⟨.live (.node [5, 0] "a" (.node [3, 1] "b" .nil (.node [3, 2] "c" .nil .nil))
            (.node [7, 1] "d" .nil .nil)), 4⟩ 4 = some ps ∧
        ps.map (fun p => Tree.deref
          ⟨.live (.node [5, 0] "a" (.node [3, 1] "b" .nil (.node [3, 2] "c" .nil .nil))
            (.node [7, 1] "d" .nil .nil)), 4⟩ (.ptr p))
          = (Tree.toList
          ⟨.live (.node [5, 0] "a" (.node [3, 1] "b" .nil (.node [3, 2] "c" .nil .nil))
            (.node [7, 1] "d" .nil .nil)), 4⟩).map some ∧
        Tree.backward
          ⟨.live (.node [5, 0] "a" (.node [3, 1] "b" .nil (.node [3, 2] "c" .nil .nil))
            (.node [7, 1] "d" .nil .nil)), 4⟩ 4 = some ps.reverse ∧
        Tree.prev
          ⟨.live (.node [5, 0] "a" (.node [3, 1] "b" .nil (.node [3, 2] "c" .nil .nil))
            (.node [7, 1] "d" .nil .nil)), 4⟩
          (Tree.endIter
          ⟨.live (.node [5, 0] "a" (.node [3, 1] "b" .nil (.node [3, 2] "c" .nil .nil))
            (.node [7, 1] "d" .nil .nil)), 4⟩) = (ps.getLast?).map Iter.ptr ∧
        ∀ p, Tree.deref
          ⟨.live (.node [5, 0] "a" (.node [3, 1] "b" .nil (.node [3, 2] "c" .nil .nil))
            (.node [7, 1] "d" .nil .nil)), 4⟩ (.ptr p) ≠ none →
          ∃ it, Tree.next
            ⟨.live (.node [5, 0] "a" (.node [3, 1] "b" .nil (.node [3, 2] "c" .nil .nil))
              (.node [7, 1] "d" .nil .nil)), 4⟩ (.ptr p) = some it ∧
            Tree.prev
            ⟨.live (.node [5, 0] "a" (.node [3, 1] "b" .nil (.node [3, 2] "c" .nil .nil))
              (.node [7, 1] "d" .nil .nil)), 4⟩ it = some (.ptr p) :=
  ⟨by decide, by decide,
    backward_iteration_reverses_forward
      ⟨.live (.node [5, 0] "a" (.node [3, 1] "b" .nil (.node [3, 2] "c" .nil .nil))
        (.node [7, 1] "d" .nil .nil)), 4⟩ _ rfl (by simp) 4 (by decide)⟩

theorem erase_node_eq (K dim : Nat) (k : Key) (v : V) (l r : Node V) (key : Key) (sz : Nat) :
    erase K dim (.node k v l r) key sz =
      if key = k then
        match l, r with
        | .nil, .nil => (.nil, sz - 1)
        | l, .node rk rv rl rr =>
          match findMin K dim (dimNext K dim) (.node rk rv rl rr) with
          | none => (.node k v l (.node rk rv rl rr), sz)
          | some m =>
            let res := erase K (dimNext K dim) (.node rk rv rl rr) m.key sz
            (.node m.key m.value l res.1, res.2)
        | .node lk lv ll lr, .nil =>
          match findMax K dim (dimNext K dim) (.node lk lv ll lr) with
          | none => (.node k v (.node lk lv ll lr) .nil, sz)
          | some m =>
            let res := erase K (dimNext K dim) (.node lk lv ll lr) m.key sz
            (.node m.key m.value res.1 .nil, res.2)
      else if coord dim key < coord dim k then
        let res := erase K (dimNext K dim) l key sz
        (.node k v res.1 r, res.2)
      else
        let res := erase K (dimNext K dim) r key sz
        (.node k v l res.1, res.2) := by
  cases l <;> cases r <;> simp [erase]

theorem find_none_of_not_mem (K : Nat) (key : Key) (n : Node V) (dim : Nat)
    (h : key ∉ n.keys) : find K dim key n = none := by
  cases hf : find K dim key n with
  | none => rfl
  | some r =>
    obtain ⟨h1, h2⟩ := find_sound K key n dim r hf
    have := dataAt_mem _ _ _ h2
    have h3 : r.key ∈ n.keys := List.mem_map_of_mem Prod.fst this
    rw [h1] at h3
    exact absurd h3 h

theorem findMin_mem (K c : Nat) (n : Node V) (dim : Nat) (m : NodeRef V)
    (h : findMin K c dim n = some m) : m.key ∈ n.keys :=
  List.mem_map_of_mem Prod.fst (dataAt_mem _ _ _ (findMin_accurate K c n dim m h))

theorem findMax_mem (K c : Nat) (n : Node V) (dim : Nat) (m : NodeRef V)
    (h : findMax K c dim n = some m) : m.key ∈ n.keys :=
  List.mem_map_of_mem Prod.fst (dataAt_mem _ _ _ (findMax_accurate K c n dim m h))

/-- Erasing a stored key from a subtree that satisfies the partition invariant and has
pairwise distinct keys deletes one node: `treeSize` drops by one and the erased key
together with the remaining keys is a rearrangement of the keys before. -/
theorem erase_present (K : Nat) (n : Node V) :
    ∀ (dim : Nat) (key : Key) (sz : Nat), partitionOK K dim n = true → n.keys.Nodup →
      key ∈ n.keys →
      (erase K dim n key sz).2 = sz - 1 ∧
      (key :: (erase K dim n key sz).1.keys).Perm n.keys := by
  induction n with
  | nil => intro dim key sz _ _ h; simp [Node.keys, Node.toList] at h
  | node k v l r ihl ihr =>
    intro dim key sz hp hnd hmem
    rw [partitionOK_node] at hp
    obtain ⟨hp1, hp2, hp3, hp4⟩ := hp
    rw [Node.keys_node] at hnd hmem ⊢
    rw [List.nodup_append] at hnd
    obtain ⟨hl, hkr, hdis⟩ := hnd
    rw [List.nodup_cons] at hkr
    rw [erase_node_eq]
    by_cases hk : key = k
    · subst hk
      rw [if_pos rfl]
      cases r with
      | node rk rv rl rr =>
        obtain ⟨m, hm, _⟩ := findMin_le K dim (.node rk rv rl rr) (dimNext K dim) hp4 rk
          (by simp [Node.keys, Node.toList])
        have hmm := findMin_mem K dim _ _ m hm
        obtain ⟨h1, h2⟩ := ihr (dimNext K dim) m.key sz hp4 hkr.2 hmm
        simp only [hm]
        refine ⟨h1, ?_⟩
        rw [Node.keys_node]
        exact (List.Perm.cons key (List.Perm.append_left l.keys h2)).trans
          List.perm_middle.symm
      | nil =>
        cases l with
        | nil => simp [Node.keys, Node.toList]
        | node lk lv ll lr =>
          obtain ⟨m, hm, _⟩ := findMax_ge K dim (.node lk lv ll lr) (dimNext K dim) hp3 lk
            (by simp [Node.keys, Node.toList])
          have hmm := findMax_mem K dim _ _ m hm
          obtain ⟨h1, h2⟩ := ihl (dimNext K dim) m.key sz hp3 hl hmm
          simp only [hm]
          refine ⟨h1, ?_⟩
          rw [Node.keys_node]
          have h3 : (Node.nil : Node V).keys = [] := rfl
          rw [h3]
          have h5 : ((erase K (dimNext K dim) (Node.node lk lv ll lr) m.key sz).1.keys
              ++ [m.key]).Perm (Node.node lk lv ll lr).keys :=
            (List.perm_append_singleton _ _).trans h2
          exact (List.Perm.cons key h5).trans (List.perm_append_singleton key _).symm
    · rw [if_neg hk]
      have hmem2 : key ∈ l.keys ∨ key ∈ r.keys := by
        simp only [List.mem_append, List.mem_cons] at hmem
        rcases hmem with h | h | h
        · exact Or.inl h
        · exact absurd h hk
        · exact Or.inr h
      rcases hmem2 with hm | hm
      · have hlt : coord dim key < coord dim k := hp1 key hm
        obtain ⟨h1, h2⟩ := ihl (dimNext K dim) key sz hp3 hl hm
        rw [if_pos hlt]
        refine ⟨h1, ?_⟩
        rw [Node.keys_node]
        exact List.Perm.append_right (k :: r.keys) h2
      · have hge : ¬ coord dim key < coord dim k := by
          have := hp2 key hm
          omega
        obtain ⟨h1, h2⟩ := ihr (dimNext K dim) key sz hp4 hkr.2 hm
        rw [if_neg hge]
        refine ⟨h1, ?_⟩
        rw [Node.keys_node]
        have h3 : (key :: k :: (erase K (dimNext K dim) r key sz).1.keys).Perm (k :: r.keys) :=
          (List.Perm.swap k key _).trans (List.Perm.cons k h2)
        exact List.perm_middle.symm.trans (List.Perm.append_left l.keys h3)

theorem Node.keys_length (n : Node V) : n.keys.length = n.count := by
  induction n with
  | nil => rfl
  | node k v l r ihl ihr =>
    rw [Node.keys_node]
    simp [Node.count, ihl, ihr]
    omega

/-- Erasing a stored key from a tree built by inserts returns true and lowers `size()` by
one; if a node remains at the root, `find` of the erased key returns `end()`; `root` is
left pointing at a deleted node exactly when the tree held a single entry. -/
theorem erase_stored_key (K : Nat) (ops : List (Key × V)) (k : Key)
    (hk : k ∈ ops.map Prod.fst) :
    ∃ t t1, Tree.insertAll K Tree.empty ops = some t ∧
      t.erase K k = some (true, t1) ∧
      t1.size + 1 = t.size ∧
      (t1.root = Root.freed ↔ t.size = 1) ∧
      (t1.root ≠ Root.freed → t1.find K k = some Iter.null) := by
  obtain ⟨n, h1, h2, h3, h4⟩ := insertAll_wellformed K ops (Node.nil : Node V) 0 rfl
    (by simp [Node.keys, Node.toList]) rfl
  have hmem : k ∈ n.keys := (h4 k).mpr (Or.inl hk)
  obtain ⟨e1, e2⟩ := erase_present K n 0 k n.count h2 h3 hmem
  have hlen := e2.length_eq
  simp only [List.length_cons, Node.keys_length] at hlen
  have hnd : (k :: (erase K 0 n k n.count).1.keys).Nodup := e2.nodup_iff.mpr h3
  have hnot : k ∉ (erase K 0 n k n.count).1.keys := (List.nodup_cons.mp hnd).1
  cases n with
  | nil => simp [Node.keys, Node.toList] at hmem
  | node nk nv nl nr =>
    cases hres : (erase K 0 (Node.node nk nv nl nr) k (Node.node nk nv nl nr).count).1 with
    | nil =>
      rw [hres] at hlen
      refine ⟨_, ⟨Root.freed, (erase K 0 (Node.node nk nv nl nr) k
        (Node.node nk nv nl nr).count).2⟩, h1, ?_, ?_, ?_, ?_⟩
      · simp only [Tree.erase, hres, e1]
        have : (Node.node nk nv nl nr).count > (Node.node nk nv nl nr).count - 1 := by
          simp only [Node.count] at hlen ⊢; omega
        simp [this]
      · simp only [Tree.size, e1]
        simp only [Node.count] at hlen ⊢; omega
      · simp only [Tree.size, true_iff]
        simpa [Node.count] using hlen.symm
      · intro h; exact absurd rfl h
    | node rk rv rl rr =>
      rw [hres] at hlen hnot
      refine ⟨_, ⟨Root.live (Node.node rk rv rl rr), (erase K 0 (Node.node nk nv nl nr) k
        (Node.node nk nv nl nr).count).2⟩, h1, ?_, ?_, ?_, ?_⟩
      · simp only [Tree.erase, hres, e1]
        have : (Node.node nk nv nl nr).count > (Node.node nk nv nl nr).count - 1 := by
          simp only [Node.count] at hlen ⊢; omega
        simp [this]
      · simp only [Tree.size, e1]
        simp only [Node.count] at hlen ⊢; omega
      · simp only [Tree.size]
        constructor
        · intro h; cases h
        · intro h
          rw [← h] at hlen
          simp only [Node.count] at hlen
          omega
      · intro _
        simp [Tree.find, find_none_of_not_mem K k _ 0 hnot, Iter.ofRef]

/-! ## Size and insertion of stored and new keys -/

theorem toList_map_of_not_mem (key : Key) (value : V) (n : Node V) (h : key ∉ n.keys) :
    n.toList.map (fun e => if e.1 = key then (key, value) else e) = n.toList := by
  have : ∀ e ∈ n.toList, (fun e : Key × V => if e.1 = key then (key, value) else e) e = e := by
    intro e he
    have hk : e.1 ∈ n.keys := List.mem_map_of_mem Prod.fst he
    have hne : e.1 ≠ key := fun h2 => h (h2 ▸ hk)
    simp [hne]
  calc n.toList.map (fun e => if e.1 = key then (key, value) else e)
      = n.toList.map id := List.map_congr_left this
    _ = n.toList := List.map_id _

/-- Inserting a key that is stored in a subtree with the partition invariant and distinct
keys returns false and changes nothing but the value stored with that key. -/
theorem insert_stored (K : Nat) (key : Key) (value : V) (n : Node V) :
    ∀ (dim sz : Nat), partitionOK K dim n = true → n.keys.Nodup → key ∈ n.keys →
      (insert K dim key value n sz).1 = false ∧
      (insert K dim key value n sz).2.2 = sz ∧
      (insert K dim key value n sz).2.1.shape = n.shape ∧
      (insert K dim key value n sz).2.1.keys = n.keys ∧
      (insert K dim key value n sz).2.1.toList
        = n.toList.map (fun e => if e.1 = key then (key, value) else e) := by
  induction n with
  | nil => intro dim sz _ _ h; simp [Node.keys, Node.toList] at h
  | node k v l r ihl ihr =>
    intro dim sz hp hnd hmem
    rw [partitionOK_node] at hp
    obtain ⟨hp1, hp2, hp3, hp4⟩ := hp
    rw [Node.keys_node] at hnd hmem
    rw [List.nodup_append] at hnd
    obtain ⟨hl, hkr, hdis⟩ := hnd
    rw [List.nodup_cons] at hkr
    unfold insert
    by_cases hk : key = k
    · subst hk
      have hnl : key ∉ l.keys := fun h => hdis h (List.mem_cons_self _ _)
      simp only [if_true, Node.shape, Node.keys_node, Node.toList, List.map_append,
        List.map_cons, toList_map_of_not_mem key value l hnl,
        toList_map_of_not_mem key value r hkr.1, true_and]
    · have hmem2 : key ∈ l.keys ∨ key ∈ r.keys := by
        simp only [List.mem_append, List.mem_cons] at hmem
        rcases hmem with h | h | h
        · exact Or.inl h
        · exact absurd h hk
        · exact Or.inr h
      have hkk : ¬ k = key := fun h => hk h.symm
      rcases hmem2 with hm | hm
      · have hlt : ¬ coord dim k ≤ coord dim key := by
          have := hp1 key hm
          omega
        have hnr : key ∉ r.keys := fun h => hdis hm (List.mem_cons_of_mem _ h)
        obtain ⟨h1, h2, h3, h4, h5⟩ := ihl (dimNext K dim) sz hp3 hl hm
        simp only [hk, hlt, if_false, Node.shape, Node.keys_node, Node.toList, List.map_append,
          List.map_cons, h1, h2, h3, h4, h5, hkk, toList_map_of_not_mem key value r hnr,
          true_and]
      · have hge : coord dim k ≤ coord dim key := hp2 key hm
        have hnl : key ∉ l.keys := fun h => hdis h (List.mem_cons_of_mem _ hm)
        obtain ⟨h1, h2, h3, h4, h5⟩ := ihr (dimNext K dim) sz hp4 hkr.2 hm
        simp only [hk, hge, if_false, if_true, Node.shape, Node.keys_node, Node.toList,
          List.map_append, List.map_cons, h1, h2, h3, h4, h5, hkk,
          toList_map_of_not_mem key value l hnl, true_and]

/-- Inserting a key that is not stored returns true and raises `treeSize` by one. -/
theorem insert_new (K : Nat) (key : Key) (value : V) (n : Node V) :
    ∀ (dim sz : Nat), key ∉ n.keys →
      (insert K dim key value n sz).1 = true ∧ (insert K dim key value n sz).2.2 = sz + 1 := by
  induction n with
  | nil => intro dim sz _; simp [insert]
  | node k v l r ihl ihr =>
    intro dim sz hmem
    rw [Node.keys_node] at hmem
    simp only [List.mem_append, List.mem_cons, not_or] at hmem
    obtain ⟨h1, h2, h3⟩ := hmem
    unfold insert
    by_cases hc : coord dim k ≤ coord dim key
    · simp only [h2, hc, if_false, if_true]
      exact ihr _ _ h3
    · simp only [h2, hc, if_false]
      exact ihl _ _ h1

/-- C11: a tree built from the empty tree by inserts has `size()` equal to the number of
distinct keys inserted; a further insert of a stored key leaves `size()`, the shape and
the keys as they are and replaces only the value stored with that key, and a further insert
of a key that is not stored raises `size()` by one. -/
theorem size_counts_distinct_keys (K : Nat) (ops : List (Key × V)) :
    ∃ t n, Tree.insertAll K Tree.empty ops = some t ∧ t.root = .live n ∧
      t.size = (ops.map Prod.fst).dedup.length ∧
      ∀ key value, ∃ n1 sz1, t.insert K key value = some ⟨.live n1, sz1⟩ ∧
        (key ∈ n.keys →
          sz1 = t.size ∧ n1.shape = n.shape ∧ n1.keys = n.keys ∧
          n1.toList = n.toList.map (fun e => if e.1 = key then (key, value) else e)) ∧
        (key ∉ n.keys → sz1 = t.size + 1) := by
  obtain ⟨n, h1, h2, h3, h4⟩ := insertAll_wellformed K ops (Node.nil : Node V) 0 rfl
    (by simp [Node.keys, Node.toList]) rfl
  refine ⟨⟨.live n, n.count⟩, n, h1, rfl, ?_, ?_⟩
  · have hp : n.keys.Perm (ops.map Prod.fst).dedup := by
      rw [List.perm_ext_iff_of_nodup h3 (List.nodup_dedup _)]
      intro k
      rw [h4 k, List.mem_dedup]
      simp [Node.keys, Node.toList]
    have := hp.length_eq
    rw [Node.keys_length] at this
    exact this
  · intro key value
    refine ⟨(insert K 0 key value n n.count).2.1, (insert K 0 key value n n.count).2.2,
      by simp [Tree.insert], ?_, ?_⟩
    · intro hmem
      obtain ⟨_, e2, e3, e4, e5⟩ := insert_stored K key value n 0 n.count h2 h3 hmem
      exact ⟨e2, e3, e4, e5⟩
    · intro hmem
      exact (insert_new K key value n 0 n.count hmem).2

/-! ## Erasure: absent keys, other keys, the last entry -/

theorem erase_absent (K : Nat) (key : Key) (n : Node V) :
    ∀ (dim sz : Nat), key ∉ n.keys → erase K dim n key sz = (n, sz) := by
  induction n with
  | nil => intro dim sz _; rfl
  | node k v l r ihl ihr =>
    intro dim sz hmem
    rw [Node.keys_node] at hmem
    simp only [List.mem_append, List.mem_cons, not_or] at hmem
    obtain ⟨h1, h2, h3⟩ := hmem
    rw [erase_node_eq, if_neg h2]
    by_cases hc : coord dim key < coord dim k
    · rw [if_pos hc]
      simp only [ihl _ _ h1]
    · rw [if_neg hc]
      simp only [ihr _ _ h3]

/-- C13: on a tree whose root is null or a live node, `erase(k)` for a key `k` that is not
stored returns false and leaves the tree as it is: same `size()`, same shape, same
entries. -/
theorem erase_absent_key_changes_nothing (K : Nat) (t : Tree V) (n : Node V) (k : Key)
    (hroot : t.root = .live n) (hk : k ∉ t.toList.map Prod.fst) :
    t.erase K k = some (false, t) := by
  obtain ⟨root, sz⟩ := t
  simp only at hroot
  subst hroot
  have hk2 : k ∉ n.keys := by simpa [Tree.toList, Node.keys] using hk
  simp only [Tree.erase, erase_absent K k n 0 sz hk2]
  cases n <;> simp

/-- C13 on the tree built by inserting (5,0) and (3,1), erasing the absent key (9,9). -/
theorem erase_absent_key_changes_nothing_witness :
    Tree.erase 2 ⟨.live (.node [5, 0] "a" (.node [3, 1] "b" .nil .nil) .nil), 2⟩ [9, 9]
      = some (false, ⟨.live (.node [5, 0] "a" (.node [3, 1] "b" .nil .nil) .nil), 2⟩) :=
  erase_absent_key_changes_nothing 2
    ⟨.live (.node [5, 0] "a" (.node [3, 1] "b" .nil .nil) .nil), 2⟩ _ [9, 9] rfl (by decide)

/-- C19: on the tree built by inserting (5,0), (3,1), (3,2), the keys (5,0) and (3,1) are
both stored and `find((3,1))` returns its node; after `erase((5,0))`, which returns true,
`find((3,1))` returns `end()` although (3,1) is still in the tree. -/
theorem erase_makes_other_key_unreachable :
    Tree.insertAll 2 Tree.empty [([5, 0], "a"), ([3, 1], "b"), ([3, 2], "c")] =
        some ⟨.live (.node [5, 0] "a" (.node [3, 1] "b" .nil (.node [3, 2] "c" .nil .nil)) .nil),
          3⟩ ∧
      (Tree.find 2
        ⟨.live (.node [5, 0] "a" (.node [3, 1] "b" .nil (.node [3, 2] "c" .nil .nil)) .nil), 3⟩
        [3, 1]) = some (Iter.ptr [Dir.L]) ∧
      Tree.erase 2
        ⟨.live (.node [5, 0] "a" (.node [3, 1] "b" .nil (.node [3, 2] "c" .nil .nil)) .nil), 3⟩
        [5, 0] = some (true, ⟨.live (.node [3, 2] "c" (.node [3, 1] "b" .nil .nil) .nil), 2⟩) ∧
      Tree.toList ⟨.live (.node [3, 2] "c" (.node [3, 1] "b" .nil .nil) .nil), 2⟩
        = [([3, 1], "b"), ([3, 2], "c")] ∧
      Tree.find 2 ⟨.live (.node [3, 2] "c" (.node [3, 1] "b" .nil .nil) .nil), 2⟩ [3, 1]
        = some Iter.null := by
  decide

/-- C20: on every tree that holds a single entry, `erase` of its key returns true and
lowers `treeSize` from 1 to 0, but the null pointer returned by the recursive `erase` is not
installed: `root` keeps the address of the deleted node, and `begin()` on the resulting
tree dereferences that deleted node. -/
theorem erase_does_not_install_returned_root (K : Nat) (k : Key) (v : V) :
    erase K 0 (.node k v .nil .nil) k 1 = (.nil, 0) ∧
      Tree.erase K ⟨.live (.node k v .nil .nil), 1⟩ k = some (true, ⟨Root.freed, 0⟩) ∧
      Tree.begin (⟨Root.freed, 0⟩ : Tree V) = none := by
  have h : erase K 0 (.node k v .nil .nil) k 1 = (.nil, 0) := by
    rw [erase_node_eq, if_pos rfl]
  refine ⟨h, ?_, rfl⟩
  simp only [Tree.erase, h]
  rfl

/-! ## Parent links: insertion and copying -/

@[simp] theorem linked_subtreeAt_root (n : Linked.Node V) : Linked.subtreeAt n [] = n := by
  cases n <;> rfl

theorem linked_subtreeAt_nil (p : Path) :
    Linked.subtreeAt (Linked.Node.nil : Linked.Node V) p = .nil := by
  cases p <;> rfl

@[simp] theorem linked_subtreeAt_L (par : Option Path) (k : Key) (v : V)
    (l r : Linked.Node V) (p : Path) :
    Linked.subtreeAt (.node par k v l r) (Dir.L :: p) = Linked.subtreeAt l p := rfl

@[simp] theorem linked_subtreeAt_R (par : Option Path) (k : Key) (v : V)
    (l r : Linked.Node V) (p : Path) :
    Linked.subtreeAt (.node par k v l r) (Dir.R :: p) = Linked.subtreeAt r p := rfl

/-- The insertion with `parent` members is the insertion without them, node for node. -/
theorem linked_insert_strip (K : Nat) (key : Key) (value : V) (n : Linked.Node V) :
    ∀ (dim : Nat) (self : Path) (parent : Option Path) (sz : Nat),
      (Linked.insert K dim key value n self parent sz).1
          = (KDTree.insert K dim key value n.strip sz).1 ∧
        (Linked.insert K dim key value n self parent sz).2.1.strip
          = (KDTree.insert K dim key value n.strip sz).2.1 ∧
        (Linked.insert K dim key value n self parent sz).2.2
          = (KDTree.insert K dim key value n.strip sz).2.2 := by
  induction n with
  | nil => intro dim self parent sz; simp [Linked.insert, KDTree.insert, Linked.Node.strip]
  | node par k v l r ihl ihr =>
    intro dim self parent sz
    simp only [Linked.insert, KDTree.insert, Linked.Node.strip]
    by_cases hk : key = k
    · simp [hk, Linked.Node.strip]
    · by_cases hc : coord dim k ≤ coord dim key
      · obtain ⟨h1, h2, h3⟩ := ihr (dimNext K dim) (self ++ [Dir.R]) (some self) sz
        simp only [hk, hc, if_false, if_true, Linked.Node.strip, h1, h2, h3, and_self]
      · obtain ⟨h1, h2, h3⟩ := ihl (dimNext K dim) (self ++ [Dir.L]) (some self) sz
        simp only [hk, hc, if_false, Linked.Node.strip, h1, h2, h3, and_self]

theorem linked_wellLinked_node (self : Path) (parent par : Option Path) (k : Key) (v : V)
    (l r : Linked.Node V) :
    Linked.wellLinked self parent (.node par k v l r) = true ↔
      par = parent ∧ Linked.wellLinked (self ++ [Dir.L]) (some self) l = true ∧
        Linked.wellLinked (self ++ [Dir.R]) (some self) r = true := by
  simp [Linked.wellLinked, and_assoc]

theorem linked_insert_wellLinked (K : Nat) (key : Key) (value : V) (n : Linked.Node V) :
    ∀ (dim : Nat) (self : Path) (parent : Option Path) (sz : Nat),
      Linked.wellLinked self parent n = true →
      Linked.wellLinked self parent (Linked.insert K dim key value n self parent sz).2.1
        = true := by
  induction n with
  | nil =>
    intro dim self parent sz _
    simp [Linked.insert, Linked.wellLinked]
  | node par k v l r ihl ihr =>
    intro dim self parent sz h
    rw [linked_wellLinked_node] at h
    obtain ⟨h1, h2, h3⟩ := h
    simp only [Linked.insert]
    by_cases hk : key = k
    · simp only [hk, if_true]
      rw [linked_wellLinked_node]
      exact ⟨h1, h2, h3⟩
    · by_cases hc : coord dim k ≤ coord dim key
      · simp only [hk, hc, if_false, if_true]
        rw [linked_wellLinked_node]
        exact ⟨h1, h2, ihr _ _ _ _ h3⟩
      · simp only [hk, hc, if_false]
        rw [linked_wellLinked_node]
        exact ⟨h1, ihl _ _ _ _ h2, h3⟩

/-- A key that is not stored ends its descent at an empty slot; `insert` puts a leaf with
the key there, whose `parent` is the position of the node that owns the slot, and leaves
the members of every node of the tree as they are. -/
theorem linked_insert_new_leaf (K : Nat) (key : Key) (value : V) (n : Linked.Node V) :
    ∀ (dim : Nat) (self : Path) (parent : Option Path) (sz : Nat), key ∉ n.strip.keys →
      Linked.subtreeAt n (descent K dim key n.strip) = .nil ∧
      Linked.subtreeAt (Linked.insert K dim key value n self parent sz).2.1
          (descent K dim key n.strip)
        = .node (match descent K dim key n.strip with
                 | [] => parent
                 | d :: ds => some (self ++ (d :: ds).dropLast)) key value .nil .nil ∧
      ∀ q, Linked.subtreeAt n q ≠ .nil →
        Linked.headAt (Linked.insert K dim key value n self parent sz).2.1 q
          = Linked.headAt n q := by
  induction n with
  | nil =>
    intro dim self parent sz _
    refine ⟨by simp [descent, Linked.Node.strip], by simp [descent, Linked.Node.strip,
      Linked.insert], ?_⟩
    intro q hq
    rw [linked_subtreeAt_nil] at hq
    exact absurd rfl hq
  | node par k v l r ihl ihr =>
    intro dim self parent sz hmem
    simp only [Linked.Node.strip, Node.keys_node, List.mem_append, List.mem_cons, not_or]
      at hmem
    obtain ⟨hm1, hm2, hm3⟩ := hmem
    simp only [Linked.Node.strip, descent, Linked.insert, hm2, if_false]
    by_cases hc : coord dim k ≤ coord dim key
    · obtain ⟨h1, h2, h3⟩ := ihr (dimNext K dim) (self ++ [Dir.R]) (some self) sz hm3
      simp only [hc, if_true, linked_subtreeAt_R]
      refine ⟨h1, ?_, ?_⟩
      · rw [h2]
        cases hd : descent K (dimNext K dim) key r.strip with
        | nil => simp
        | cons d ds => simp [List.dropLast]
      · intro q hq
        cases q with
        | nil => simp [Linked.headAt]
        | cons d q =>
          cases d with
          | L => simp [Linked.headAt]
          | R =>
            have := h3 q (by simpa using hq)
            simpa [Linked.headAt] using this
    · obtain ⟨h1, h2, h3⟩ := ihl (dimNext K dim) (self ++ [Dir.L]) (some self) sz hm1
      simp only [hc, if_false, linked_subtreeAt_L]
      refine ⟨h1, ?_, ?_⟩
      · rw [h2]
        cases hd : descent K (dimNext K dim) key l.strip with
        | nil => simp
        | cons d ds => simp [List.dropLast]
      · intro q hq
        cases q with
        | nil => simp [Linked.headAt]
        | cons d q =>
          cases d with
          | R => simp [Linked.headAt]
          | L =>
            have := h3 q (by simpa using hq)
            simpa [Linked.headAt] using this

/-- Away from the end of the descent, `insert` of a key that is not stored changes the
members of no position: nodes stay nodes with the same key, value and parent, and empty
slots stay empty. -/
theorem linked_insert_elsewhere (K : Nat) (key : Key) (value : V) (n : Linked.Node V) :
    ∀ (dim : Nat) (self : Path) (parent : Option Path) (sz : Nat) (q : Path),
      key ∉ n.strip.keys → q ≠ descent K dim key n.strip →
        Linked.headAt (Linked.insert K dim key value n self parent sz).2.1 q
          = Linked.headAt n q := by
  induction n with
  | nil =>
    intro dim self parent sz q _ hq
    cases q with
    | nil => simp [descent, Linked.Node.strip] at hq
    | cons d q =>
      cases d <;> simp [Linked.insert, Linked.headAt, linked_subtreeAt_nil, Linked.subtreeAt]
  | node par k v l r ihl ihr =>
    intro dim self parent sz q hmem hq
    simp only [Linked.Node.strip, Node.keys_node, List.mem_append, List.mem_cons, not_or]
      at hmem
    obtain ⟨hm1, hm2, hm3⟩ := hmem
    simp only [Linked.Node.strip, descent, hm2, if_false] at hq
    simp only [Linked.insert, hm2, if_false]
    by_cases hc : coord dim k ≤ coord dim key
    · simp only [hc, if_true] at hq ⊢
      cases q with
      | nil => simp [Linked.headAt]
      | cons d q =>
        cases d with
        | L => simp [Linked.headAt]
        | R =>
          have := ihr (dimNext K dim) (self ++ [Dir.R]) (some self) sz q hm3
            (fun h => hq (by rw [h]))
          simpa [Linked.headAt] using this
    · simp only [hc, if_false] at hq ⊢
      cases q with
      | nil => simp [Linked.headAt]
      | cons d q =>
        cases d with
        | R => simp [Linked.headAt]
        | L =>
          have := ihl (dimNext K dim) (self ++ [Dir.L]) (some self) sz q hm1
            (fun h => hq (by rw [h]))
          simpa [Linked.headAt] using this

/-- The slot a descent ends at belongs to a node of the tree: the position one link
above the end of a non-empty descent holds a node. -/
theorem descent_parent_is_node (K : Nat) (key : Key) (n : Linked.Node V) :
    ∀ (dim : Nat) (q : Path), parentOf (descent K dim key n.strip) = some q →
      Linked.subtreeAt n q ≠ .nil := by
  induction n with
  | nil => intro dim q h; simp [descent, Linked.Node.strip, parentOf] at h
  | node par k v l r ihl ihr =>
    intro dim q h
    simp only [Linked.Node.strip, descent] at h
    by_cases hk : key = k
    · simp [hk, parentOf] at h
    · by_cases hc : coord dim k ≤ coord dim key
      · simp only [hk, hc, if_false, if_true] at h
        cases hd : descent K (dimNext K dim) key r.strip with
        | nil =>
          rw [hd] at h
          simp [parentOf] at h
          subst h
          simp
        | cons d ds =>
          rw [hd] at h
          simp only [parentOf, List.dropLast, Option.some.injEq] at h
          subst h
          rw [linked_subtreeAt_R]
          exact ihr (dimNext K dim) _ (by rw [hd]; rfl)
      · simp only [hk, hc, if_false] at h
        cases hd : descent K (dimNext K dim) key l.strip with
        | nil =>
          rw [hd] at h
          simp [parentOf] at h
          subst h
          simp
        | cons d ds =>
          rw [hd] at h
          simp only [parentOf, List.dropLast, Option.some.injEq] at h
          subst h
          rw [linked_subtreeAt_L]
          exact ihl (dimNext K dim) _ (by rw [hd]; rfl)

/-- C12: on a tree that satisfies the partition invariant and whose parent members are
right, `insert` returns a tree that again satisfies the invariant and has right parent
members; a key that was not stored is attached as a leaf in the empty slot its descent
ends at, with the node that owns this slot (the last node of the descent, none for the
empty tree) as parent, and every other position keeps its key, value and parent. -/
theorem insert_attaches_leaf_on_descent_path (K : Nat) (n : Linked.Node V) (sz : Nat)
    (key : Key) (value : V) (hpart : partitionOK K 0 n.strip = true)
    (hlink : Linked.wellLinked [] none n = true) :
    Tree.insert K ⟨.live n.strip, sz⟩ key value
        = some ⟨.live (Linked.insert K 0 key value n [] none sz).2.1.strip,
            (Linked.insert K 0 key value n [] none sz).2.2⟩ ∧
      partitionOK K 0 (Linked.insert K 0 key value n [] none sz).2.1.strip = true ∧
      Linked.wellLinked [] none (Linked.insert K 0 key value n [] none sz).2.1 = true ∧
      (key ∉ n.strip.keys →
        Linked.subtreeAt n (descent K 0 key n.strip) = .nil ∧
        Linked.subtreeAt (Linked.insert K 0 key value n [] none sz).2.1
            (descent K 0 key n.strip)
          = .node (parentOf (descent K 0 key n.strip)) key value .nil .nil ∧
        (∀ q, parentOf (descent K 0 key n.strip) = some q → Linked.subtreeAt n q ≠ .nil) ∧
        ∀ q, q ≠ descent K 0 key n.strip →
          Linked.headAt (Linked.insert K 0 key value n [] none sz).2.1 q
            = Linked.headAt n q) := by
  obtain ⟨_, h2, h3⟩ := linked_insert_strip K key value n 0 [] none sz
  refine ⟨?_, ?_, linked_insert_wellLinked K key value n 0 [] none sz hlink, ?_⟩
  · simp only [Tree.insert, h2, h3]
  · rw [h2]
    exact insert_partitionOK K key value n.strip 0 sz hpart
  · intro hmem
    obtain ⟨e1, e2, _⟩ := linked_insert_new_leaf K key value n 0 [] none sz hmem
    refine ⟨e1, ?_, descent_parent_is_node K key n 0,
      fun q hq => linked_insert_elsewhere K key value n 0 [] none sz q hmem hq⟩
    rw [e2]
    cases descent K 0 key n.strip <;> simp [parentOf]

theorem insert_attaches_leaf_on_descent_path_witness :
    partitionOK 2 0
        (Linked.Node.node none [5, 0] "a" (.node (some []) [3, 1] "b" .nil .nil) .nil).strip
        = true ∧
      descent 2 0 [4, 7]
        (Linked.Node.node none [5, 0] "a" (.node (some []) [3, 1] "b" .nil .nil) .nil).strip
        = [Dir.L, Dir.R] ∧
      Linked.subtreeAt
        (Linked.insert 2 0 [4, 7] "c"
          (Linked.Node.node none [5, 0] "a" (.node (some []) [3, 1] "b" .nil .nil) .nil)
          [] none 2).2.1 [Dir.L, Dir.R]
        = .node (some [Dir.L]) [4, 7] "c" .nil .nil := by
  have h := insert_attaches_leaf_on_descent_path 2
    (Linked.Node.node none [5, 0] "a" (.node (some []) [3, 1] "b" .nil .nil) .nil) 2
    [4, 7] "c" (by decide) (by decide)
  refine ⟨by decide, by decide, ?_⟩
  have h4 := (h.2.2.2 (by decide)).2.1
  exact h4

/-- The copy made by `copyFrom` has the shape, keys and values of the original. -/
theorem copyFrom_strip (n : Linked.Node V) :
    ∀ (parent : Option Path) (self : Path), (Linked.copyFrom parent self n).strip = n.strip := by
  induction n with
  | nil => intro parent self; rfl
  | node par k v l r ihl ihr =>
    intro parent self
    simp only [Linked.copyFrom, Linked.Node.strip, ihl, ihr]

/-- In the copy made by `copyFrom` every node's parent member is the copy of its parent,
and the root of the copy has the parent handed in. -/
theorem copyFrom_wellLinked (n : Linked.Node V) :
    ∀ (parent : Option Path) (self : Path),
      Linked.wellLinked self parent (Linked.copyFrom parent self n) = true := by
  induction n with
  | nil => intro parent self; rfl
  | node par k v l r ihl ihr =>
    intro parent self
    simp only [Linked.copyFrom]
    rw [linked_wellLinked_node]
    exact ⟨rfl, ihl _ _, ihr _ _⟩

/-- Position by position, the copy holds the key and value of the original, and its
parent member is the position one link up (none at the root). -/
theorem copyFrom_headAt (n : Linked.Node V) :
    ∀ (parent : Option Path) (self : Path) (q : Path),
      Linked.headAt (Linked.copyFrom parent self n) q
        = (Linked.headAt n q).map
            (fun e => (match q with
                       | [] => parent
                       | d :: ds => some (self ++ (d :: ds).dropLast), e.2.1, e.2.2)) := by
  induction n with
  | nil =>
    intro parent self q
    simp [Linked.copyFrom, Linked.headAt, linked_subtreeAt_nil]
  | node par k v l r ihl ihr =>
    intro parent self q
    cases q with
    | nil => simp [Linked.copyFrom, Linked.headAt]
    | cons d q =>
      cases d with
      | L =>
        have := ihl (some self) (self ++ [Dir.L]) q
        simp only [Linked.headAt, Linked.copyFrom, linked_subtreeAt_L] at this ⊢
        rw [this]
        cases q <;> simp [List.dropLast]
      | R =>
        have := ihr (some self) (self ++ [Dir.R]) q
        simp only [Linked.headAt, Linked.copyFrom, linked_subtreeAt_R] at this ⊢
        rw [this]
        cases q <;> simp [List.dropLast]

/-- C15: copy construction and copy assignment give a tree with the shape, keys and
values of the source at every position, every parent member pointing to the copied
parent (none at the root) whatever the parent members of the source were, and the same
size; assigning a tree to itself leaves it unchanged. -/
theorem copy_preserves_tree_and_parent_links (that dst : Linked.Tree V) :
    (Linked.Tree.copy that).root.strip = that.root.strip ∧
      (∀ q, Linked.headAt (Linked.Tree.copy that).root q
        = (Linked.headAt that.root q).map (fun e => (parentOf q, e.2.1, e.2.2))) ∧
      Linked.wellLinked [] none (Linked.Tree.copy that).root = true ∧
      (Linked.Tree.copy that).treeSize = that.treeSize ∧
      dst.assign (.other that) = Linked.Tree.copy that ∧
      dst.assign .self = dst := by
  refine ⟨copyFrom_strip _ _ _, ?_, copyFrom_wellLinked _ _ _, rfl, rfl, rfl⟩
  intro q
  simp only [Linked.Tree.copy]
  rw [copyFrom_headAt]
  cases q <;> simp [parentOf]

/-! ## Erasing through an iterator -/

/-- The chain of instantiations of `eraseDynamic` reaches `erase<d>` on the node's own key
within `K` links. -/
theorem eraseDynamic_eq (K : Nat) (k : Key) (v : V) (l r : Node V) (sz d : Nat) (hd : d < K) :
    ∀ (fuel DIM : Nat), DIM ≤ d → d - DIM < fuel →
      eraseDynamic K fuel DIM (.node k v l r) d sz = some (erase K d (.node k v l r) k sz) := by
  intro fuel
  induction fuel with
  | zero => intro DIM _ h; omega
  | succ fuel ih =>
    intro DIM hle hlt
    unfold eraseDynamic
    have h1 : ¬ d ≥ K := by omega
    simp only [h1, if_false]
    by_cases h2 : d = DIM
    · subst h2
      simp
    · simp only [h2, if_false]
      have h3 : dimNext K DIM = DIM + 1 := by
        unfold dimNext
        exact Nat.mod_eq_of_lt (by omega)
      rw [h3]
      exact ih (DIM + 1) (by omega) (by omega)

/-- C14: `erase(end())` returns `end()`, but `erase(it)` does not return the successor.
On the tree built by inserting (1,1), (2,2) the iterator at the last element (2,2) is
answered with an iterator at (1,1) instead of `end()`, and the right slot of (1,1) keeps
the address of the deleted node.  On the tree built by inserting (5,5), (7,3), (6,9) the
iterator at the first element (5,5), whose successor is (7,3), is answered with an iterator
at (6,9). -/
theorem erase_iterator_does_not_return_successor :
    (∀ t : Tree String, Tree.eraseIterator 2 t Iter.null = some ⟨Iter.null, t, none⟩) ∧
      Tree.insertAll 2 Tree.empty [([1, 1], "a"), ([2, 2], "b")]
        = some ⟨.live (.node [1, 1] "a" .nil (.node [2, 2] "b" .nil .nil)), 2⟩ ∧
      Tree.find 2 ⟨.live (.node [1, 1] "a" .nil (.node [2, 2] "b" .nil .nil)), 2⟩ [2, 2]
        = some (Iter.ptr [Dir.R]) ∧
      Tree.next ⟨.live (.node [1, 1] "a" .nil (.node [2, 2] "b" .nil .nil)), 2⟩
        (Iter.ptr [Dir.R]) = some Iter.null ∧
      Tree.eraseIterator 2 ⟨.live (.node [1, 1] "a" .nil (.node [2, 2] "b" .nil .nil)), 2⟩
        (Iter.ptr [Dir.R])
        = some ⟨Iter.ptr [], ⟨.live (.node [1, 1] "a" .nil .nil), 1⟩, some [Dir.R]⟩ ∧
      Tree.insertAll 2 Tree.empty [([5, 5], "a"), ([7, 3], "b"), ([6, 9], "c")]
        = some ⟨.live (.node [5, 5] "a" .nil
            (.node [7, 3] "b" .nil (.node [6, 9] "c" .nil .nil))), 3⟩ ∧
      Tree.toList ⟨.live (.node [5, 5] "a" .nil
            (.node [7, 3] "b" .nil (.node [6, 9] "c" .nil .nil))), 3⟩
        = [([5, 5], "a"), ([7, 3], "b"), ([6, 9], "c")] ∧
      Tree.begin ⟨.live (.node [5, 5] "a" .nil
            (.node [7, 3] "b" .nil (.node [6, 9] "c" .nil .nil))), 3⟩
        = some (Iter.ptr []) ∧
      Tree.next ⟨.live (.node [5, 5] "a" .nil
            (.node [7, 3] "b" .nil (.node [6, 9] "c" .nil .nil))), 3⟩ (Iter.ptr [])
        = some (Iter.ptr [Dir.R]) ∧
      Tree.deref ⟨.live (.node [5, 5] "a" .nil
            (.node [7, 3] "b" .nil (.node [6, 9] "c" .nil .nil))), 3⟩ (Iter.ptr [Dir.R])
        = some ([7, 3], "b") ∧
      Tree.eraseIterator 2 ⟨.live (.node [5, 5] "a" .nil
            (.node [7, 3] "b" .nil (.node [6, 9] "c" .nil .nil))), 3⟩ (Iter.ptr [])
        = some ⟨Iter.ptr [],
            ⟨.live (.node [6, 9] "c" .nil (.node [7, 3] "b" .nil .nil)), 2⟩, none⟩ ∧
      Tree.deref ⟨.live (.node [6, 9] "c" .nil (.node [7, 3] "b" .nil .nil)), 2⟩ (Iter.ptr [])
        = some ([6, 9], "c") := by
  refine ⟨fun t => rfl, ?_⟩
  decide

end KDTree

/-! # Merge sort: verified properties -/

namespace MergeSort
variable {α : Type}

open KDTree (StrictWeakOrder)

/-- With room for every element, the loops of `merge` write each element of both runs
once. -/
theorem mergeLoop_perm (comp : α → α → Bool) :
    ∀ (fuel : Nat) (L R : List α), L.length + R.length ≤ fuel →
      (mergeLoop comp fuel L R).Perm (L ++ R) := by
  intro fuel
  induction fuel with
  | zero =>
    intro L R h
    have hL : L = [] := List.length_eq_zero.mp (by omega)
    have hR : R = [] := List.length_eq_zero.mp (by omega)
    subst hL; subst hR
    simp [mergeLoop]
  | succ fuel ih =>
    intro L R h
    cases L with
    | nil =>
      cases R with
      | nil => simp [mergeLoop]
      | cons r rs =>
        simp only [mergeLoop, List.nil_append]
        exact (ih [] rs (by simp at h ⊢; omega)).cons r
    | cons l ls =>
      cases R with
      | nil =>
        simp only [mergeLoop, List.append_nil]
        have := ih ls [] (by simp at h ⊢; omega)
        simp only [List.append_nil] at this
        exact this.cons l
      | cons r rs =>
        simp only [mergeLoop]
        by_cases hc : comp r l = true
        · simp only [hc, if_true]
          have := ih (l :: ls) rs (by simp at h ⊢; omega)
          exact (this.cons r).trans (List.perm_middle.symm)
        · have hc1 : comp r l = false := by simpa using hc
          simp only [hc1, Bool.false_eq_true, if_false]
          have := ih ls (r :: rs) (by simp at h ⊢; omega)
          exact this.cons l

theorem mergeLoop_sorted (comp : α → α → Bool) (h : StrictWeakOrder comp) :
    ∀ (fuel : Nat) (L R : List α), L.length + R.length ≤ fuel →
      L.Pairwise (fun x y => comp y x = false) → R.Pairwise (fun x y => comp y x = false) →
      (mergeLoop comp fuel L R).Pairwise (fun x y => comp y x = false) := by
  intro fuel
  induction fuel with
  | zero => intro L R _ _ _; simp [mergeLoop]
  | succ fuel ih =>
    intro L R hlen hL hR
    cases L with
    | nil =>
      cases R with
      | nil => simp [mergeLoop]
      | cons r rs =>
        simp only [mergeLoop]
        rw [List.pairwise_cons] at hR ⊢
        refine ⟨?_, ih [] rs (by simp at hlen ⊢; omega) List.Pairwise.nil hR.2⟩
        intro y hy
        have := (mergeLoop_perm comp fuel [] rs (by simp at hlen ⊢; omega)).subset hy
        exact hR.1 y (by simpa using this)
    | cons l ls =>
      cases R with
      | nil =>
        simp only [mergeLoop]
        rw [List.pairwise_cons] at hL ⊢
        refine ⟨?_, ih ls [] (by simp at hlen ⊢; omega) hL.2 List.Pairwise.nil⟩
        intro y hy
        have := (mergeLoop_perm comp fuel ls [] (by simp at hlen ⊢; omega)).subset hy
        exact hL.1 y (by simpa using this)
      | cons r rs =>
        simp only [mergeLoop]
        have hL1 := (List.pairwise_cons.mp hL)
        have hR1 := (List.pairwise_cons.mp hR)
        by_cases hc : comp r l = true
        · simp only [hc, if_true]
          rw [List.pairwise_cons]
          refine ⟨?_, ih (l :: ls) rs (by simp at hlen ⊢; omega) hL hR1.2⟩
          intro y hy
          have hy1 := (mergeLoop_perm comp fuel (l :: ls) rs
            (by simp at hlen ⊢; omega)).subset hy
          have hlr : comp l r = false := by
            cases hlr : comp l r with
            | false => rfl
            | true =>
              have := h.trans l r l hlr hc
              rw [h.irrefl] at this
              exact absurd this (by decide)
          rcases List.mem_append.mp hy1 with hy2 | hy2
          · rcases List.mem_cons.mp hy2 with rfl | hy3
            · exact hlr
            · cases hyr : comp y r with
              | false => rfl
              | true =>
                have := h.trans y r l hyr hc
                rw [hL1.1 y hy3] at this
                exact absurd this (by decide)
          · exact hR1.1 y hy2
        · have hc1 : comp r l = false := by simpa using hc
          simp only [hc1, Bool.false_eq_true, if_false]
          rw [List.pairwise_cons]
          refine ⟨?_, ih ls (r :: rs) (by simp at hlen ⊢; omega) hL1.2 hR⟩
          intro y hy
          have hy1 := (mergeLoop_perm comp fuel ls (r :: rs)
            (by simp at hlen ⊢; omega)).subset hy
          rcases List.mem_append.mp hy1 with hy2 | hy2
          · exact hL1.1 y hy2
          · rcases List.mem_cons.mp hy2 with rfl | hy3
            · exact hc1
            · cases hyl : comp y l with
              | false => rfl
              | true =>
                rcases h.neg_trans y r l hyl with h1 | h1
                · rw [hR1.1 y hy3] at h1
                  exact absurd h1 (by decide)
                · rw [hc1] at h1
                  exact absurd h1 (by decide)

end MergeSort

namespace MergeSort
variable {α : Type}

open KDTree (StrictWeakOrder)

theorem equivalent_trans (comp : α → α → Bool) (h : StrictWeakOrder comp) (a b c : α)
    (hab : equivalent comp a b = true) (hbc : equivalent comp b c = true) :
    equivalent comp a c = true := by
  simp only [equivalent, Bool.and_eq_true, Bool.not_eq_true'] at *
  constructor
  · cases hac : comp a c with
    | false => rfl
    | true =>
      rcases h.neg_trans a b c hac with h1 | h1
      · rw [hab.1] at h1; exact absurd h1 (by decide)
      · rw [hbc.1] at h1; exact absurd h1 (by decide)
  · cases hca : comp c a with
    | false => rfl
    | true =>
      rcases h.neg_trans c b a hca with h1 | h1
      · rw [hbc.2] at h1; exact absurd h1 (by decide)
      · rw [hab.2] at h1; exact absurd h1 (by decide)

theorem equivalent_symm (comp : α → α → Bool) (a b : α) :
    equivalent comp a b = equivalent comp b a := by
  simp only [equivalent, Bool.and_comm]

/-- Within every class of equivalent elements, `merge` writes the elements of the left
run before those of the right run, each run in its own order. -/
theorem mergeLoop_stable (comp : α → α → Bool) (h : StrictWeakOrder comp) (e : α) :
    ∀ (fuel : Nat) (L R : List α), L.length + R.length ≤ fuel →
      L.Pairwise (fun x y => comp y x = false) →
      (mergeLoop comp fuel L R).filter (equivalent comp e)
        = L.filter (equivalent comp e) ++ R.filter (equivalent comp e) := by
  intro fuel
  induction fuel with
  | zero =>
    intro L R hlen _
    have hL : L = [] := List.length_eq_zero.mp (by omega)
    have hR : R = [] := List.length_eq_zero.mp (by omega)
    subst hL; subst hR
    simp [mergeLoop]
  | succ fuel ih =>
    intro L R hlen hL
    cases L with
    | nil =>
      cases R with
      | nil => simp [mergeLoop]
      | cons r rs =>
        simp only [mergeLoop, List.filter_nil, List.nil_append]
        have := ih [] rs (by simp at hlen ⊢; omega) List.Pairwise.nil
        simp only [List.filter_nil, List.nil_append] at this
        simp only [List.filter_cons, this]
    | cons l ls =>
      have hL1 := (List.pairwise_cons.mp hL)
      cases R with
      | nil =>
        simp only [mergeLoop, List.filter_nil, List.append_nil]
        have := ih ls [] (by simp at hlen ⊢; omega) hL1.2
        simp only [List.filter_nil, List.append_nil] at this
        simp only [List.filter_cons, this]
      | cons r rs =>
        simp only [mergeLoop]
        by_cases hc : comp r l = true
        · simp only [hc, if_true]
          have hi := ih (l :: ls) rs (by simp at hlen ⊢; omega) hL
          by_cases her : equivalent comp e r = true
          · have hnone : (l :: ls).filter (equivalent comp e) = [] := by
              rw [List.filter_eq_nil_iff]
              intro y hy hey
              have hry : equivalent comp r y = true :=
                equivalent_trans comp h r e y (by rw [equivalent_symm]; exact her) hey
              simp only [equivalent, Bool.and_eq_true, Bool.not_eq_true'] at hry
              rcases List.mem_cons.mp hy with rfl | hy1
              · rw [hry.1] at hc; exact absurd hc (by decide)
              · rcases h.neg_trans r y l hc with h1 | h1
                · rw [hry.1] at h1; exact absurd h1 (by decide)
                · rw [hL1.1 y hy1] at h1; exact absurd h1 (by decide)
            rw [hnone] at hi ⊢
            simp only [List.filter_cons, her, if_true, hi, List.nil_append]
          · have her1 : equivalent comp e r = false := by simpa using her
            rw [List.filter_cons_of_neg (by simpa using her1), hi,
              List.filter_cons_of_neg (l := rs) (by simpa using her1)]
        · have hc1 : comp r l = false := by simpa using hc
          simp only [hc1, Bool.false_eq_true, if_false]
          have hi := ih ls (r :: rs) (by simp at hlen ⊢; omega) hL1.2
          by_cases hel : equivalent comp e l = true
          · rw [List.filter_cons_of_pos hel, hi, List.filter_cons_of_pos (l := ls) hel]
            rfl
          · rw [List.filter_cons_of_neg hel, hi, List.filter_cons_of_neg (l := ls) hel]

/-- Called on the two adjacent runs `L` and `R` of a vector, `merge` replaces them by the
merged run and leaves the rest of the vector alone. -/
theorem merge_span (comp : α → α → Bool) (A L R B : List α) :
    merge comp (A ++ L ++ R ++ B) (A.length : Int) ((A.length : Int) + L.length - 1)
        ((A.length : Int) + L.length + R.length - 1)
      = some (A ++ mergeLoop comp (L.length + R.length) L R ++ B) := by
  have e1 : ((A.length : Int) + L.length - 1 - A.length + 1) = ((L.length : Nat) : Int) := by
    omega
  have e2 : ((A.length : Int) + L.length + R.length - 1 - ((A.length : Int) + L.length - 1))
      = ((R.length : Nat) : Int) := by omega
  have e3 : ((A.length : Int) + L.length - 1 + 1) = ((A.length + L.length : Nat) : Int) := by
    push_cast; omega
  have e4 : ((A.length : Int) + L.length + R.length - 1 + 1)
      = ((A.length + L.length + R.length : Nat) : Int) := by push_cast; omega
  have e5 : (((L.length : Nat) : Int) + ((R.length : Nat) : Int))
      = ((L.length + R.length : Nat) : Int) := by push_cast; rfl
  have hcond : (0 : Int) ≤ A.length ∧ (0 : Int) ≤ ((L.length : Nat) : Int) ∧
      (0 : Int) ≤ ((R.length : Nat) : Int) ∧
      (A.length : Int) + L.length + R.length - 1 < ((A ++ L ++ R ++ B).length : Int) := by
    simp only [List.length_append]
    push_cast
    omega
  unfold merge
  simp only [e1, e2, e3, e4, e5, if_pos hcond, Int.toNat_ofNat]
  have t1 : (A ++ L ++ R ++ B).take A.length = A := by
    simp [List.append_assoc]
  have t2 : ((A ++ L ++ R ++ B).drop A.length).take L.length = L := by
    simp [List.append_assoc]
  have t3 : ((A ++ L ++ R ++ B).drop (A.length + L.length)).take R.length = R := by
    rw [show A ++ L ++ R ++ B = (A ++ L) ++ (R ++ B) by simp [List.append_assoc],
      show A.length + L.length = (A ++ L).length by simp, List.drop_left]
    simp
  have t4 : (A ++ L ++ R ++ B).drop (A.length + L.length + R.length) = B := by
    rw [show A.length + L.length + R.length = (A ++ L ++ R).length by
      simp [Nat.add_assoc], List.drop_left]
  rw [t1, t2, t3, t4]

end MergeSort

namespace MergeSort
variable {α : Type}

open KDTree (StrictWeakOrder)

/-- Called on the span `S` of a vector with enough budget, `divide` returns, replaces
`S` by a sorted permutation of it in which equivalent elements keep their order, and
leaves the rest of the vector alone. -/
theorem divide_span (comp : α → α → Bool) (h : StrictWeakOrder comp) :
    ∀ (fuel : Nat) (A S B : List α) (left right : Int), left = A.length →
      right = (A.length : Int) + S.length - 1 → 1 ≤ S.length → S.length ≤ fuel →
      ∃ S1, divide comp fuel (A ++ S ++ B) left right = some (A ++ S1 ++ B) ∧
        S1.Perm S ∧ S1.Pairwise (fun x y => comp y x = false) ∧
        ∀ e, S1.filter (equivalent comp e) = S.filter (equivalent comp e) := by
  intro fuel
  induction fuel with
  | zero => intro A S B left right _ _ h1 h2; omega
  | succ fuel ih =>
    intro A S B left right hl hr h1 h2
    unfold divide
    by_cases hge : left ≥ right
    · have hlen : S.length = 1 := by omega
      obtain ⟨x, rfl⟩ := List.length_eq_one.mp hlen
      refine ⟨[x], ?_, List.Perm.refl _, List.pairwise_singleton _ _, fun e => rfl⟩
      simp only [hge, if_true]
    · simp only [hge, if_false]
      have hS2 : 2 ≤ S.length := by omega
      have hmid : left + (right - left).tdiv 2
          = (A.length : Int) + (((S.length - 1) / 2 + 1 : Nat) : Int) - 1 := by
        rw [Int.tdiv_eq_ediv (by omega) (by omega)]
        push_cast
        omega
      rw [hmid]
      have hLlen : (S.take ((S.length - 1) / 2 + 1)).length = (S.length - 1) / 2 + 1 := by
        rw [List.length_take]
        omega
      have hRlen : (S.drop ((S.length - 1) / 2 + 1)).length
          = S.length - ((S.length - 1) / 2 + 1) := List.length_drop _ _
      have hsplit : A ++ S ++ B = A ++ S.take ((S.length - 1) / 2 + 1)
          ++ (S.drop ((S.length - 1) / 2 + 1) ++ B) := by
        conv_lhs => rw [← List.take_append_drop ((S.length - 1) / 2 + 1) S]
        simp only [List.append_assoc]
      obtain ⟨L1, hd1, hp1, hs1, hf1⟩ := ih A (S.take ((S.length - 1) / 2 + 1))
        (S.drop ((S.length - 1) / 2 + 1) ++ B) left
        ((A.length : Int) + (((S.length - 1) / 2 + 1 : Nat) : Int) - 1) hl
        (by rw [hLlen]) (by omega) (by omega)
      rw [hsplit, hd1]
      have hL1len : L1.length = (S.length - 1) / 2 + 1 := by rw [hp1.length_eq, hLlen]
      have hsplit2 : A ++ L1 ++ (S.drop ((S.length - 1) / 2 + 1) ++ B)
          = (A ++ L1) ++ S.drop ((S.length - 1) / 2 + 1) ++ B := by
        simp only [List.append_assoc]
      obtain ⟨R1, hd2, hp2, hs2, hf2⟩ := ih (A ++ L1) (S.drop ((S.length - 1) / 2 + 1)) B
        ((A.length : Int) + (((S.length - 1) / 2 + 1 : Nat) : Int) - 1 + 1) right
        (by rw [List.length_append, hL1len]; push_cast; omega)
        (by rw [List.length_append, hL1len, hRlen, hr]; push_cast; omega)
        (by omega) (by omega)
      simp only [hsplit2, hd2]
      have hR1len : R1.length = S.length - ((S.length - 1) / 2 + 1) := by
        rw [hp2.length_eq, hRlen]
      have hm := merge_span comp A L1 R1 B
      have e1 : (A.length : Int) + (((S.length - 1) / 2 + 1 : Nat) : Int) - 1
          = (A.length : Int) + L1.length - 1 := by rw [hL1len]
      have e2 : right = (A.length : Int) + L1.length + R1.length - 1 := by
        rw [hr, hL1len, hR1len]; push_cast; omega
      rw [e1, e2, hl, hm]
      refine ⟨mergeLoop comp (L1.length + R1.length) L1 R1, rfl, ?_,
        mergeLoop_sorted comp h _ L1 R1 (le_refl _) hs1 hs2, ?_⟩
      · refine (mergeLoop_perm comp _ L1 R1 (le_refl _)).trans ?_
        have := hp1.append hp2
        rwa [List.take_append_drop] at this
      · intro e
        rw [mergeLoop_stable comp h e _ L1 R1 (le_refl _) hs1, hf1, hf2, ← List.filter_append,
          List.take_append_drop]

/-- C16: for a comparator that is a strict weak order, `merge_sort` returns and leaves
the vector a permutation of its contents in which no element is `comp`-less than an
element before it, and in which the elements equivalent to any given element appear in
their original order. -/
theorem merge_sort_sorts_stably (comp : α → α → Bool) (h : StrictWeakOrder comp)
    (v : List α) :
    ∃ r, merge_sort comp v = some r ∧ r.Perm v ∧
      r.Pairwise (fun x y => comp y x = false) ∧
      ∀ e, r.filter (equivalent comp e) = v.filter (equivalent comp e) := by
  unfold merge_sort
  by_cases hlt : (v.length : Int) < 2
  · simp only [hlt, if_true]
    refine ⟨v, rfl, List.Perm.refl _, ?_, fun e => rfl⟩
    have : v.length < 2 := by omega
    match v, this with
    | [], _ => exact List.Pairwise.nil
    | [x], _ => exact List.pairwise_singleton _ _
  · simp only [hlt, if_false]
    obtain ⟨S1, hd, hp, hs, hf⟩ := divide_span comp h v.length [] v [] 0
      ((v.length : Int) - 1) rfl (by simp) (by omega) (le_refl _)
    simp only [List.nil_append, List.append_nil] at hd
    exact ⟨S1, hd, hp, hs, hf⟩

theorem compare_less_strictWeak : StrictWeakOrder compare_less where
  irrefl := by intro a; simp [compare_less]
  trans := by
    intro a b c h1 h2
    simp only [compare_less, decide_eq_true_eq] at *
    omega
  neg_trans := by
    intro a b c h1
    simp only [compare_less, decide_eq_true_eq] at *
    omega

theorem merge_sort_sorts_stably_witness :
    StrictWeakOrder compare_less ∧
      merge_sort compare_less [5, 4, 3, 2, 1] = some [1, 2, 3, 4, 5] ∧
      ∃ r, merge_sort compare_less [5, 4, 3, 2, 1] = some r ∧ r.Perm [5, 4, 3, 2, 1] ∧
        r.Pairwise (fun x y => compare_less y x = false) ∧
        ∀ e, r.filter (equivalent compare_less e)
          = [5, 4, 3, 2, 1].filter (equivalent compare_less e) :=
  ⟨compare_less_strictWeak, by decide,
    merge_sort_sorts_stably compare_less compare_less_strictWeak [5, 4, 3, 2, 1]⟩

end MergeSort

/-! # All-pairs shortest paths: two defects of reading the input -/

namespace ShortestP2P

/-- A path along edges of non-negative weight has non-negative total weight. -/
theorem pathWeight_nonneg (edges : List Edge) (hw : ∀ e ∈ edges, 0 ≤ e.weight) :
    ∀ (p : List Edge) (a b : Nat), isPath edges a b p = true → 0 ≤ pathWeight p := by
  intro p
  induction p with
  | nil => intro a b _; simp [pathWeight]
  | cons e p ih =>
    intro a b h
    simp only [isPath, Bool.and_eq_true, decide_eq_true_eq] at h
    have h1 := hw e h.1.1
    have h2 := ih e.dest b h.2
    simp only [pathWeight, List.map_cons, List.sum_cons] at h2 ⊢
    omega

/-- C17: the input with one vertex and the single edge line `0 0 5` has no cycle of
negative weight, and the empty path from 0 to 0 has weight 0, but `distance(0, 0)` prints
5.  The input with two vertices and the edge lines `0 1 1`, `0 1 5` has no cycle of
negative weight and a path of weight 1 from 0 to 1, but `distance(0, 1)` prints 5. -/
theorem distance_is_not_minimum_path_weight :
    (∀ p a b, isPath [⟨0, 0, 5⟩] a b p = true → 0 ≤ pathWeight p) ∧
      readGraph 1 [⟨0, 0, 5⟩] = some (.ready [[5]]) ∧
      distance [[5]] 0 0 = .value 5 ∧
      isPath [⟨0, 0, 5⟩] 0 0 [] = true ∧ pathWeight [] = 0 ∧
      (∀ p a b, isPath [⟨0, 1, 1⟩, ⟨0, 1, 5⟩] a b p = true → 0 ≤ pathWeight p) ∧
      readGraph 2 [⟨0, 1, 1⟩, ⟨0, 1, 5⟩] = some (.ready [[0, 5], [INF, 0]]) ∧
      distance [[0, 5], [INF, 0]] 0 1 = .value 5 ∧
      isPath [⟨0, 1, 1⟩, ⟨0, 1, 5⟩] 0 1 [⟨0, 1, 1⟩] = true ∧
      pathWeight [⟨0, 1, 1⟩] = 1 := by
  refine ⟨pathWeight_nonneg _ (by decide), by decide, by decide, by decide, by decide,
    pathWeight_nonneg _ (by decide), by decide, by decide, by decide, by decide⟩

/-- C18: the input with two vertices and the edge lines `0 1 -5`, `1 0 1`, `0 1 10`
contains the cycle 0 → 1 → 0 of weight -4, but `readGraph` does not take the
`Invalid graph. Exiting.` branch: it ends with the matrix in which the edge from 0 to 1
has weight 10. -/
theorem negative_cycle_not_reported :
    isPath [⟨0, 1, -5⟩, ⟨1, 0, 1⟩, ⟨0, 1, 10⟩] 0 0 [⟨0, 1, -5⟩, ⟨1, 0, 1⟩] = true ∧
      pathWeight [⟨0, 1, -5⟩, ⟨1, 0, 1⟩] = -4 ∧
      readGraph 2 [⟨0, 1, -5⟩, ⟨1, 0, 1⟩, ⟨0, 1, 10⟩] = some (.ready [[0, 10], [1, 0]]) ∧
      readGraph 2 [⟨0, 1, -5⟩, ⟨1, 0, 1⟩, ⟨0, 1, 10⟩] ≠ some .invalid := by
  refine ⟨by decide, by decide, by decide, by decide⟩

end ShortestP2P

namespace KDTree
variable {V : Type}

/-! ## Iteration: the ends of the sequence -/

theorem climbDown_all_L (s : Path) (h : ∀ d ∈ s, d = Dir.L) : climbDown s = none := by
  induction s with
  | nil => rfl
  | cons d s ih =>
    have hd : d = Dir.L := h d (List.mem_cons_self _ _)
    subst hd
    simp only [climbDown]
    exact ih (fun d hd => h d (List.mem_cons_of_mem _ hd))

theorem climbUp_all_R (s : Path) (h : ∀ d ∈ s, d = Dir.R) : climbUp s = none := by
  induction s with
  | nil => rfl
  | cons d s ih =>
    have hd : d = Dir.R := h d (List.mem_cons_self _ _)
    subst hd
    simp only [climbUp]
    exact ih (fun d hd => h d (List.mem_cons_of_mem _ hd))

theorem descendRight_all_R (n : Node V) : ∀ d ∈ descendRight n, d = Dir.R := by
  induction n with
  | nil => intro d h; simp [descendRight] at h
  | node k v l r _ ihr =>
    intro d h
    cases r with
    | nil => simp [descendRight] at h
    | node rk rv rl rr =>
      simp only [descendRight, List.mem_cons] at h
      rcases h with h | h
      · exact h
      · exact ihr d h

theorem descendRight_rightmost (n : Node V) (hne : n ≠ .nil) :
    ∃ k v l, subtreeAt n (descendRight n) = .node k v l .nil := by
  induction n with
  | nil => exact absurd rfl hne
  | node k v l r _ ihr =>
    cases r with
    | nil => exact ⟨k, v, l, by simp [descendRight]⟩
    | node rk rv rl rr =>
      obtain ⟨k1, v1, l1, h1⟩ := ihr (by simp)
      exact ⟨k1, v1, l1, by simpa [descendRight] using h1⟩

/-- The entry of the leftmost node is the first entry of the in-order list. -/
theorem dataAt_descendLeft (n : Node V) (hne : n ≠ .nil) :
    dataAt n (descendLeft n) = n.toList.head? := by
  have h1 := congrArg List.head? (inorderPaths_data n)
  rw [List.head?_map, List.head?_map, inorderPaths_head n hne] at h1
  simp only [Option.map_some'] at h1
  cases hh : n.toList.head? with
  | none => rw [hh] at h1; simp at h1
  | some e => rw [hh] at h1; simpa using h1

/-- The last node of the sequence is followed by `end()`. -/
theorem increment_last (n : Node V) (hne : n ≠ .nil) :
    increment n (.ptr (descendRight n)) = some .null := by
  obtain ⟨k, v, l, h⟩ := descendRight_rightmost n hne
  rw [increment_no_right n _ k v l h]
  simp only [exitUp]
  rw [climbUp_all_R _ (by
    intro d hd
    exact descendRight_all_R n d (List.mem_reverse.mp hd))]

theorem advance_succ (root : Node V) : ∀ (i : Nat) (it : Iter),
    advance root (i + 1) it = (advance root i it).bind (increment root) := by
  intro i
  induction i with
  | zero =>
    intro it
    simp only [advance, Option.some_bind]
    cases h : increment root it <;> rfl
  | succ i ih =>
    intro it
    rw [advance]
    cases h : increment root it with
    | none => simp [advance, h]
    | some it1 =>
      simp only []
      rw [ih it1]
      conv_rhs => rw [advance, h]

/-- The position reached after `i` increments is the `i`-th position the loop visits. -/
theorem advance_forward (root : Node V) : ∀ (fuel : Nat) (it : Iter) (i : Nat) (p : Path),
    (forward root fuel it)[i]? = some p → advance root i it = some (.ptr p) := by
  intro fuel
  induction fuel with
  | zero => intro it i p h; simp [forward] at h
  | succ fuel ih =>
    intro it i p h
    cases it with
    | null => simp [forward] at h
    | ptr q =>
      simp only [forward] at h
      cases i with
      | zero =>
        simp only [List.getElem?_cons_zero, Option.some.injEq] at h
        subst h
        rfl
      | succ j =>
        simp only [List.getElem?_cons_succ] at h
        cases hinc : increment root (.ptr q) with
        | none => rw [hinc] at h; simp at h
        | some it1 =>
          rw [hinc] at h
          simp only [advance, hinc]
          exact ih it1 j p h

/-- C25: on a non-empty tree `begin()` points at a node, the one holding the first entry
of the iteration order, and `--` applied to that iterator returns the same position: it
neither becomes `end()` nor moves to another node. -/
theorem decrement_at_begin_stays (t : Tree V) (n : Node V) (hroot : t.root = .live n)
    (hne : n ≠ .nil) :
    ∃ p, t.begin = some (Iter.ptr p) ∧ t.deref (Iter.ptr p) = t.toList.head? ∧
      t.deref (Iter.ptr p) ≠ none ∧ t.prev (Iter.ptr p) = some (Iter.ptr p) := by
  obtain ⟨root, sz⟩ := t
  simp only at hroot
  subst hroot
  obtain ⟨k, v, r, h⟩ := descendLeft_leftmost n hne
  refine ⟨descendLeft n, ?_, ?_, ?_, ?_⟩
  · cases n with
    | nil => exact absurd rfl hne
    | node _ _ _ _ => rfl
  · simp only [Tree.deref, Tree.toList]
    exact dataAt_descendLeft n hne
  · simp [Tree.deref, dataAt, h]
  · simp only [Tree.prev]
    rw [decrement_no_left n _ k v r h, climbDown_all_L _ (by
      intro d hd
      exact descendLeft_all_L n d (List.mem_reverse.mp hd))]

theorem decrement_at_begin_stays_witness :
    Tree.begin ⟨.live (.node [5, 0] "a" (.node [3, 1] "b" .nil (.node [3, 2] "c" .nil .nil))
        (.node [7, 1] "d" .nil .nil)), 4⟩ = some (Iter.ptr [Dir.L]) ∧
      Tree.prev ⟨.live (.node [5, 0] "a" (.node [3, 1] "b" .nil (.node [3, 2] "c" .nil .nil))
        (.node [7, 1] "d" .nil .nil)), 4⟩ (Iter.ptr [Dir.L]) = some (Iter.ptr [Dir.L]) ∧
      ∃ p, Tree.begin ⟨.live (.node [5, 0] "a"
            (.node [3, 1] "b" .nil (.node [3, 2] "c" .nil .nil))
            (.node [7, 1] "d" .nil .nil)), 4⟩ = some (Iter.ptr p) ∧
        Tree.deref ⟨.live (.node [5, 0] "a"
            (.node [3, 1] "b" .nil (.node [3, 2] "c" .nil .nil))
            (.node [7, 1] "d" .nil .nil)), 4⟩ (Iter.ptr p)
          = (Tree.toList ⟨.live (.node [5, 0] "a"
            (.node [3, 1] "b" .nil (.node [3, 2] "c" .nil .nil))
            (.node [7, 1] "d" .nil .nil)), 4⟩).head? ∧
        Tree.deref ⟨.live (.node [5, 0] "a"
            (.node [3, 1] "b" .nil (.node [3, 2] "c" .nil .nil))
            (.node [7, 1] "d" .nil .nil)), 4⟩ (Iter.ptr p) ≠ none ∧
        Tree.prev ⟨.live (.node [5, 0] "a"
            (.node [3, 1] "b" .nil (.node [3, 2] "c" .nil .nil))
            (.node [7, 1] "d" .nil .nil)), 4⟩ (Iter.ptr p) = some (Iter.ptr p) :=
  ⟨by decide, by decide,
    decrement_at_begin_stays _
      (.node [5, 0] "a" (.node [3, 1] "b" .nil (.node [3, 2] "c" .nil .nil))
        (.node [7, 1] "d" .nil .nil)) rfl (by decide)⟩

end KDTree

namespace KDTree
variable {V : Type}

/-- The in-order positions are the positions of the nodes. -/
theorem mem_inorderPaths (n : Node V) : ∀ p, p ∈ inorderPaths n ↔ subtreeAt n p ≠ .nil := by
  induction n with
  | nil => intro p; simp [inorderPaths, subtreeAt_nil]
  | node k v l r ihl ihr =>
    intro p
    cases p with
    | nil => simp [inorderPaths]
    | cons d q =>
      cases d with
      | L => simp [inorderPaths, ihl q]
      | R => simp [inorderPaths, ihr q]

/-- C23: in every tree, with `parent` the position one link up, `begin()` and repeated
`++` visit the positions of the in-order sequence (left subtree, node, right subtree):
the loop from `begin()` to `end()` visits exactly this sequence, which holds every node
once and reads the in-order entries, the `i`-th increment arrives at its `i`-th position,
and the increment number `n`, the number of nodes, arrives at `end()`; `begin()` of the
empty tree is `end()`. -/
theorem increment_visits_inorder_sequence (n : Node V) (sz : Nat) :
    Tree.begin (⟨.live .nil, sz⟩ : Tree V) = some (Tree.endIter (⟨.live .nil, sz⟩ : Tree V)) ∧
      ∃ it0, Tree.begin ⟨.live n, sz⟩ = some it0 ∧
        Tree.forward ⟨.live n, sz⟩ n.count = some (inorderPaths n) ∧
        (inorderPaths n).map (dataAt n) = n.toList.map some ∧
        (∀ p, p ∈ inorderPaths n ↔ subtreeAt n p ≠ .nil) ∧
        (inorderPaths n).Nodup ∧ (inorderPaths n).length = n.count ∧
        (∀ i p, (inorderPaths n)[i]? = some p → advance n i it0 = some (Iter.ptr p)) ∧
        advance n n.count it0 = some Iter.null := by
  refine ⟨rfl, ?_⟩
  have hfw := Tree.forward_live n sz 0
  rw [Nat.add_zero] at hfw
  by_cases hne : n = .nil
  · subst hne
    refine ⟨.null, rfl, hfw, rfl, mem_inorderPaths _, ?_, rfl, ?_, rfl⟩
    · simp [inorderPaths]
    · intro i p h; simp [inorderPaths] at h
  · have hbegin : Tree.begin ⟨.live n, sz⟩ = some (Iter.ptr (descendLeft n)) := by
      cases n with
      | nil => exact absurd rfl hne
      | node _ _ _ _ => rfl
    have hloop : forward n n.count (.ptr (descendLeft n)) = inorderPaths n := by
      have := forward_from_begin n hne 0
      rwa [Nat.add_zero] at this
    have hsteps : ∀ i p, (inorderPaths n)[i]? = some p →
        advance n i (.ptr (descendLeft n)) = some (Iter.ptr p) := by
      intro i p h
      exact advance_forward n n.count _ i p (by rw [hloop]; exact h)
    refine ⟨.ptr (descendLeft n), hbegin, hfw, inorderPaths_data n, mem_inorderPaths n,
      inorderPaths_nodup n, inorderPaths_length n, hsteps, ?_⟩
    have hpos : 0 < n.count := by
      cases n with
      | nil => exact absurd rfl hne
      | node _ _ _ _ => simp only [Node.count]; omega
    have hlast : (inorderPaths n)[n.count - 1]? = some (descendRight n) := by
      rw [← inorderPaths_getLast n hne, List.getLast?_eq_getElem?, inorderPaths_length]
    have h1 := hsteps _ _ hlast
    have h2 : n.count = (n.count - 1) + 1 := by omega
    rw [h2, advance_succ, h1]
    exact increment_last n hne

end KDTree

namespace KDTree
variable {V : Type}

/-! ## The pruned and the unpruned search for the minimum -/

theorem unprunedMin_accurate (c : Nat) (n : Node V) :
    ∀ (s : NodeRef V), unprunedMin c n = some s → s.accurate n := by
  induction n with
  | nil => intro s h; simp [unprunedMin] at h
  | node k v l r0 ihl ihr =>
    intro s h
    have hl : ∀ q, (unprunedMin c l).map (NodeRef.under .L) = some q →
        q.accurate (.node k v l r0) := by
      intro q hq
      cases hf : unprunedMin c l with
      | none => simp [hf] at hq
      | some m =>
        simp only [hf, Option.map_some', Option.some.injEq] at hq
        subst hq
        have := ihl _ hf
        simpa [NodeRef.accurate, dataAt, subtreeAt] using this
    have hr : ∀ q, (unprunedMin c r0).map (NodeRef.under .R) = some q →
        q.accurate (.node k v l r0) := by
      intro q hq
      cases hf : unprunedMin c r0 with
      | none => simp [hf] at hq
      | some m =>
        simp only [hf, Option.map_some', Option.some.injEq] at hq
        subst hq
        have := ihr _ hf
        simpa [NodeRef.accurate, dataAt, subtreeAt] using this
    have hs : (⟨[], k, v⟩ : NodeRef V).accurate (.node k v l r0) := by
      simp [NodeRef.accurate, dataAt, subtreeAt]
    simp only [unprunedMin] at h
    rcases compareNode_cases c .less (some ⟨[], k, v⟩)
      (compareNode c .less ((unprunedMin c l).map (NodeRef.under .L))
        ((unprunedMin c r0).map (NodeRef.under .R))) with h1 | h1
    · rw [h1] at h
      cases h
      exact hs
    · rw [h1] at h
      rcases compareNode_cases c .less ((unprunedMin c l).map (NodeRef.under .L))
        ((unprunedMin c r0).map (NodeRef.under .R)) with h2 | h2
      · rw [h2] at h; exact hl s h
      · rw [h2] at h; exact hr s h

/-- The unpruned scan returns a node whose coordinate is not above that of any key. -/
theorem unprunedMin_le (c : Nat) (n : Node V) :
    ∀ a ∈ n.keys, ∃ s, unprunedMin c n = some s ∧ coord c s.key ≤ coord c a := by
  induction n with
  | nil => intro a ha; simp [Node.keys, Node.toList] at ha
  | node k v l r0 ihl ihr =>
    intro a ha
    rw [Node.keys_node] at ha
    simp only [List.mem_append, List.mem_cons] at ha
    simp only [unprunedMin]
    obtain ⟨res, hres⟩ := compareNode_isSome_left c .less (⟨[], k, v⟩ : NodeRef V)
      (compareNode c .less ((unprunedMin c l).map (NodeRef.under .L))
        ((unprunedMin c r0).map (NodeRef.under .R)))
    refine ⟨res, hres, ?_⟩
    obtain ⟨hle1, hle2⟩ := compareNode_less_le c _ _ res hres
    rcases ha with ha | ha | ha
    · obtain ⟨m, hm, hma⟩ := ihl a ha
      obtain ⟨m2, hm2⟩ : ∃ m2, compareNode c .less
          ((unprunedMin c l).map (NodeRef.under .L))
          ((unprunedMin c r0).map (NodeRef.under .R)) = some m2 := by
        rw [hm]; exact compareNode_isSome_left c .less _ _
      have h1 := hle2 m2 hm2
      have h2 := (compareNode_less_le c _ _ m2 hm2).1 (m.under .L) (by rw [hm]; rfl)
      simp only [NodeRef.under_key] at h2
      omega
    · rw [ha]; exact hle1 _ rfl
    · obtain ⟨m, hm, hma⟩ := ihr a ha
      obtain ⟨m2, hm2⟩ : ∃ m2, compareNode c .less
          ((unprunedMin c l).map (NodeRef.under .L))
          ((unprunedMin c r0).map (NodeRef.under .R)) = some m2 := by
        rw [hm]; exact compareNode_isSome_right c .less _ _
      have h1 := hle2 m2 hm2
      have h2 := (compareNode_less_le c _ _ m2 hm2).2 (m.under .R) (by rw [hm]; rfl)
      simp only [NodeRef.under_key] at h2
      omega

theorem findMin_eq_none (K c : Nat) (n : Node V) (dim : Nat) :
    findMin K c dim n = none ↔ n = .nil := by
  cases n with
  | nil => simp [findMin]
  | node k v l r =>
    simp only [findMin, reduceCtorEq, iff_false]
    obtain ⟨res, hres⟩ := compareNode_isSome_left c .less (⟨[], k, v⟩ : NodeRef V)
      (if c ≠ dim then
        compareNode c .less ((findMin K c (dimNext K dim) l).map (NodeRef.under .L))
          ((findMin K c (dimNext K dim) r).map (NodeRef.under .R))
       else (findMin K c (dimNext K dim) l).map (NodeRef.under .L))
    rw [hres]
    simp

theorem findMax_eq_none (K c : Nat) (n : Node V) (dim : Nat) :
    findMax K c dim n = none ↔ n = .nil := by
  cases n with
  | nil => simp [findMax]
  | node k v l r =>
    simp only [findMax, reduceCtorEq, iff_false]
    obtain ⟨res, hres⟩ := compareNode_isSome_left c .greater (⟨[], k, v⟩ : NodeRef V)
      (if c ≠ dim then
        compareNode c .greater ((findMax K c (dimNext K dim) r).map (NodeRef.under .R))
          ((findMax K c (dimNext K dim) l).map (NodeRef.under .L))
       else (findMax K c (dimNext K dim) r).map (NodeRef.under .R))
    rw [hres]
    simp

/-- C22: on a non-empty subtree that branches on `dim` and satisfies the partition
invariant, the pruned search `findMin<c>` and the scan of both subtrees each return a
node of the subtree, the two nodes have the same coordinate on `c`, and no key of the
subtree has a smaller one; `findMin` and `findMax` return no node exactly on the empty
subtree. -/
theorem findMin_pruning_keeps_minimum (K c dim : Nat) (n : Node V) (hne : n ≠ .nil)
    (hp : partitionOK K dim n = true) :
    (∃ r s, findMin K c dim n = some r ∧ unprunedMin c n = some s ∧
        r.accurate n ∧ s.accurate n ∧ coord c r.key = coord c s.key ∧
        ∀ a ∈ n.keys, coord c r.key ≤ coord c a) ∧
      ∀ (m : Node V) (d : Nat),
        (findMin K c d m = none ↔ m = .nil) ∧ (findMax K c d m = none ↔ m = .nil) := by
  refine ⟨?_, fun m d => ⟨findMin_eq_none K c m d, findMax_eq_none K c m d⟩⟩
  obtain ⟨k0, hk0⟩ : ∃ k0, k0 ∈ n.keys := by
    cases n with
    | nil => exact absurd rfl hne
    | node k v l r => exact ⟨k, by rw [Node.keys_node]; simp⟩
  obtain ⟨r, hr, _⟩ := findMin_le K c n dim hp k0 hk0
  obtain ⟨s, hs, _⟩ := unprunedMin_le c n k0 hk0
  have hall : ∀ a ∈ n.keys, coord c r.key ≤ coord c a := by
    intro a ha
    obtain ⟨r1, hr1, hle⟩ := findMin_le K c n dim hp a ha
    rw [hr] at hr1
    cases hr1
    exact hle
  have hall2 : ∀ a ∈ n.keys, coord c s.key ≤ coord c a := by
    intro a ha
    obtain ⟨s1, hs1, hle⟩ := unprunedMin_le c n a ha
    rw [hs] at hs1
    cases hs1
    exact hle
  have hracc := findMin_accurate K c n dim r hr
  have hsacc := unprunedMin_accurate c n s hs
  have hrmem : r.key ∈ n.keys := findMin_mem K c n dim r hr
  have hsmem : s.key ∈ n.keys :=
    List.mem_map_of_mem Prod.fst (dataAt_mem _ _ _ hsacc)
  exact ⟨r, s, hr, hs, hracc, hsacc, le_antisymm (hall _ hsmem) (hall2 _ hrmem), hall⟩

theorem findMin_pruning_keeps_minimum_witness :
    findMin 2 0 0 (Node.node [5, 0] "a" (.node [3, 1] "b" .nil (.node [3, 2] "c" .nil .nil))
        (.node [7, 1] "d" .nil .nil)) = some ⟨[Dir.L], [3, 1], "b"⟩ ∧
      (∃ r s, findMin 2 0 0 (Node.node [5, 0] "a"
            (.node [3, 1] "b" .nil (.node [3, 2] "c" .nil .nil))
            (.node [7, 1] "d" .nil .nil)) = some r ∧
          unprunedMin 0 (Node.node [5, 0] "a"
            (.node [3, 1] "b" .nil (.node [3, 2] "c" .nil .nil))
            (.node [7, 1] "d" .nil .nil)) = some s ∧
          r.accurate (Node.node [5, 0] "a"
            (.node [3, 1] "b" .nil (.node [3, 2] "c" .nil .nil))
            (.node [7, 1] "d" .nil .nil)) ∧
          s.accurate (Node.node [5, 0] "a"
            (.node [3, 1] "b" .nil (.node [3, 2] "c" .nil .nil))
            (.node [7, 1] "d" .nil .nil)) ∧
          coord 0 r.key = coord 0 s.key ∧
          ∀ a ∈ (Node.node [5, 0] "a"
            (.node [3, 1] "b" .nil (.node [3, 2] "c" .nil .nil))
            (.node [7, 1] "d" .nil .nil)).keys, coord 0 r.key ≤ coord 0 a) ∧
        ∀ (m : Node String) (d : Nat),
          (findMin 2 0 d m = none ↔ m = .nil) ∧ (findMax 2 0 d m = none ↔ m = .nil) :=
  ⟨by decide,
    findMin_pruning_keeps_minimum 2 0 0
      (Node.node [5, 0] "a" (.node [3, 1] "b" .nil (.node [3, 2] "c" .nil .nil))
        (.node [7, 1] "d" .nil .nil)) (by decide) (by decide)⟩

end KDTree

namespace KDTree
variable {V : Type}

/-! ## Bulk construction: balance -/

theorem Node.sizeBalanced_node (k : Key) (v : V) (l r : Node V) :
    (Node.node k v l r).sizeBalanced = true ↔
      (r.count = l.count ∨ r.count = l.count + 1) ∧ l.sizeBalanced = true ∧
        r.sizeBalanced = true := by
  simp [Node.sizeBalanced, and_assoc]

/-- A tree in which every right subtree has as many nodes as its left sibling or one more
has between `2 ^ (height - 1)` and `2 ^ height - 1` nodes, and the heights of the two
subtrees of every node differ by at most one. -/
theorem sizeBalanced_height (t : Node V) :
    t.sizeBalanced = true →
      t.count < 2 ^ t.height ∧ 2 ^ t.height ≤ 2 * t.count + 1 ∧ t.heightBalanced = true := by
  induction t with
  | nil => intro _; simp [Node.count, Node.height, Node.heightBalanced]
  | node k v l r ihl ihr =>
    intro h
    rw [Node.sizeBalanced_node] at h
    obtain ⟨hc, hl, hr⟩ := h
    obtain ⟨l1, l2, l3⟩ := ihl hl
    obtain ⟨r1, r2, r3⟩ := ihr hr
    have hle : l.height ≤ r.height := by
      by_contra hlt
      have hlt1 : r.height + 1 ≤ l.height := by omega
      have hp : 2 ^ (r.height + 1) ≤ 2 ^ l.height := Nat.pow_le_pow_right (by decide) hlt1
      rw [pow_succ] at hp
      omega
    have hge : r.height ≤ l.height + 1 := by
      by_contra hlt
      have hlt1 : l.height + 2 ≤ r.height := by omega
      have hp : 2 ^ (l.height + 2) ≤ 2 ^ r.height := Nat.pow_le_pow_right (by decide) hlt1
      rw [pow_succ, pow_succ] at hp
      omega
    have hmax : max l.height r.height = r.height := Nat.max_eq_right hle
    simp only [Node.count, Node.height, Node.heightBalanced, hmax, pow_succ]
    refine ⟨by omega, ?_, ?_⟩
    · cases hh : r.height with
      | zero =>
        rw [hh] at r1
        simp only [pow_zero] at r1 ⊢
        omega
      | succ j =>
        rw [hh, pow_succ] at r2
        rw [pow_succ]
        omega
    · simp [l3, r3, hge]
      omega

/-- The number of nodes fixes the height of such a tree. -/
theorem height_of_count (c h : Nat) (h1 : c < 2 ^ h) (h2 : 2 ^ h ≤ 2 * c + 1) (hc : 0 < c) :
    h = Nat.log 2 c + 1 := by
  cases h with
  | zero => simp at h1; omega
  | succ j =>
    rw [pow_succ] at h2
    have h3 : 2 ^ j ≤ c := by omega
    have := Nat.log_eq_of_pow_le_of_lt_pow h3 h1
    omega

end KDTree

namespace KDTree
variable {V : Type}

/-- Whatever `nth_element` does to the vector, a call of `vectorConstruct` that returns
has built one node per index of its span, with the indices after the midpoint, as many
as before it or one more, in the right subtree. -/
theorem vectorConstruct_sizeBalanced
    (nth : ((Key × V) → (Key × V) → Bool) → Nat → List (Key × V) → List (Key × V))
    (K : Nat) :
    ∀ (fuel dim : Nat) (left right : Int) (v : List (Key × V)) (t : Node V)
      (v1 : List (Key × V)), 0 ≤ left → left ≤ right + 1 →
      vectorConstruct nth K fuel dim left right v = some (t, v1) →
      (t.count : Int) = right - left + 1 ∧ t.sizeBalanced = true := by
  intro fuel
  induction fuel with
  | zero => intro dim left right v t v1 _ _ h; simp [vectorConstruct] at h
  | succ fuel ih =>
    intro dim left right v t v1 h0 h1 h
    rw [vectorConstruct_succ] at h
    by_cases hgt : left > right
    · rw [if_pos hgt] at h
      simp only [Option.some.injEq, Prod.mk.injEq] at h
      obtain ⟨ht, _⟩ := h
      subst ht
      simp only [Node.count, Node.sizeBalanced, and_true]
      push_cast
      omega
    · rw [if_neg hgt] at h
      have hmid : (left + right).tdiv 2 = (left + right) / 2 :=
        Int.tdiv_eq_ediv (by omega) (by omega)
      rw [hmid] at h
      split at h
      · exact absurd h (by simp)
      · rename_i d _
        split at h
        · exact absurd h (by simp)
        · rename_i l v2 hl
          split at h
          · exact absurd h (by simp)
          · rename_i r v3 hr
            simp only [Option.some.injEq, Prod.mk.injEq] at h
            obtain ⟨ht, _⟩ := h
            subst ht
            obtain ⟨cl, bl⟩ := ih _ _ _ _ _ _ h0 (by omega) hl
            obtain ⟨cr, br⟩ := ih _ _ _ _ _ _ (by omega) (by omega) hr
            rw [Node.sizeBalanced_node]
            simp only [Node.count]
            push_cast
            refine ⟨by omega, ?_, bl, br⟩
            omega

/-- The bulk constructor returns a tree with one node per distinct key of the batch,
built by a call of `vectorConstruct` over the whole deduplicated vector. -/
theorem ofVector_nodes
    (nth : ((Key × V) → (Key × V) → Bool) → Nat → List (Key × V) → List (Key × V))
    (hperm : ∀ cmp n l, StrictWeakOrder cmp → n ≤ l.length → (nth cmp n l).Perm l)
    (K : Nat) (batch : List (Key × V)) :
    ∃ root sz, Tree.ofVector nth K batch = some ⟨.live root, sz⟩ ∧
      root.count = (batch.map Prod.fst).dedup.length ∧ root.sizeBalanced = true := by
  cases hb : batch with
  | nil => exact ⟨.nil, 0, by simp [Tree.ofVector], rfl, rfl⟩
  | cons b0 rest0 =>
    rw [← hb]
    have hne : batch ≠ [] := by rw [hb]; exact List.cons_ne_nil _ _
    obtain ⟨hnd, hmem⟩ := dedup_vector_spec batch
    generalize hv2 : (stdUnique uniqueComp (stableSort (sortComp 0) batch).reverse).reverse = v2
      at hnd hmem
    obtain ⟨root, S1, hvc, hS1, hroot⟩ :=
      vectorConstruct_span nth hperm K (v2.length + 1) v2 [] [] 0 (by omega)
    simp only [List.length_nil, Nat.cast_zero, zero_add, List.nil_append, List.append_nil]
      at hvc
    have hof : Tree.ofVector nth K batch = some ⟨.live root, S1.length⟩ := by
      unfold Tree.ofVector
      have : batch.isEmpty = false := by
        cases batch with
        | nil => exact absurd rfl hne
        | cons _ _ => rfl
      rw [this]
      simp only [Bool.false_eq_true, if_false]
      rw [hv2, hvc]
    obtain ⟨hcount, hbal⟩ := vectorConstruct_sizeBalanced nth K _ _ _ _ _ _ _
      (le_refl _) (by omega) hvc
    have hkeys : (v2.map Prod.fst).Perm (batch.map Prod.fst).dedup := by
      rw [List.perm_ext_iff_of_nodup hnd (List.nodup_dedup _)]
      intro k
      rw [List.mem_dedup]
      constructor
      · intro h
        obtain ⟨e, he, hek⟩ := List.mem_map.mp h
        have := (hmem e.1 e.2).mp he
        rw [← hek]
        exact lastValue_mem_keys _ _ _ this
      · intro h
        have hsome := lastValue_isSome k batch none (Or.inr h)
        cases hl : lastValue batch k with
        | none =>
          unfold lastValue at hl
          rw [hl] at hsome
          simp at hsome
        | some v =>
          exact List.mem_map.mpr ⟨(k, v), (hmem k v).mpr hl, rfl⟩
    have hlen := hkeys.length_eq
    simp only [List.length_map] at hlen
    refine ⟨root, S1.length, hof, ?_, hbal⟩
    omega

/-- C24: for every batch, and every `std::nth_element` that permutes its range, the bulk
constructor returns a tree with one node per distinct key in which, at every node, the
right subtree has as many nodes as the left subtree or exactly one more; hence the
heights of the two subtrees of every node differ by at most one, and for a non-empty
batch with `n` distinct keys the height of the tree is `floor(log2 n) + 1`. -/
theorem bulk_constructor_builds_balanced_tree
    (nth : ((Key × V) → (Key × V) → Bool) → Nat → List (Key × V) → List (Key × V))
    (hperm : ∀ cmp n l, StrictWeakOrder cmp → n ≤ l.length → (nth cmp n l).Perm l)
    (K : Nat) (batch : List (Key × V)) :
    ∃ root sz, Tree.ofVector nth K batch = some ⟨.live root, sz⟩ ∧
      root.count = (batch.map Prod.fst).dedup.length ∧
      root.sizeBalanced = true ∧ root.heightBalanced = true ∧
      (batch ≠ [] → root.height = Nat.log 2 (batch.map Prod.fst).dedup.length + 1) := by
  obtain ⟨root, sz, hof, hcount, hbal⟩ := ofVector_nodes nth hperm K batch
  obtain ⟨h1, h2, h3⟩ := sizeBalanced_height root hbal
  refine ⟨root, sz, hof, hcount, hbal, h3, ?_⟩
  intro hne
  have hpos : 0 < (batch.map Prod.fst).dedup.length := by
    cases batch with
    | nil => exact absurd rfl hne
    | cons b rest =>
      apply List.length_pos_of_mem (a := b.1)
      rw [List.mem_dedup]
      simp
  rw [← hcount] at hpos ⊢
  exact height_of_count _ _ h1 h2 hpos

theorem bulk_constructor_builds_balanced_tree_witness :
    Tree.ofVector nthBySort 2 [([1, 1], "w"), ([2, 2], "x"), ([3, 4], "y"), ([4, 3], "z")] =
        some ⟨.live (.node [2, 2] "x" (.node [1, 1] "w" .nil .nil)
          (.node [3, 4] "y" .nil (.node [4, 3] "z" .nil .nil))), 4⟩ ∧
      (Node.node [2, 2] "x" (.node [1, 1] "w" .nil .nil)
          (.node [3, 4] "y" .nil (.node [4, 3] "z" .nil .nil))).height = 3 ∧
      ∃ root sz, Tree.ofVector nthBySort 2
          [([1, 1], "w"), ([2, 2], "x"), ([3, 4], "y"), ([4, 3], "z")]
            = some ⟨.live root, sz⟩ ∧
        root.count
          = ([(([1, 1] : Key), "w"), ([2, 2], "x"), ([3, 4], "y"), ([4, 3], "z")].map
              Prod.fst).dedup.length ∧
        root.sizeBalanced = true ∧ root.heightBalanced = true ∧
        ([(([1, 1] : Key), "w"), ([2, 2], "x"), ([3, 4], "y"), ([4, 3], "z")] ≠ [] →
          root.height = Nat.log 2
            ([(([1, 1] : Key), "w"), ([2, 2], "x"), ([3, 4], "y"), ([4, 3], "z")].map
              Prod.fst).dedup.length + 1) :=
  ⟨by decide, by decide,
    bulk_constructor_builds_balanced_tree nthBySort nthBySort_spec.perm 2
      [([1, 1], "w"), ([2, 2], "x"), ([3, 4], "y"), ([4, 3], "z")]⟩

end KDTree

namespace KDTree
variable {V : Type}

/-! ## Bulk construction: the span handed to the selection -/

/-- C21: for every `std::nth_element` that meets its contract, bulk construction from
(1,1), (2,2), (3,4), (4,3) makes the recursive call over the span (3,4), (4,3) at indices
2 and 3 with dimension 1.  The selection runs on the range without the last index, so
the call makes (3,4) the subtree root and puts (4,3) in the right sub-span, although the
median of the span in the order of component 1 is (4,3), and (4,3) is less than the
root (3,4) in that order. -/
theorem vectorConstruct_root_is_not_span_median
    (nth : ((Key × String) → (Key × String) → Bool) → Nat → List (Key × String) →
      List (Key × String))
    (h : NthElementSpec nth) :
    Tree.ofVector nth 2 [([1, 1], "w"), ([2, 2], "x"), ([3, 4], "y"), ([4, 3], "z")] =
        some ⟨.live (.node [2, 2] "x" (.node [1, 1] "w" .nil .nil)
          (.node [3, 4] "y" .nil (.node [4, 3] "z" .nil .nil))), 4⟩ ∧
      vectorConstruct nth 2 4 1 2 3
          [([1, 1], "w"), ([2, 2], "x"), ([3, 4], "y"), ([4, 3], "z")]
        = some (.node [3, 4] "y" .nil (.node [4, 3] "z" .nil .nil),
            [([1, 1], "w"), ([2, 2], "x"), ([3, 4], "y"), ([4, 3], "z")]) ∧
      specMedian 1 [(([3, 4] : Key), "y"), ([4, 3], "z")] = some ([4, 3], "z") ∧
      specLess 1 [4, 3] [3, 4] = true := by
  refine ⟨bulk_four_distinct nth h, ?_, by decide, by decide⟩
  have hr := vectorConstruct_pair nth h 2 1 1 [([1, 1], "w"), ([2, 2], "x")] []
    ([3, 4], "y") ([4, 3], "z")
  simp only [List.length_cons, List.length_nil, List.cons_append, List.nil_append] at hr
  have e3 : (((0 + 1 + 1 : Nat) : Int)) = 2 := by decide
  have e4 : ((2 : Int) + 1) = 3 := by decide
  rw [e3, e4] at hr
  exact hr

/-- C21 with the reference `nth_element` (sorting the range). -/
theorem vectorConstruct_root_is_not_span_median_witness :
    Tree.ofVector nthBySort 2 [([1, 1], "w"), ([2, 2], "x"), ([3, 4], "y"), ([4, 3], "z")] =
        some ⟨.live (.node [2, 2] "x" (.node [1, 1] "w" .nil .nil)
          (.node [3, 4] "y" .nil (.node [4, 3] "z" .nil .nil))), 4⟩ ∧
      vectorConstruct nthBySort 2 4 1 2 3
          [([1, 1], "w"), ([2, 2], "x"), ([3, 4], "y"), ([4, 3], "z")]
        = some (.node [3, 4] "y" .nil (.node [4, 3] "z" .nil .nil),
            [([1, 1], "w"), ([2, 2], "x"), ([3, 4], "y"), ([4, 3], "z")]) ∧
      specMedian 1 [(([3, 4] : Key), "y"), ([4, 3], "z")] = some ([4, 3], "z") ∧
      specLess 1 [4, 3] [3, 4] = true :=
  vectorConstruct_root_is_not_span_median nthBySort nthBySort_spec

end KDTree
